import Mathlib

/-!
GMM background extractor: per-pixel Gaussian mixture model

Shallow embedding of `src/GMM.cpp` / `src/GMM.hpp` and of the mask loop of `main` in
`src/camBg.cpp`.

* C++ `double` arithmetic is idealised as exact arithmetic in a linearly
  ordered field `α` (the theorems are used at `α = ℝ`; the definitions also
  run at `α = ℚ`).
* Where rounding decides a property, the piece of code concerned is also given
  with its arithmetic as a parameter `Arith α`: `Arith.exact` is the field
  arithmetic above, `Arith.binary64` is IEEE 754 binary64 (round to nearest,
  ties to even) on the rationals, the arithmetic of `double` on x86-64.
* The libm functions `sqrt`, `exp` and the constant `M_PI` are passed in a
  record `Libm α`; at `ℝ` they are `Real.sqrt`, `Real.exp`, `Real.pi`.
* `std::vector::at` is bounds-checked: an out-of-range access is the fault
  `Fault.outOfRange`.
* The random generator of `randomSample` is a tape (list) of drawn indices;
  every iteration of the `while` loop consumes one draw, and a tape that ends
  while the loop is still running is reported as `Fault.fuelExhausted`
  (the loop has not terminated within those draws). On an empty buffer the
  generator `uniform_int_distribution<>(0, data.size() - 1)` gets an upper bound
  that wraps below the lower one: undefined behaviour, `Fault.undefinedBehaviour`.
* libc `qsort` is an insertion sort driven by the comparator.
-/

namespace GMMBg

/-- Ways in which a call does not produce a result. -/
inductive Fault where
  | outOfRange
  | fuelExhausted
  | undefinedBehaviour
  deriving DecidableEq

/-- OpenCV `Vec3b`: three unsigned 8-bit channels, indexed `[0]`, `[1]`, `[2]`. -/
structure Vec3b where
  c0 : Fin 256
  c1 : Fin 256
  c2 : Fin 256
  deriving DecidableEq

/-- The libm functions used by the source: `sqrt`, `exp`, and the constant `M_PI`. -/
structure Libm (α : Type) where
  sqrt : α → α
  exp : α → α
  pi : α

/-- Class `Gaussian` of `GMM.hpp`. -/
structure Gaussian (α : Type) where
  meanB : α
  meanG : α
  meanR : α
  variance : α
  weight : α
  weightStdRatio : α

/-- Class `GMM` of `GMM.hpp` (fields in declaration order). -/
structure GMM (α : Type) where
  K : Nat
  gDists : List (Gaussian α)
  lr : α
  highVariance : α
  minVariance : α

/-- Bounds-checked `std::vector::at`. -/
def atE {β : Type} (l : List β) (i : Nat) : Except Fault β :=
  match l.get? i with
  | some x => .ok x
  | none => .error .outOfRange

section Defs

variable {α : Type} [LinearOrderedField α]

/-- Constructor `GMM::GMM(int nComponents)` with the in-class default member values. -/
def GMM.new (nComponents : Nat) : GMM α :=
  { K := nComponents, gDists := [], lr := 0.001, highVariance := 36.0, minVariance := 8.0 }

/-- Method `Gaussian::getProbability`. -/
def Gaussian.getProbability (L : Libm α) (g : Gaussian α) (dist : α) : α :=
  (1.0 / L.sqrt (2 * L.pi * g.variance)) * L.exp (-dist / (2 * g.variance))

/-- The `while (sampled.size() < N)` loop of `randomSample`; the first argument is the
tape of indices returned by successive `generator(eng)` calls. -/
def randomSampleLoop (data : List Vec3b) (N : Nat) :
    List Nat → List Vec3b → List Nat → Except Fault (List Vec3b)
  | [], sampled, _ =>
    if sampled.length < N then .error .fuelExhausted else .ok sampled
  | index :: tape, sampled, sampledIndices =>
    if sampled.length < N then
      if index ∈ sampledIndices then
        randomSampleLoop data N tape sampled sampledIndices
      else
        match atE data index with
        | .error e => .error e
        | .ok v => randomSampleLoop data N tape (sampled ++ [v]) (sampledIndices ++ [index])
    else .ok sampled

/-- Function `randomSample(data, N)`. The generator is
`uniform_int_distribution<>(0, data.size() - 1)`; for an empty `data` the unsigned
`data.size() - 1` wraps and the `int` upper bound is below the lower bound `0`, which the
distribution requires not to happen: undefined behaviour. -/
def randomSample (tape : List Nat) (data : List Vec3b) (N : Nat) : Except Fault (List Vec3b) :=
  if data.length = 0 then .error .undefinedBehaviour
  else randomSampleLoop data N tape [] []

/-- Function `calcVariance(data, mean)`. -/
def calcVariance (data : List Vec3b) (mean : α) : α :=
  (data.foldl
    (fun sqDiffs v =>
      sqDiffs + ((((v.c0.val : α) - mean) + ((v.c1.val : α) - mean)) + ((v.c2.val : α) - mean)))
    0.0) / (data.length : α)

/-- Comparator `distCmp`. -/
def distCmp (g1 g2 : Gaussian α) : Int :=
  if g1.weightStdRatio < g2.weightStdRatio then 1
  else if g1.weightStdRatio = g2.weightStdRatio then 0
  else -1

/-- Comparator-driven insertion used by `qsort`: `x` goes before the first element
it does not compare greater than. -/
def qsortInsert {β : Type} (cmp : β → β → Int) (x : β) : List β → List β
  | [] => [x]
  | y :: ys => if cmp x y ≤ 0 then x :: y :: ys else y :: qsortInsert cmp x ys

/-- libc `qsort` on a whole list: ascending in the comparator's order. The C standard
leaves the algorithm and the order of elements that compare equal open; this is a stable
insertion sort. -/
def qsort {β : Type} (cmp : β → β → Int) : List β → List β
  | [] => []
  | x :: xs => qsortInsert cmp x (qsort cmp xs)

/-- The call `qsort(gDists.data(), K, sizeof(Gaussian), distCmp)`: sorts the first `K` entries. -/
def qsortFirst (K : Nat) (l : List (Gaussian α)) : List (Gaussian α) :=
  qsort distCmp (l.take K) ++ l.drop K

/-- Body of the `for` loop of `GMM::init` for one selected mean. -/
def initGaussian (g : GMM α) (L : Libm α) (initialSamples : List Vec3b) (m : Vec3b) :
    Gaussian α :=
  let meanB : α := (m.c0.val : α)
  let meanG : α := (m.c1.val : α)
  let meanR : α := (m.c2.val : α)
  let variance := calcVariance initialSamples ((meanB + meanG + meanR) / 3.0)
  let variance := if variance < g.minVariance then g.minVariance else variance
  let weight := 1.0 / (g.K : α)
  { meanB := meanB, meanG := meanG, meanR := meanR, variance := variance, weight := weight,
    weightStdRatio := weight / L.sqrt variance }

/-- The `for (i = 0; i < K; i++)` loop of `GMM::init`: `initLoop … n` is the list of
Gaussians pushed by iterations `0 … n-1`. -/
def initLoop (g : GMM α) (L : Libm α) (initialSamples means : List Vec3b) :
    Nat → Except Fault (List (Gaussian α))
  | 0 => .ok []
  | n + 1 =>
    match initLoop g L initialSamples means n with
    | .error e => .error e
    | .ok acc =>
      match atE means n with
      | .error e => .error e
      | .ok m => .ok (acc ++ [initGaussian g L initialSamples m])

/-- Method `GMM::init`: the `K` new Gaussians are pushed after the entries already in
`gDists`, and `qsort` is run on the first `K` entries. -/
def GMM.init (g : GMM α) (L : Libm α) (tape : List Nat) (initialSamples : List Vec3b) :
    Except Fault (GMM α) :=
  match randomSample tape initialSamples g.K with
  | .error e => .error e
  | .ok means =>
    match initLoop g L initialSamples means g.K with
    | .error e => .error e
    | .ok gs => .ok { g with gDists := qsortFirst g.K (g.gDists ++ gs) }

/-- The first loop of `GMM::update`: `bgGaussianI`, started at count `n` and running sum `sum`. -/
def bgGaussianI (bgThresh : α) : List (Gaussian α) → α → Nat → Nat
  | [], _, n => n
  | d :: ds, sum, n => if sum < bgThresh then bgGaussianI bgThresh ds (sum + d.weight) (n + 1) else n

/-- Squared colour distance `dist` computed in the main loop of `GMM::update`. -/
def sqDist (d : Gaussian α) (pixelVal : Vec3b) : α :=
  (d.meanB - (pixelVal.c0.val : α)) ^ 2 + (d.meanG - (pixelVal.c1.val : α)) ^ 2
    + (d.meanR - (pixelVal.c2.val : α)) ^ 2

/-- Loop-carried variables of the main loop of `GMM::update`. -/
structure Scan (α : Type) where
  foundMatch : Bool
  weightSum : α
  background : Int

/-- One iteration (index `i`, entry `d`) of the main loop of `GMM::update`. -/
def updateStep (g : GMM α) (L : Libm α) (pixelVal : Vec3b) (bgI : Nat) (i : Nat)
    (d : Gaussian α) (s : Scan α) : Gaussian α × Scan α :=
  let weight := d.weight
  let meanB := d.meanB
  let meanG := d.meanG
  let meanR := d.meanR
  let variance := d.variance
  let dist := sqDist d pixelVal
  let background : Int := if dist < 7.5 * variance ∧ i < bgI then 1 else s.background
  if s.foundMatch then
    let w := (1 - g.lr) * weight
    let w := if w < 1e-8 then 1e-8 else w
    ({ d with weight := w },
     { foundMatch := true, weightSum := s.weightSum + w, background := background })
  else if dist < 2.5 * variance then
    let background : Int := if i < bgI then 1 else background
    let w := (1 - g.lr) * weight + g.lr
    let p := g.lr * Gaussian.getProbability L { d with weight := w } dist
    let v := (1 - p) * variance + p * (dist - variance)
    let v := if v < g.minVariance then g.minVariance
             else if v > 5 * g.highVariance then 5 * g.highVariance else v
    ({ meanB := (1 - p) * meanB + p * (pixelVal.c0.val : α),
       meanG := (1 - p) * meanG + p * (pixelVal.c1.val : α),
       meanR := (1 - p) * meanR + p * (pixelVal.c2.val : α),
       variance := v, weight := w, weightStdRatio := d.weightStdRatio },
     { foundMatch := true, weightSum := s.weightSum + w, background := background })
  else
    (d, { foundMatch := false, weightSum := s.weightSum + d.weight, background := background })

/-- The main loop of `GMM::update` from index `i` on, over the entries not yet visited. -/
def scanLoop (g : GMM α) (L : Libm α) (pixelVal : Vec3b) (bgI : Nat) :
    Nat → List (Gaussian α) → Scan α → List (Gaussian α) × Scan α
  | _, [], s => ([], s)
  | i, d :: ds, s =>
    let r := updateStep g L pixelVal bgI i d s
    let rs := scanLoop g L pixelVal bgI (i + 1) ds r.2
    (r.1 :: rs.1, rs.2)

/-- The replacement Gaussian built in the `if (!foundMatch)` block. -/
def replacement (g : GMM α) (L : Libm α) (pixelVal : Vec3b) (last : Gaussian α) : Gaussian α :=
  { meanB := (pixelVal.c0.val : α), meanG := (pixelVal.c1.val : α),
    meanR := (pixelVal.c2.val : α), variance := g.highVariance, weight := last.weight,
    weightStdRatio := last.weight / L.sqrt g.highVariance }

/-- One iteration of the renormalisation loop of `GMM::update`. -/
def renorm (L : Libm α) (weightSum : α) (d : Gaussian α) : Gaussian α :=
  let w := d.weight / weightSum
  { d with weight := w, weightStdRatio := w / L.sqrt d.variance }

/-- The two loops of `GMM::update` run on the first `K` entries of `gDists`: the entries
and loop-carried variables at the exit of the main loop. -/
def scanOf (g : GMM α) (L : Libm α) (pixelVal : Vec3b) (bgThresh : α) :
    List (Gaussian α) × Scan α :=
  let ds := g.gDists.take g.K
  let bgI := bgGaussianI bgThresh ds 0.0 0
  scanLoop g L pixelVal bgI 0 ds { foundMatch := false, weightSum := 0.0, background := 0 }

/-- The state of the first `K` entries of `gDists` just before the renormalisation loop,
together with the loop-carried variables. The main loop reads `gDists.at(i)` for every
`i < K`, so a vector shorter than `K` raises `out_of_range`; so does `gDists.at(K-1)` in the
replacement block when `K = 0`. -/
def preRenorm (g : GMM α) (L : Libm α) (pixelVal : Vec3b) (bgThresh : α) :
    Except Fault (List (Gaussian α) × Scan α) :=
  if g.gDists.length < g.K then .error .outOfRange
  else
    let r := scanOf g L pixelVal bgThresh
    if r.2.foundMatch then .ok r
    else if g.K = 0 then .error .outOfRange
    else
      match atE r.1 (g.K - 1) with
      | .error e => .error e
      | .ok last => .ok (r.1.set (g.K - 1) (replacement g L pixelVal last), r.2)

/-- Method `GMM::update`: the new state and the returned flag. -/
def GMM.update (g : GMM α) (L : Libm α) (pixelVal : Vec3b) (bgThresh : α) :
    Except Fault (GMM α × Int) :=
  match preRenorm g L pixelVal bgThresh with
  | .error e => .error e
  | .ok r =>
    .ok ({ g with gDists := qsort distCmp (r.1.map (renorm L r.2.weightSum))
                              ++ g.gDists.drop g.K },
         r.2.background)

/-- A run of `GMM::update` calls, one per `(observation, bgThresh)` pair, in order. -/
def GMM.updates (L : Libm α) : GMM α → List (Vec3b × α) → Except Fault (GMM α)
  | g, [] => .ok g
  | g, o :: os =>
    match GMM.update g L o.1 o.2 with
    | .error e => .error e
    | .ok r => GMM.updates L r.1 os

/-- The entry written by the `if (foundMatch)` branch of the main loop of `GMM::update`:
the weight decays by `1 - lr` and is floored at `1e-8`; nothing else is written. -/
def decayed (g : GMM α) (d : Gaussian α) : Gaussian α :=
  let w := (1 - g.lr) * d.weight
  let w := if w < 1e-8 then 1e-8 else w
  { d with weight := w }

/-- The entry written by the match branch (`dist < 2.5 * variance`) of the main loop of
`GMM::update`. -/
def matchedEntry (g : GMM α) (L : Libm α) (pixelVal : Vec3b) (d : Gaussian α) : Gaussian α :=
  let dist := sqDist d pixelVal
  let w := (1 - g.lr) * d.weight + g.lr
  let p := g.lr * Gaussian.getProbability L { d with weight := w } dist
  let v := (1 - p) * d.variance + p * (dist - d.variance)
  let v := if v < g.minVariance then g.minVariance
           else if v > 5 * g.highVariance then 5 * g.highVariance else v
  { meanB := (1 - p) * d.meanB + p * (pixelVal.c0.val : α),
    meanG := (1 - p) * d.meanG + p * (pixelVal.c1.val : α),
    meanR := (1 - p) * d.meanR + p * (pixelVal.c2.val : α),
    variance := v, weight := w, weightStdRatio := d.weightStdRatio }

/-- The constant `BG_T` of `camBg.cpp`. -/
def BG_T : α := 0.75

/-- Loop-carried state of the mask loop of `main` in `camBg.cpp`: the per-pixel mixtures
`pixelGMM`, the bytes `bgMask.data` of the mask (created as zeros) and `pixelCount`. -/
structure MaskLoop (α : Type) where
  pixelGMM : List (GMM α)
  bgMask : List Nat
  pixelCount : Nat

/-- Body of the inner `for` loop of the mask loop, for the observation `pixelVal`.
`pixelGMM[pixelCount]` and `bgMask.data[pixelCount]` are unchecked accesses; an index
outside `pixelGMM` is reported as `Fault.outOfRange`. -/
def pixelStep (L : Libm α) (pixelVal : Vec3b) (s : MaskLoop α) : Except Fault (MaskLoop α) :=
  match atE s.pixelGMM s.pixelCount with
  | .error e => .error e
  | .ok gmm =>
    match gmm.update L pixelVal BG_T with
    | .error e => .error e
    | .ok r =>
      let bgResponse := r.2
      let bgMask :=
        if bgResponse = 1 then s.bgMask.set s.pixelCount 0
        else if bgResponse = 0 then s.bgMask.set s.pixelCount 255
        else s.bgMask
      .ok { pixelGMM := s.pixelGMM.set s.pixelCount r.1, bgMask := bgMask,
            pixelCount := s.pixelCount + 1 }

/-- The inner loop `for (c = 0; c < cols; ++c)` of the mask loop in row `r`: `n` iterations
starting at column `c`; `frame r c` is `frame.at<Vec3b>(r, c)`. -/
def colLoop (L : Libm α) (frame : Nat → Nat → Vec3b) (r : Nat) :
    Nat → Nat → MaskLoop α → Except Fault (MaskLoop α)
  | _, 0, s => .ok s
  | c, n + 1, s =>
    match pixelStep L (frame r c) s with
    | .error e => .error e
    | .ok s2 => colLoop L frame r (c + 1) n s2

/-- The outer loop `for (r = 0; r < rows; ++r)` of the mask loop: `n` iterations starting
at row `r`. -/
def rowLoop (L : Libm α) (frame : Nat → Nat → Vec3b) (cols : Nat) :
    Nat → Nat → MaskLoop α → Except Fault (MaskLoop α)
  | _, 0, s => .ok s
  | r, n + 1, s =>
    match colLoop L frame r 0 cols s with
    | .error e => .error e
    | .ok s2 => rowLoop L frame cols (r + 1) n s2

/-- The mask loop of one post-warm-up frame: `bgMask = Mat::zeros(rows x cols)`,
`pixelCount = 0`, then the two nested loops. -/
def maskFrame (L : Libm α) (frame : Nat → Nat → Vec3b) (rows cols : Nat)
    (pixelGMM : List (GMM α)) : Except Fault (MaskLoop α) :=
  rowLoop L frame cols 0 rows
    { pixelGMM := pixelGMM, bgMask := List.replicate (rows * cols) 0, pixelCount := 0 }

/-- One pixel of `bitwise_and(frame, frame, resultImg, bgMask)` on the zero image
`resultImg` (OpenCV writes the result where the mask byte is nonzero and leaves the
destination elsewhere). -/
def composite (pixelVal : Vec3b) (maskByte : Nat) : Vec3b :=
  if maskByte ≠ 0 then pixelVal else ⟨0, 0, 0⟩

/-- The effect of the mask loop on the flat indices `lo ≤ k < hi`, where `pix k` is the
observation of pixel `k`: entries outside the range are as before, and entry `k` of the
mixtures and of the mask comes from `update` on the old mixture `k` with `pix k`. -/
def Processed (L : Libm α) (pix : Nat → Vec3b) (lo hi : Nat) (s s2 : MaskLoop α) : Prop :=
  s.pixelCount = lo ∧ s2.pixelCount = hi ∧ s2.pixelGMM.length = s.pixelGMM.length ∧
  s2.bgMask.length = s.bgMask.length ∧
  (∀ j, j < lo ∨ hi ≤ j →
    s2.pixelGMM.get? j = s.pixelGMM.get? j ∧ s2.bgMask.get? j = s.bgMask.get? j) ∧
  ∀ k, lo ≤ k → k < hi →
    ∃ gm gm2 b, s.pixelGMM.get? k = some gm ∧ gm.update L (pix k) BG_T = .ok (gm2, b) ∧
      s2.pixelGMM.get? k = some gm2 ∧ s2.bgMask.get? k = some (if b = 1 then 0 else 255)

/-- All three channel means of a component lie in the colour range `[0, 255]`. -/
def Gaussian.meansInRange (d : Gaussian α) : Prop :=
  (0 ≤ d.meanB ∧ d.meanB ≤ 255) ∧ (0 ≤ d.meanG ∧ d.meanG ≤ 255) ∧ (0 ≤ d.meanR ∧ d.meanR ≤ 255)

/-- Sum of the weights of a list of components. -/
def weightSumOf (l : List (Gaussian α)) : α := (l.map Gaussian.weight).sum

/-- The sort key recomputed from a component's weight and variance fields. -/
def Gaussian.ratio (L : Libm α) (d : Gaussian α) : α := d.weight / L.sqrt d.variance

/-! ### Rounded arithmetic of `double` -/

/-- Number of halvings that take `n` below 2, at most `fuel` of them: `⌊log₂ n⌋` when
`0 < n ≤ fuel`. -/
def log2Fuel : Nat → Nat → Nat
  | 0, _ => 0
  | fuel + 1, n => if n < 2 then 0 else log2Fuel fuel (n / 2) + 1

/-- The integer nearest to `a / b`; of two equally near integers the even one. -/
def roundNearestEven (a b : Nat) : Nat :=
  let q := a / b
  let r := a % b
  if 2 * r < b then q else if b < 2 * r then q + 1 else if q % 2 = 0 then q else q + 1

/-- The binary exponent `⌊log₂ (n / d)⌋` of a positive fraction. -/
def floorLog2 (n d : Nat) : Int :=
  let k : Int := (log2Fuel n n : Int) - (log2Fuel d d : Int)
  if d * 2 ^ k.toNat ≤ n * 2 ^ (-k).toNat then k else k - 1

/-- The rational `m · 2 ^ e`. -/
def scaleB (m : Nat) (e : Int) : ℚ := mkRat ((m * 2 ^ e.toNat : Nat) : Int) (2 ^ (-e).toNat)

/-- Rounding of the positive fraction `n / d` to a 53-bit significand. -/
def roundPos (n d : Nat) : ℚ :=
  let e : Int := floorLog2 n d - 52
  scaleB (roundNearestEven (n * 2 ^ (-e).toNat) (d * 2 ^ e.toNat)) e

/-- The `double` nearest to a rational: IEEE 754 binary64 rounding to nearest, ties to
even (the default rounding mode), for values in the normal range; overflow, subnormal
numbers and the sign of zero are not represented. -/
def roundBinary64 (q : ℚ) : ℚ :=
  if q = 0 then 0 else if 0 < q then roundPos q.num.natAbs q.den
  else - roundPos q.num.natAbs q.den

/-- Bitwise integer square root: the largest `r + j` with `j < 2 ^ k` and
`(r + j) ^ 2 ≤ n`. -/
def sqrtFloorFuel : Nat → Nat → Nat → Nat
  | 0, _, r => r
  | k + 1, n, r =>
    if (r + 2 ^ k) * (r + 2 ^ k) ≤ n then sqrtFloorFuel k n (r + 2 ^ k)
    else sqrtFloorFuel k n r

/-- Correctly rounded square root of the positive fraction `n / d`: with
`x = (n / d) · 4 ^ (-e)` and `r = ⌊√x⌋`, a 53-bit integer, the significand is `r` or
`r + 1` according to the comparison of `x` with `(r + 1/2) ^ 2`. -/
def sqrtPos (n d : Nat) : ℚ :=
  let e : Int := Int.fdiv (floorLog2 n d) 2 - 52
  let xn := n * 2 ^ (-(2 * e)).toNat
  let xd := d * 2 ^ (2 * e).toNat
  let r := sqrtFloorFuel (log2Fuel (xn / xd) (xn / xd) / 2 + 1) (xn / xd) 0
  let m := if 4 * xn < (2 * r + 1) ^ 2 * xd then r
           else if (2 * r + 1) ^ 2 * xd < 4 * xn then r + 1
           else if r % 2 = 0 then r else r + 1
  scaleB m e

/-- The libm function `sqrt` on `double`: the correctly rounded square root, as IEEE 754
requires (normal range, positive argument). -/
def sqrtBinary64 (q : ℚ) : ℚ :=
  if 0 < q then sqrtPos q.num.natAbs q.den else 0

/-- The arithmetic in which the element type `double` of the source computes: the four
operations, `sqrt`, the constant `M_PI`, and the value of a decimal literal. -/
structure Arith (α : Type) where
  add : α → α → α
  sub : α → α → α
  mul : α → α → α
  div : α → α → α
  sqrt : α → α
  pi : α
  lit : ℚ → α

/-- Exact arithmetic in the field `α`, with the `sqrt` and `M_PI` of `L`. -/
def Arith.exact (L : Libm α) : Arith α where
  add a b := a + b
  sub a b := a - b
  mul a b := a * b
  div a b := a / b
  sqrt := L.sqrt
  pi := L.pi
  lit q := (q : α)

/-- IEEE 754 binary64 arithmetic on the rationals that are `double` values: every operation
returns the rounded exact result; `M_PI` is the literal `3.14159265358979323846`. -/
def Arith.binary64 : Arith ℚ where
  add a b := roundBinary64 (a + b)
  sub a b := roundBinary64 (a - b)
  mul a b := roundBinary64 (a * b)
  div a b := roundBinary64 (a / b)
  sqrt := sqrtBinary64
  pi := roundBinary64 3.14159265358979323846
  lit := roundBinary64

/-- The first loop of `GMM::update` (see `bgGaussianI`) with the addition of
`sum += gDists.at(i).weight` taken from `A`. -/
def bgGaussianIWith (A : Arith α) (bgThresh : α) : List (Gaussian α) → α → Nat → Nat
  | [], _, n => n
  | d :: ds, sum, n =>
    if sum < bgThresh then bgGaussianIWith A bgThresh ds (A.add sum d.weight) (n + 1) else n

/-- The value of `sum` after the first loop of `GMM::update` has added the weights of the
listed entries, in order, to `sum`. -/
def runningSum (A : Arith α) : List (Gaussian α) → α → α
  | [], sum => sum
  | d :: ds, sum => runningSum A ds (A.add sum d.weight)

/-- The weight path of one iteration of the main loop of `GMM::update` (see `updateStep`)
with the arithmetic taken from `A`: the weight written to the entry and the loop-carried
pair `(foundMatch, weightSum)`. `isMatch` is the outcome of the test
`dist < 2.5 * variance` for the entry. -/
def weightStep (A : Arith α) (lr : α) (isMatch : Bool) (weight : α) (s : Bool × α) :
    α × (Bool × α) :=
  if s.1 then
    let w := A.mul (A.sub 1 lr) weight
    let w := if w < A.lit 1e-8 then A.lit 1e-8 else w
    (w, (true, A.add s.2 w))
  else if isMatch then
    let w := A.add (A.mul (A.sub 1 lr) weight) lr
    (w, (true, A.add s.2 w))
  else
    (weight, (false, A.add s.2 weight))

/-- The weight path of the main loop of `GMM::update` over the entries not yet visited,
each given by its match outcome and its weight. -/
def weightLoop (A : Arith α) (lr : α) : List (Bool × α) → Bool × α → List α × (Bool × α)
  | [], s => ([], s)
  | d :: ds, s =>
    let r := weightStep A lr d.1 d.2 s
    let rs := weightLoop A lr ds r.2
    (r.1 :: rs.1, rs.2)

/-- Method `Gaussian::getProbability` with the arithmetic taken from `A`; `e` is the value
returned by the call `exp(-dist / (2 * variance))`. -/
def getProbabilityWith (A : Arith α) (variance e : α) : α :=
  A.mul (A.div 1 (A.sqrt (A.mul (A.mul 2 A.pi) variance))) e

/-- The channel mean written by a matched update, `(1 - p) * mean + p * pixelVal[c]`, with
the arithmetic taken from `A`. -/
def blendWith (A : Arith α) (p mean pixel : α) : α :=
  A.add (A.mul (A.sub 1 p) mean) (A.mul p pixel)

end Defs

/-! ## Theorems -/

section Theorems

variable {α : Type} [LinearOrderedField α]

/-! ### The sort -/

theorem qsortInsert_perm {β : Type} (cmp : β → β → Int) (x : β) (l : List β) :
    (qsortInsert cmp x l).Perm (x :: l) := by
  induction l with
  | nil => simp [qsortInsert]
  | cons y ys ih =>
    unfold qsortInsert
    split
    · exact List.Perm.refl _
    · exact (List.Perm.cons y ih).trans (List.Perm.swap x y ys)

theorem qsort_perm {β : Type} (cmp : β → β → Int) (l : List β) : (qsort cmp l).Perm l := by
  induction l with
  | nil => simp [qsort]
  | cons x xs ih =>
    unfold qsort
    exact (qsortInsert_perm cmp x _).trans (List.Perm.cons x ih)

theorem qsort_length {β : Type} (cmp : β → β → Int) (l : List β) :
    (qsort cmp l).length = l.length := (qsort_perm cmp l).length_eq

theorem distCmp_le_zero (a b : Gaussian α) :
    distCmp a b ≤ 0 ↔ b.weightStdRatio ≤ a.weightStdRatio := by
  unfold distCmp
  split
  · rename_i h
    simp [not_le.mpr h]
  · rename_i h
    split <;> simp [not_lt.mp h]

theorem qsortInsert_sorted (x : Gaussian α) (l : List (Gaussian α))
    (hl : l.Pairwise (fun a b => b.weightStdRatio ≤ a.weightStdRatio)) :
    (qsortInsert distCmp x l).Pairwise (fun a b => b.weightStdRatio ≤ a.weightStdRatio) := by
  induction l with
  | nil => simp [qsortInsert]
  | cons y ys ih =>
    unfold qsortInsert
    rw [List.pairwise_cons] at hl
    split
    · rename_i h
      rw [distCmp_le_zero] at h
      refine List.pairwise_cons.mpr ⟨?_, List.pairwise_cons.mpr hl⟩
      intro b hb
      rcases List.mem_cons.mp hb with rfl | hb
      · exact h
      · exact le_trans (hl.1 b hb) h
    · rename_i h
      rw [distCmp_le_zero] at h
      refine List.pairwise_cons.mpr ⟨?_, ih hl.2⟩
      intro b hb
      rcases List.mem_cons.mp ((qsortInsert_perm distCmp x ys).subset hb) with rfl | hb
      · exact le_of_lt (not_le.mp h)
      · exact hl.1 b hb

theorem qsort_sorted (l : List (Gaussian α)) :
    (qsort distCmp l).Pairwise (fun a b => b.weightStdRatio ≤ a.weightStdRatio) := by
  induction l with
  | nil => simp [qsort]
  | cons x xs ih =>
    unfold qsort
    exact qsortInsert_sorted x _ ih

/-- Sorting a list whose stored keys agree with the recomputed keys orders it by the
recomputed keys. -/
theorem qsort_sorted_ratio (L : Libm α) (l : List (Gaussian α))
    (hl : ∀ d ∈ l, d.weightStdRatio = d.ratio L) :
    (qsort distCmp l).Pairwise (fun a b => b.ratio L ≤ a.ratio L) := by
  have hs := qsort_sorted l
  have hm : ∀ d ∈ qsort distCmp l, d.weightStdRatio = d.ratio L :=
    fun d hd => hl d ((qsort_perm distCmp l).subset hd)
  refine List.Pairwise.imp_of_mem ?_ hs
  intro a b ha hb hab
  rw [← hm a ha, ← hm b hb]
  exact hab

theorem weightSumOf_perm {l1 l2 : List (Gaussian α)} (h : l1.Perm l2) :
    weightSumOf l1 = weightSumOf l2 := by
  unfold weightSumOf
  exact (h.map _).sum_eq

/-! ### Random sampling -/

theorem atE_ok_of_lt {β : Type} (l : List β) (i : Nat) (h : i < l.length) :
    atE l i = .ok (l.get ⟨i, h⟩) := by
  simp [atE, List.getElem?_eq_getElem h]

theorem atE_ok_iff {β : Type} (l : List β) (i : Nat) (v : β) :
    atE l i = .ok v ↔ l.get? i = some v := by
  unfold atE
  cases h : l.get? i <;> simp

theorem nodup_bounded_length (idxs : List Nat) (N : Nat) (hnd : idxs.Nodup)
    (hb : ∀ i ∈ idxs, i < N) : idxs.length ≤ N := by
  have h1 : idxs.toFinset ⊆ Finset.range N := by
    intro i hi
    exact Finset.mem_range.mpr (hb i (List.mem_toFinset.mp hi))
  have h2 := Finset.card_le_card h1
  rw [List.toFinset_card_of_nodup hnd, Finset.card_range] at h2
  exact h2

/-- Whenever the sampling loop returns, it returns exactly `K` elements, read from `data`
at pairwise distinct indices. -/
theorem randomSampleLoop_ok (data : List Vec3b) (K : Nat) (tape : List Nat) :
    ∀ (sampled : List Vec3b) (idxs : List Nat) (means : List Vec3b),
      randomSampleLoop data K tape sampled idxs = .ok means →
      sampled.length ≤ K → idxs.Nodup →
      List.Forall₂ (fun i v => data.get? i = some v) idxs sampled →
      means.length = K ∧
        ∃ idxs2 : List Nat, idxs2.Nodup ∧
          List.Forall₂ (fun i v => data.get? i = some v) idxs2 means := by
  induction tape with
  | nil =>
    intro sampled idxs means h hle hnd hf
    unfold randomSampleLoop at h
    split at h
    · cases h
    · injection h with h
      subst h
      exact ⟨by omega, idxs, hnd, hf⟩
  | cons i tape ih =>
    intro sampled idxs means h hle hnd hf
    unfold randomSampleLoop at h
    split at h
    · rename_i hlt
      split at h
      · exact ih sampled idxs means h hle hnd hf
      · rename_i hni
        split at h
        · cases h
        · rename_i v hv
          refine ih _ _ means h (by simp; omega) ?_ ?_
          · exact List.nodup_append.mpr ⟨hnd, List.nodup_singleton i, by
              intro a ha hb
              rw [List.mem_singleton] at hb
              exact hni (hb ▸ ha)⟩
          · exact List.rel_append hf
              (List.Forall₂.cons ((atE_ok_iff data i v).mp hv) List.Forall₂.nil)
    · injection h with h
      subst h
      exact ⟨by omega, idxs, hnd, hf⟩

/-- The sampling loop returns as soon as the tape of in-range draws holds enough distinct
indices. -/
theorem randomSampleLoop_returns (data : List Vec3b) (K : Nat) (tape : List Nat) :
    ∀ (sampled : List Vec3b) (idxs : List Nat),
      (∀ i ∈ tape, i < data.length) → idxs.length = sampled.length →
      K ≤ (idxs ++ tape).toFinset.card →
      ∃ means, randomSampleLoop data K tape sampled idxs = .ok means := by
  induction tape with
  | nil =>
    intro sampled idxs _ hlen hcard
    have h1 : (idxs ++ []).toFinset.card ≤ idxs.length := by
      simpa using List.toFinset_card_le idxs
    have h2 : ¬ sampled.length < K := by omega
    exact ⟨sampled, by simp [randomSampleLoop, h2]⟩
  | cons i tape ih =>
    intro sampled idxs hb hlen hcard
    unfold randomSampleLoop
    by_cases hlt : sampled.length < K
    · simp only [hlt, if_true]
      by_cases hmem : i ∈ idxs
      · simp only [hmem, if_true]
        refine ih sampled idxs (fun j hj => hb j (List.mem_cons_of_mem _ hj)) hlen ?_
        have : (idxs ++ i :: tape).toFinset = (idxs ++ tape).toFinset := by
          ext x
          simp only [List.mem_toFinset, List.mem_append, List.mem_cons]
          constructor
          · rintro (h | rfl | h)
            · exact Or.inl h
            · exact Or.inl hmem
            · exact Or.inr h
          · rintro (h | h)
            · exact Or.inl h
            · exact Or.inr (Or.inr h)
        rw [← this]
        exact hcard
      · simp only [hmem, if_false]
        have hi : i < data.length := hb i (List.mem_cons_self _ _)
        rw [atE_ok_of_lt data i hi]
        refine ih _ _ (fun j hj => hb j (List.mem_cons_of_mem _ hj)) (by simp [hlen]) ?_
        simpa using hcard
    · exact ⟨sampled, by simp [hlt]⟩

/-- With fewer samples than requested, the sampling loop is still running at the end of
every tape of in-range draws. -/
theorem randomSampleLoop_starved (data : List Vec3b) (K : Nat) (hNK : data.length < K)
    (tape : List Nat) :
    ∀ (sampled : List Vec3b) (idxs : List Nat),
      (∀ i ∈ tape, i < data.length) → idxs.length = sampled.length → idxs.Nodup →
      (∀ i ∈ idxs, i < data.length) →
      randomSampleLoop data K tape sampled idxs = .error .fuelExhausted := by
  induction tape with
  | nil =>
    intro sampled idxs _ hlen hnd hib
    have := nodup_bounded_length idxs data.length hnd hib
    have h2 : sampled.length < K := by omega
    simp [randomSampleLoop, h2]
  | cons i tape ih =>
    intro sampled idxs hb hlen hnd hib
    have := nodup_bounded_length idxs data.length hnd hib
    have hlt : sampled.length < K := by omega
    have hi : i < data.length := hb i (List.mem_cons_self _ _)
    unfold randomSampleLoop
    simp only [hlt, if_true]
    by_cases hmem : i ∈ idxs
    · simp only [hmem, if_true]
      exact ih sampled idxs (fun j hj => hb j (List.mem_cons_of_mem _ hj)) hlen hnd hib
    · simp only [hmem, if_false]
      rw [atE_ok_of_lt data i hi]
      refine ih _ _ (fun j hj => hb j (List.mem_cons_of_mem _ hj)) (by simp [hlen]) ?_ ?_
      · exact List.nodup_append.mpr ⟨hnd, List.nodup_singleton i, by
          intro a ha hb2
          rw [List.mem_singleton] at hb2
          exact hmem (hb2 ▸ ha)⟩
      · intro j hj
        rcases List.mem_append.mp hj with h | h
        · exact hib j h
        · rw [List.mem_singleton] at h
          exact h ▸ hi

/-! ### Initialisation -/

theorem randomSample_ok (tape : List Nat) (data : List Vec3b) (K : Nat) (means : List Vec3b)
    (h : randomSample tape data K = .ok means) :
    means.length = K ∧
      ∃ idxs : List Nat, idxs.Nodup ∧
        List.Forall₂ (fun i v => data.get? i = some v) idxs means := by
  unfold randomSample at h
  split at h
  · cases h
  · exact randomSampleLoop_ok data K tape [] [] means h (Nat.zero_le _) List.nodup_nil
      List.Forall₂.nil

theorem randomSample_returns (tape : List Nat) (data : List Vec3b) (K : Nat)
    (hne : 1 ≤ data.length) (hb : ∀ i ∈ tape, i < data.length) (hK : K ≤ tape.toFinset.card) :
    ∃ means, randomSample tape data K = .ok means := by
  unfold randomSample
  rw [if_neg (by omega)]
  exact randomSampleLoop_returns data K tape [] [] hb rfl (by simpa using hK)

theorem initLoop_eq (g : GMM α) (L : Libm α) (data means : List Vec3b) (n : Nat)
    (hn : n ≤ means.length) :
    initLoop g L data means n = .ok ((means.take n).map (initGaussian g L data)) := by
  induction n with
  | zero => simp [initLoop]
  | succ n ih =>
    have hlt : n < means.length := hn
    unfold initLoop
    rw [ih (Nat.le_of_lt hlt), atE_ok_of_lt means n hlt]
    simp only [List.take_succ, List.getElem?_eq_getElem hlt, Option.toList, List.map_append,
      List.map_cons, List.map_nil, List.get_eq_getElem]

/-- On an empty mixture, `GMM::init` returns exactly when `randomSample` does, and then
`gDists` is the sorted list of the `K` freshly built Gaussians. -/
theorem init_ok_iff (g0 g1 : GMM α) (L : Libm α) (tape : List Nat) (data : List Vec3b)
    (hempty : g0.gDists = []) :
    g0.init L tape data = .ok g1 ↔
      ∃ means, randomSample tape data g0.K = .ok means ∧ means.length = g0.K ∧
        g1 = { g0 with gDists := qsort distCmp (means.map (initGaussian g0 L data)) } := by
  unfold GMM.init
  cases hrs : randomSample tape data g0.K with
  | error e => simp
  | ok means =>
    have hlen := (randomSample_ok tape data g0.K means hrs).1
    dsimp only
    rw [initLoop_eq g0 L data means g0.K (by omega)]
    simp only [hempty, List.nil_append, qsortFirst]
    have h1 : (List.map (initGaussian g0 L data) (List.take g0.K means)).take g0.K
        = means.map (initGaussian g0 L data) := by
      rw [List.take_of_length_le (l := means) (by omega)]
      rw [List.take_of_length_le (by simp [hlen])]
    have h2 : (List.map (initGaussian g0 L data) (List.take g0.K means)).drop g0.K = [] := by
      apply List.drop_of_length_le
      simp [hlen]
    rw [h1, h2, List.append_nil]
    constructor
    · intro h
      injection h with h
      exact ⟨means, rfl, hlen, h.symm⟩
    · rintro ⟨m2, hm2, -, hg⟩
      injection hm2 with hm2
      subst hm2
      rw [hg]

theorem init_components (g0 g1 : GMM α) (L : Libm α) (tape : List Nat) (data : List Vec3b)
    (hempty : g0.gDists = []) (h : g0.init L tape data = .ok g1) :
    g1.K = g0.K ∧ g1.lr = g0.lr ∧ g1.highVariance = g0.highVariance ∧
      g1.minVariance = g0.minVariance ∧ g1.gDists.length = g0.K ∧
      ∀ d ∈ g1.gDists, ∃ m ∈ data, d = initGaussian g0 L data m := by
  obtain ⟨means, hrs, hlen, hg⟩ := (init_ok_iff g0 g1 L tape data hempty).mp h
  obtain ⟨-, idxs, -, hf⟩ := randomSample_ok tape data g0.K means hrs
  subst hg
  refine ⟨rfl, rfl, rfl, rfl, ?_, ?_⟩
  · simp [qsort_length, hlen]
  · intro d hd
    have hd2 := (qsort_perm distCmp _).subset hd
    obtain ⟨m, hm, rfl⟩ := List.mem_map.mp hd2
    refine ⟨m, ?_, rfl⟩
    obtain ⟨n, hn, hnm⟩ := List.getElem_of_mem hm
    have hlen2 := hf.length_eq
    have := List.Forall₂.get hf (by omega : n < idxs.length) hn
    simp only [List.get_eq_getElem] at this
    rw [hnm] at this
    exact List.get?_mem this

/-! ### The main loop of `update` -/

theorem updateStep_weightSum (g : GMM α) (L : Libm α) (px : Vec3b) (bgI i : Nat)
    (d : Gaussian α) (s : Scan α) :
    (updateStep g L px bgI i d s).2.weightSum
      = s.weightSum + (updateStep g L px bgI i d s).1.weight := by
  unfold updateStep
  dsimp only
  split
  · rfl
  · split <;> rfl

theorem updateStep_noMatch (g : GMM α) (L : Libm α) (px : Vec3b) (bgI i : Nat)
    (d : Gaussian α) (s : Scan α)
    (h : (updateStep g L px bgI i d s).2.foundMatch = false) :
    (updateStep g L px bgI i d s).1 = d ∧ s.foundMatch = false ∧
      ¬ sqDist d px < 2.5 * d.variance := by
  unfold updateStep at h ⊢
  dsimp only at h ⊢
  split at h
  · simp at h
  · rename_i hf
    split at h
    · simp at h
    · rename_i hm
      rw [if_neg hf, if_neg hm]
      exact ⟨rfl, by simpa using hf, hm⟩

theorem updateStep_found (g : GMM α) (L : Libm α) (px : Vec3b) (bgI i : Nat)
    (d : Gaussian α) (s : Scan α)
    (h : s.foundMatch = true ∨ sqDist d px < 2.5 * d.variance) :
    (updateStep g L px bgI i d s).2.foundMatch = true := by
  unfold updateStep
  dsimp only
  split
  · rfl
  · rename_i hf
    split
    · rfl
    · rename_i hm
      rcases h with h | h
      · exact absurd h hf
      · exact absurd h hm

theorem updateStep_skip (g : GMM α) (L : Libm α) (px : Vec3b) (bgI i : Nat)
    (d : Gaussian α) (s : Scan α) (hf : s.foundMatch = false)
    (hm : ¬ sqDist d px < 2.5 * d.variance) :
    (updateStep g L px bgI i d s).1 = d ∧
      (updateStep g L px bgI i d s).2.foundMatch = false := by
  unfold updateStep
  dsimp only
  rw [if_neg (by simp [hf]), if_neg hm]
  exact ⟨rfl, rfl⟩

theorem scanLoop_length (g : GMM α) (L : Libm α) (px : Vec3b) (bgI : Nat)
    (ds : List (Gaussian α)) :
    ∀ (i : Nat) (s : Scan α), (scanLoop g L px bgI i ds s).1.length = ds.length := by
  induction ds with
  | nil => intro i s; rfl
  | cons d ds ih =>
    intro i s
    simp only [scanLoop, List.length_cons, ih]

theorem scanLoop_weightSum (g : GMM α) (L : Libm α) (px : Vec3b) (bgI : Nat)
    (ds : List (Gaussian α)) :
    ∀ (i : Nat) (s : Scan α),
      (scanLoop g L px bgI i ds s).2.weightSum
        = s.weightSum + weightSumOf (scanLoop g L px bgI i ds s).1 := by
  induction ds with
  | nil => intro i s; simp [scanLoop, weightSumOf]
  | cons d ds ih =>
    intro i s
    simp only [scanLoop]
    rw [ih, updateStep_weightSum]
    simp [weightSumOf, add_assoc]

theorem scanLoop_noMatch (g : GMM α) (L : Libm α) (px : Vec3b) (bgI : Nat)
    (ds : List (Gaussian α)) :
    ∀ (i : Nat) (s : Scan α), (scanLoop g L px bgI i ds s).2.foundMatch = false →
      (scanLoop g L px bgI i ds s).1 = ds ∧ s.foundMatch = false ∧
        ∀ d ∈ ds, ¬ sqDist d px < 2.5 * d.variance := by
  induction ds with
  | nil => intro i s h; exact ⟨rfl, h, by simp⟩
  | cons d ds ih =>
    intro i s h
    simp only [scanLoop] at h ⊢
    obtain ⟨h1, h2, h3⟩ := ih _ _ h
    obtain ⟨h4, h5, h6⟩ := updateStep_noMatch g L px bgI i d s h2
    refine ⟨by rw [h1, h4], h5, ?_⟩
    intro e he
    rcases List.mem_cons.mp he with rfl | he
    · exact h6
    · exact h3 e he

theorem scanLoop_found_of_found (g : GMM α) (L : Libm α) (px : Vec3b) (bgI : Nat)
    (ds : List (Gaussian α)) :
    ∀ (i : Nat) (s : Scan α), s.foundMatch = true →
      (scanLoop g L px bgI i ds s).2.foundMatch = true := by
  induction ds with
  | nil => intro i s h; exact h
  | cons d ds ih =>
    intro i s h
    simp only [scanLoop]
    exact ih _ _ (updateStep_found g L px bgI i d s (Or.inl h))

theorem scanLoop_found_iff (g : GMM α) (L : Libm α) (px : Vec3b) (bgI : Nat)
    (ds : List (Gaussian α)) (i : Nat) (s : Scan α) (hs : s.foundMatch = false) :
    (scanLoop g L px bgI i ds s).2.foundMatch = true ↔
      ∃ d ∈ ds, sqDist d px < 2.5 * d.variance := by
  constructor
  · intro h
    by_contra hc
    push_neg at hc
    have : (scanLoop g L px bgI i ds s).2.foundMatch = false := by
      clear h
      induction ds generalizing i s with
      | nil => exact hs
      | cons d ds ih =>
        simp only [scanLoop]
        have hd := updateStep_skip g L px bgI i d s hs
          (not_lt.mpr (hc d (List.mem_cons_self _ _)))
        exact ih (i + 1) _ hd.2 (fun e he => hc e (List.mem_cons_of_mem _ he))
    rw [this] at h
    cases h
  · rintro ⟨d, hd, hm⟩
    cases hf : (scanLoop g L px bgI i ds s).2.foundMatch with
    | true => rfl
    | false => exact absurd hm ((scanLoop_noMatch g L px bgI ds i s hf).2.2 d hd)

/-! ### Shape of one `update` call -/

theorem weightSumOf_set (l : List (Gaussian α)) (i : Nat) (x last : Gaussian α)
    (h : l.get? i = some last) (hw : x.weight = last.weight) :
    weightSumOf (l.set i x) = weightSumOf l := by
  induction l generalizing i with
  | nil => simp at h
  | cons a l ih =>
    cases i with
    | zero =>
      simp at h
      subst h
      simp [weightSumOf, hw]
    | succ i =>
      have := ih i (by simpa using h)
      simp only [weightSumOf, List.set_cons_succ, List.map_cons, List.sum_cons] at this ⊢
      rw [this]

theorem weightSumOf_renorm (L : Libm α) (S : α) (l : List (Gaussian α)) :
    weightSumOf (l.map (renorm L S)) = weightSumOf l / S := by
  induction l with
  | nil => simp [weightSumOf]
  | cons a l ih =>
    simp only [weightSumOf, List.map_cons, List.sum_cons] at ih ⊢
    rw [ih, add_div]
    rfl

theorem weightSumOf_pos (l : List (Gaussian α)) (hne : l ≠ [])
    (hpos : ∀ d ∈ l, 0 < d.weight) : 0 < weightSumOf l := by
  induction l with
  | nil => exact absurd rfl hne
  | cons a l ih =>
    simp only [weightSumOf, List.map_cons, List.sum_cons]
    have ha := hpos a (List.mem_cons_self _ _)
    by_cases hl : l = []
    · subst hl
      simpa using ha
    · have := ih hl (fun d hd => hpos d (List.mem_cons_of_mem _ hd))
      unfold weightSumOf at this
      linarith

omit [LinearOrderedField α] in
theorem take_K_self (g : GMM α) (hlen : g.gDists.length = g.K) :
    g.gDists.take g.K = g.gDists := List.take_of_length_le (by omega)

/-- On a `K`-component state with `K ≥ 1` the part of `update` before the renormalisation
loop returns: either the main loop found a match, or it left the entries untouched and the
last slot is overwritten by the replacement Gaussian. -/
theorem preRenorm_cases (g : GMM α) (L : Libm α) (px : Vec3b) (t : α)
    (hlen : g.gDists.length = g.K) (hK : 1 ≤ g.K) :
    ((scanOf g L px t).2.foundMatch = true ∧ preRenorm g L px t = .ok (scanOf g L px t)) ∨
    ((scanOf g L px t).2.foundMatch = false ∧ (scanOf g L px t).1 = g.gDists ∧
      ∃ last, g.gDists.get? (g.K - 1) = some last ∧
        preRenorm g L px t
          = .ok (g.gDists.set (g.K - 1) (replacement g L px last), (scanOf g L px t).2)) := by
  unfold preRenorm
  rw [if_neg (by omega)]
  dsimp only
  cases hf : (scanOf g L px t).2.foundMatch with
  | true => left; simp
  | false =>
    right
    have h1 : (scanOf g L px t).1 = g.gDists := by
      have := (scanLoop_noMatch g L px _ _ _ _ hf).1
      rw [take_K_self g hlen] at this
      unfold scanOf
      rw [take_K_self g hlen]
      exact this
    have hlt : g.K - 1 < g.gDists.length := by omega
    have hK0 : ¬ g.K = 0 := by omega
    refine ⟨rfl, h1, g.gDists.get ⟨g.K - 1, hlt⟩, List.get?_eq_get hlt, ?_⟩
    simp only [Bool.false_eq_true, if_false, hK0, h1, atE_ok_of_lt g.gDists (g.K - 1) hlt]

theorem zero_lit : (0.0 : α) = 0 := by norm_num

theorem scanOf_length (g : GMM α) (L : Libm α) (px : Vec3b) (t : α)
    (hlen : g.gDists.length = g.K) : (scanOf g L px t).1.length = g.K := by
  unfold scanOf
  rw [scanLoop_length, take_K_self g hlen, hlen]

theorem scanOf_weightSum (g : GMM α) (L : Libm α) (px : Vec3b) (t : α) :
    (scanOf g L px t).2.weightSum = weightSumOf (scanOf g L px t).1 := by
  unfold scanOf
  rw [scanLoop_weightSum]
  simp [zero_lit]

/-- On a `K`-component state with `K ≥ 1`, `update` returns; the divisor of the
renormalisation loop is the sum of the weights just before that loop. -/
theorem update_ok (g : GMM α) (L : Libm α) (px : Vec3b) (t : α)
    (hlen : g.gDists.length = g.K) (hK : 1 ≤ g.K) :
    ∃ r, preRenorm g L px t = .ok r ∧ r.1.length = g.K ∧ r.2 = (scanOf g L px t).2 ∧
      r.2.weightSum = weightSumOf r.1 ∧
      g.update L px t
        = .ok ({ g with gDists := qsort distCmp (r.1.map (renorm L r.2.weightSum)) },
               r.2.background) := by
  have hdrop : g.gDists.drop g.K = [] := List.drop_of_length_le (by omega)
  rcases preRenorm_cases g L px t hlen hK with ⟨hf, hp⟩ | ⟨hf, h1, last, hlast, hp⟩
  · refine ⟨_, hp, scanOf_length g L px t hlen, rfl, scanOf_weightSum g L px t, ?_⟩
    unfold GMM.update
    rw [hp]
    simp [hdrop]
  · refine ⟨_, hp, by simp [hlen], rfl, ?_, ?_⟩
    · dsimp only
      rw [weightSumOf_set g.gDists (g.K - 1) (replacement g L px last) last hlast rfl,
        scanOf_weightSum, h1]
    · unfold GMM.update
      rw [hp]
      simp [hdrop]

/-- A property kept by every `update` call is kept by every run of calls, and the run
returns. -/
theorem updates_invariant (L : Libm α) (P : GMM α → Prop)
    (hstep : ∀ g px t, P g → ∃ g2 b, g.update L px t = .ok (g2, b) ∧ P g2)
    (g : GMM α) (hg : P g) (obs : List (Vec3b × α)) :
    ∃ g2, GMM.updates L g obs = .ok g2 ∧ P g2 := by
  induction obs generalizing g with
  | nil => exact ⟨g, rfl, hg⟩
  | cons o os ih =>
    obtain ⟨g2, b, hu, hP⟩ := hstep g o.1 o.2 hg
    unfold GMM.updates
    rw [hu]
    exact ih g2 hP

/-! ### Weights -/

theorem updateStep_weight_pos (g : GMM α) (L : Libm α) (px : Vec3b) (bgI i : Nat)
    (d : Gaussian α) (s : Scan α) (h0 : 0 < g.lr) (h1 : g.lr < 1) (hd : 0 < d.weight) :
    0 < (updateStep g L px bgI i d s).1.weight := by
  unfold updateStep
  dsimp only
  split
  · dsimp only
    split
    · norm_num
    · exact mul_pos (by linarith) hd
  · split
    · dsimp only
      have := mul_pos (by linarith : (0 : α) < 1 - g.lr) hd
      linarith
    · exact hd

theorem scanLoop_weight_pos (g : GMM α) (L : Libm α) (px : Vec3b) (bgI : Nat)
    (h0 : 0 < g.lr) (h1 : g.lr < 1) (ds : List (Gaussian α)) :
    ∀ (i : Nat) (s : Scan α), (∀ d ∈ ds, 0 < d.weight) →
      ∀ d ∈ (scanLoop g L px bgI i ds s).1, 0 < d.weight := by
  induction ds with
  | nil => intro i s _ d hd; simp [scanLoop] at hd
  | cons a ds ih =>
    intro i s hpos d hd
    simp only [scanLoop, List.mem_cons] at hd
    rcases hd with rfl | hd
    · exact updateStep_weight_pos g L px bgI i a s h0 h1 (hpos a (List.mem_cons_self _ _))
    · exact ih _ _ (fun e he => hpos e (List.mem_cons_of_mem _ he)) d hd

theorem preRenorm_weight_pos (g : GMM α) (L : Libm α) (px : Vec3b) (t : α)
    (hlen : g.gDists.length = g.K) (hK : 1 ≤ g.K) (h0 : 0 < g.lr) (h1 : g.lr < 1)
    (hpos : ∀ d ∈ g.gDists, 0 < d.weight) (r : List (Gaussian α) × Scan α)
    (hr : preRenorm g L px t = .ok r) : ∀ d ∈ r.1, 0 < d.weight := by
  rcases preRenorm_cases g L px t hlen hK with ⟨-, hp⟩ | ⟨-, -, last, hlast, hp⟩
  · rw [hp] at hr
    injection hr with hr
    subst hr
    unfold scanOf
    exact scanLoop_weight_pos g L px _ h0 h1 _ _ _
      (fun d hd => hpos d (List.mem_of_mem_take hd))
  · rw [hp] at hr
    injection hr with hr
    subst hr
    intro d hd
    rcases List.mem_or_eq_of_mem_set hd with h | h
    · exact hpos d h
    · rw [h]
      exact hpos last (List.get?_mem hlast)

/-- The invariant behind weight conservation: a `K`-component state, `K ≥ 1`, learning rate
in `(0, 1)`, strictly positive weights that sum to one. -/
theorem update_weights (g : GMM α) (L : Libm α) (px : Vec3b) (t : α)
    (hlen : g.gDists.length = g.K) (hK : 1 ≤ g.K) (h0 : 0 < g.lr) (h1 : g.lr < 1)
    (hpos : ∀ d ∈ g.gDists, 0 < d.weight) :
    ∃ g2 b, g.update L px t = .ok (g2, b) ∧ g2.K = g.K ∧ g2.lr = g.lr ∧
      g2.gDists.length = g2.K ∧ (∀ d ∈ g2.gDists, 0 < d.weight) ∧
      weightSumOf g2.gDists = 1 := by
  obtain ⟨r, hr, hrlen, -, hS, hu⟩ := update_ok g L px t hlen hK
  have hrpos := preRenorm_weight_pos g L px t hlen hK h0 h1 hpos r hr
  have hne : r.1 ≠ [] := by
    intro h
    rw [h] at hrlen
    simp at hrlen
    omega
  have hSpos : 0 < r.2.weightSum := by
    rw [hS]
    exact weightSumOf_pos r.1 hne hrpos
  refine ⟨_, _, hu, rfl, rfl, ?_, ?_, ?_⟩
  · simp [qsort_length, hrlen]
  · intro d hd
    have hd2 := (qsort_perm distCmp _).subset hd
    obtain ⟨e, he, rfl⟩ := List.mem_map.mp hd2
    exact div_pos (hrpos e he) hSpos
  · dsimp only
    rw [weightSumOf_perm (qsort_perm distCmp _), weightSumOf_renorm, hS]
    rw [hS] at hSpos
    exact div_self (ne_of_gt hSpos)

theorem weightSumOf_init (g : GMM α) (L : Libm α) (data means : List Vec3b) :
    weightSumOf (means.map (initGaussian g L data)) = (means.length : α) * (1 / (g.K : α)) := by
  induction means with
  | nil => simp [weightSumOf]
  | cons m ms ih =>
    simp only [weightSumOf, List.map_cons, List.sum_cons, List.length_cons] at ih ⊢
    rw [ih]
    simp only [initGaussian]
    push_cast
    norm_num
    ring

theorem init_weights (g0 g1 : GMM α) (L : Libm α) (tape : List Nat) (data : List Vec3b)
    (hempty : g0.gDists = []) (hK : 1 ≤ g0.K) (h : g0.init L tape data = .ok g1) :
    (∀ d ∈ g1.gDists, d.weight = 1 / (g0.K : α)) ∧ weightSumOf g1.gDists = 1 := by
  obtain ⟨means, -, hlen, hg⟩ := (init_ok_iff g0 g1 L tape data hempty).mp h
  subst hg
  have hKpos : (0 : α) < (g0.K : α) := by exact_mod_cast hK
  constructor
  · intro d hd
    have hd2 := (qsort_perm distCmp _).subset hd
    obtain ⟨m, -, rfl⟩ := List.mem_map.mp hd2
    simp only [initGaussian]
    norm_num
  · dsimp only
    rw [weightSumOf_perm (qsort_perm distCmp _), weightSumOf_init, hlen]
    field_simp

/-- C1. Weight conservation: for every mixture state produced by `GMM::init` on an empty
mixture with `K ≥ 1` (which forces `N ≥ K` samples), the weights sum to one right after
`init`, and for every learning rate `0 < lr < 1` and every finite run of `update` calls
(any observations, any `bgThresh`) the run returns and the weights sum to one after it,
hence after every call of the run. -/
theorem weight_conservation (L : Libm α) (g0 g1 : GMM α) (tape : List Nat)
    (samples : List Vec3b) (hempty : g0.gDists = []) (hK : 1 ≤ g0.K)
    (hinit : g0.init L tape samples = .ok g1) :
    g0.K ≤ samples.length ∧ weightSumOf g1.gDists = 1 ∧
    ∀ lr : α, 0 < lr → lr < 1 → ∀ obs : List (Vec3b × α),
      ∃ g2, GMM.updates L { g1 with lr := lr } obs = .ok g2 ∧ weightSumOf g2.gDists = 1 := by
  obtain ⟨hw, hsum⟩ := init_weights g0 g1 L tape samples hempty hK hinit
  obtain ⟨hK1, -, -, -, hlen, -⟩ := init_components g0 g1 L tape samples hempty hinit
  have hKpos : (0 : α) < (g0.K : α) := by exact_mod_cast hK
  refine ⟨?_, hsum, ?_⟩
  · obtain ⟨means, hrs, hmlen, -⟩ := (init_ok_iff g0 g1 L tape samples hempty).mp hinit
    obtain ⟨-, idxs, hnd, hf⟩ := randomSample_ok tape samples g0.K means hrs
    have hb : ∀ i ∈ idxs, i < samples.length := by
      intro i hi
      obtain ⟨n, hn, rfl⟩ := List.getElem_of_mem hi
      have hn2 : n < means.length := by rw [← hf.length_eq]; exact hn
      have := List.Forall₂.get hf hn hn2
      simp only [List.get_eq_getElem] at this
      exact (List.get?_eq_some.mp this).1
    have := nodup_bounded_length idxs samples.length hnd hb
    rw [hf.length_eq, hmlen] at this
    exact this
  · intro lr h0 h1 obs
    have := updates_invariant L
      (fun g => g.gDists.length = g.K ∧ 1 ≤ g.K ∧ 0 < g.lr ∧ g.lr < 1 ∧
        (∀ d ∈ g.gDists, 0 < d.weight) ∧ weightSumOf g.gDists = 1)
      (by
        rintro g px t ⟨a1, a2, a3, a4, a5, -⟩
        obtain ⟨g2, b, hu, b1, b2, b3, b4, b5⟩ := update_weights g L px t a1 a2 a3 a4 a5
        exact ⟨g2, b, hu, b3, by omega, by rw [b2]; exact a3, by rw [b2]; exact a4, b4, b5⟩)
      { g1 with lr := lr }
      ⟨by simpa [hK1] using hlen, by simpa [hK1] using hK, h0, h1,
        fun d hd => by rw [hw d hd]; exact div_pos one_pos hKpos, hsum⟩
      obs
    obtain ⟨g2, hg2, hP⟩ := this
    exact ⟨g2, hg2, hP.2.2.2.2.2⟩

theorem init_returns (g0 : GMM α) (L : Libm α) (tape : List Nat) (data : List Vec3b)
    (hempty : g0.gDists = []) (hne : 1 ≤ data.length) (hb : ∀ i ∈ tape, i < data.length)
    (hdraws : g0.K ≤ tape.toFinset.card) : ∃ g1, g0.init L tape data = .ok g1 := by
  obtain ⟨means, hrs⟩ := randomSample_returns tape data g0.K hne hb hdraws
  have hlen := (randomSample_ok tape data g0.K means hrs).1
  exact ⟨_, (init_ok_iff g0 _ L tape data hempty).mpr ⟨means, hrs, hlen, rfl⟩⟩

/-- Witness for C1: a two-component mixture built from three samples (the draws repeat
index 1 once), then run for two frames at the learning rate of the driver. -/
theorem weight_conservation_witness :
    ∃ g1 : GMM ℝ,
      (GMM.new 2 : GMM ℝ).init ⟨Real.sqrt, Real.exp, Real.pi⟩ [1, 1, 0]
          [⟨10, 20, 30⟩, ⟨200, 100, 50⟩, ⟨12, 22, 28⟩] = .ok g1 ∧
      weightSumOf g1.gDists = 1 ∧
      ∃ g2, GMM.updates ⟨Real.sqrt, Real.exp, Real.pi⟩ { g1 with lr := 0.003 }
          [(⟨11, 21, 29⟩, 0.75), (⟨250, 250, 250⟩, 0.75)] = .ok g2 ∧
        weightSumOf g2.gDists = 1 := by
  obtain ⟨g1, h⟩ := init_returns (GMM.new 2 : GMM ℝ) ⟨Real.sqrt, Real.exp, Real.pi⟩ [1, 1, 0]
    [⟨10, 20, 30⟩, ⟨200, 100, 50⟩, ⟨12, 22, 28⟩] rfl (by decide) (by decide)
    (by decide)
  have hw := weight_conservation ⟨Real.sqrt, Real.exp, Real.pi⟩ (GMM.new 2 : GMM ℝ) g1
    [1, 1, 0] [⟨10, 20, 30⟩, ⟨200, 100, 50⟩, ⟨12, 22, 28⟩] rfl (by decide) h
  exact ⟨g1, h, hw.2.1, hw.2.2 0.003 (by norm_num) (by norm_num) _⟩

/-! ### Sort order -/

theorem renorm_ratio (L : Libm α) (S : α) (d : Gaussian α) :
    (renorm L S d).weightStdRatio = (renorm L S d).ratio L := rfl

theorem initGaussian_ratio (g : GMM α) (L : Libm α) (data : List Vec3b) (m : Vec3b) :
    (initGaussian g L data m).weightStdRatio = (initGaussian g L data m).ratio L := rfl

/-- C2. Sort invariant: after `GMM::init` on an empty mixture, and after `GMM::update` on
any `K`-component state (`K ≥ 1`; the call returns), the component list is ordered so that
`weight / sqrt(variance)`, recomputed from each component's final weight and variance, is
non-increasing from the first to the last index. -/
theorem sort_invariant (L : Libm α) (g0 g1 : GMM α) (tape : List Nat) (samples : List Vec3b)
    (hempty : g0.gDists = []) (hinit : g0.init L tape samples = .ok g1)
    (g : GMM α) (px : Vec3b) (t : α) (hlen : g.gDists.length = g.K) (hK : 1 ≤ g.K) :
    g1.gDists.Pairwise (fun a b => b.ratio L ≤ a.ratio L) ∧
    ∃ g2 b, g.update L px t = .ok (g2, b) ∧
      g2.gDists.Pairwise (fun a b => b.ratio L ≤ a.ratio L) := by
  constructor
  · obtain ⟨means, -, -, hg⟩ := (init_ok_iff g0 g1 L tape samples hempty).mp hinit
    subst hg
    apply qsort_sorted_ratio
    intro d hd
    obtain ⟨m, -, rfl⟩ := List.mem_map.mp hd
    exact initGaussian_ratio g0 L samples m
  · obtain ⟨r, -, -, -, -, hu⟩ := update_ok g L px t hlen hK
    refine ⟨_, _, hu, ?_⟩
    apply qsort_sorted_ratio
    intro d hd
    obtain ⟨e, -, rfl⟩ := List.mem_map.mp hd
    exact renorm_ratio L _ e

/-- Witness for C2: the mixture of the C1 witness, and one update of a two-component state. -/
theorem sort_invariant_witness :
    ∃ g1 : GMM ℝ,
      (GMM.new 2 : GMM ℝ).init ⟨Real.sqrt, Real.exp, Real.pi⟩ [1, 1, 0]
          [⟨10, 20, 30⟩, ⟨200, 100, 50⟩, ⟨12, 22, 28⟩] = .ok g1 ∧
      g1.gDists.Pairwise
        (fun a b => b.ratio ⟨Real.sqrt, Real.exp, Real.pi⟩ ≤ a.ratio ⟨Real.sqrt, Real.exp, Real.pi⟩) ∧
      ∃ g2 b, GMM.update
          ({ K := 2, gDists := [⟨100, 100, 100, 10, 0.6, 0⟩, ⟨10, 10, 10, 10, 0.4, 0⟩],
             lr := 0.003, highVariance := 36, minVariance := 8 } : GMM ℝ)
          ⟨Real.sqrt, Real.exp, Real.pi⟩ ⟨200, 100, 100⟩ 0.75 = .ok (g2, b) ∧
        g2.gDists.Pairwise
          (fun a b => b.ratio ⟨Real.sqrt, Real.exp, Real.pi⟩ ≤ a.ratio ⟨Real.sqrt, Real.exp, Real.pi⟩) := by
  obtain ⟨g1, h⟩ := init_returns (GMM.new 2 : GMM ℝ) ⟨Real.sqrt, Real.exp, Real.pi⟩ [1, 1, 0]
    [⟨10, 20, 30⟩, ⟨200, 100, 50⟩, ⟨12, 22, 28⟩] rfl (by decide) (by decide)
    (by decide)
  have hs := sort_invariant ⟨Real.sqrt, Real.exp, Real.pi⟩ (GMM.new 2 : GMM ℝ) g1
    [1, 1, 0] [⟨10, 20, 30⟩, ⟨200, 100, 50⟩, ⟨12, 22, 28⟩] rfl h
    ({ K := 2, gDists := [⟨100, 100, 100, 10, 0.6, 0⟩, ⟨10, 10, 10, 10, 0.4, 0⟩],
       lr := 0.003, highVariance := 36, minVariance := 8 } : GMM ℝ)
    ⟨200, 100, 100⟩ 0.75 rfl (by decide)
  exact ⟨g1, h, hs.1, hs.2⟩

/-! ### Variance floor -/

theorem updateStep_variance_ge (g : GMM α) (L : Libm α) (px : Vec3b) (bgI i : Nat)
    (d : Gaussian α) (s : Scan α) (h5 : g.minVariance ≤ 5 * g.highVariance)
    (hd : g.minVariance ≤ d.variance) :
    g.minVariance ≤ (updateStep g L px bgI i d s).1.variance := by
  unfold updateStep
  dsimp only
  split
  · exact hd
  · split
    · dsimp only
      split
      · exact le_refl _
      · rename_i hlo
        split
        · exact h5
        · exact not_lt.mp hlo
    · exact hd

theorem scanLoop_variance_ge (g : GMM α) (L : Libm α) (px : Vec3b) (bgI : Nat)
    (h5 : g.minVariance ≤ 5 * g.highVariance) (ds : List (Gaussian α)) :
    ∀ (i : Nat) (s : Scan α), (∀ d ∈ ds, g.minVariance ≤ d.variance) →
      ∀ d ∈ (scanLoop g L px bgI i ds s).1, g.minVariance ≤ d.variance := by
  induction ds with
  | nil => intro i s _ d hd; simp [scanLoop] at hd
  | cons a ds ih =>
    intro i s hv d hd
    simp only [scanLoop, List.mem_cons] at hd
    rcases hd with rfl | hd
    · exact updateStep_variance_ge g L px bgI i a s h5 (hv a (List.mem_cons_self _ _))
    · exact ih _ _ (fun e he => hv e (List.mem_cons_of_mem _ he)) d hd

/-- One `update` call keeps every variance at or above `minVariance`, on the matched path
(clamp) and on the replacement path (`highVariance`). -/
theorem update_variance_ge (g : GMM α) (L : Libm α) (px : Vec3b) (t : α)
    (hlen : g.gDists.length = g.K) (hK : 1 ≤ g.K) (hmin : 0 < g.minVariance)
    (hhigh : g.minVariance ≤ g.highVariance)
    (hv : ∀ d ∈ g.gDists, g.minVariance ≤ d.variance) :
    ∃ g2 b, g.update L px t = .ok (g2, b) ∧ g2.K = g.K ∧ g2.minVariance = g.minVariance ∧
      g2.highVariance = g.highVariance ∧ g2.gDists.length = g2.K ∧
      ∀ d ∈ g2.gDists, g.minVariance ≤ d.variance := by
  have h5 : g.minVariance ≤ 5 * g.highVariance := by linarith
  obtain ⟨r, hr, hrlen, -, -, hu⟩ := update_ok g L px t hlen hK
  have hrv : ∀ d ∈ r.1, g.minVariance ≤ d.variance := by
    rcases preRenorm_cases g L px t hlen hK with ⟨-, hp⟩ | ⟨-, -, last, -, hp⟩
    · rw [hp] at hr
      injection hr with hr
      subst hr
      unfold scanOf
      exact scanLoop_variance_ge g L px _ h5 _ _ _
        (fun d hd => hv d (List.mem_of_mem_take hd))
    · rw [hp] at hr
      injection hr with hr
      subst hr
      intro d hd
      rcases List.mem_or_eq_of_mem_set hd with h | h
      · exact hv d h
      · rw [h]
        exact hhigh
  refine ⟨_, _, hu, rfl, rfl, rfl, by simp [qsort_length, hrlen], ?_⟩
  intro d hd
  have hd2 := (qsort_perm distCmp _).subset hd
  obtain ⟨e, he, rfl⟩ := List.mem_map.mp hd2
  exact hrv e he

theorem initGaussian_variance_ge (g : GMM α) (L : Libm α) (data : List Vec3b) (m : Vec3b) :
    g.minVariance ≤ (initGaussian g L data m).variance := by
  simp only [initGaussian]
  split
  · exact le_refl _
  · rename_i h
    exact not_lt.mp h

/-- C3. Variance floor: for a mixture configured with `0 < minVariance ≤ highVariance`,
every component's variance is at least `minVariance`, hence strictly positive, right after
`GMM::init` and after every finite run of `GMM::update` calls (any learning rate, any
observations and thresholds; the run returns). The three paths that set a variance are the
floor in `init`, the clamp of the matched update and `highVariance` of the replacement. -/
theorem variance_floor (L : Libm α) (g0 g1 : GMM α) (tape : List Nat) (samples : List Vec3b)
    (hempty : g0.gDists = []) (hK : 1 ≤ g0.K) (hmin : 0 < g0.minVariance)
    (hhigh : g0.minVariance ≤ g0.highVariance) (hinit : g0.init L tape samples = .ok g1) :
    (∀ d ∈ g1.gDists, g0.minVariance ≤ d.variance ∧ 0 < d.variance) ∧
    ∀ (lr : α) (obs : List (Vec3b × α)),
      ∃ g2, GMM.updates L { g1 with lr := lr } obs = .ok g2 ∧
        ∀ d ∈ g2.gDists, g0.minVariance ≤ d.variance ∧ 0 < d.variance := by
  obtain ⟨hK1, -, hhv, hmv, hlen, hcomp⟩ := init_components g0 g1 L tape samples hempty hinit
  have hfloor : ∀ d ∈ g1.gDists, g0.minVariance ≤ d.variance := by
    intro d hd
    obtain ⟨m, -, rfl⟩ := hcomp d hd
    exact initGaussian_variance_ge g0 L samples m
  refine ⟨fun d hd => ⟨hfloor d hd, lt_of_lt_of_le hmin (hfloor d hd)⟩, ?_⟩
  intro lr obs
  have := updates_invariant L
    (fun g => g.gDists.length = g.K ∧ 1 ≤ g.K ∧ g.minVariance = g0.minVariance ∧
      g.highVariance = g0.highVariance ∧ ∀ d ∈ g.gDists, g0.minVariance ≤ d.variance)
    (by
      rintro g px t ⟨a1, a2, a3, a4, a5⟩
      obtain ⟨g2, b, hu, b1, b2, b3, b4, b5⟩ :=
        update_variance_ge g L px t a1 a2 (by rw [a3]; exact hmin)
          (by rw [a3, a4]; exact hhigh) (by rw [a3]; exact a5)
      exact ⟨g2, b, hu, b4, by omega, by rw [b2, a3], by rw [b3, a4],
        by rw [← a3]; exact b5⟩)
    { g1 with lr := lr }
    ⟨by simpa [hK1] using hlen, by simpa [hK1] using hK, hmv, hhv, hfloor⟩
    obs
  obtain ⟨g2, hg2, hP⟩ := this
  exact ⟨g2, hg2, fun d hd => ⟨hP.2.2.2.2 d hd, lt_of_lt_of_le hmin (hP.2.2.2.2 d hd)⟩⟩

/-- Witness for C3: the default configuration (`minVariance = 8`, `highVariance = 36`). -/
theorem variance_floor_witness :
    ∃ g1 : GMM ℝ,
      (GMM.new 2 : GMM ℝ).init ⟨Real.sqrt, Real.exp, Real.pi⟩ [1, 1, 0]
          [⟨10, 20, 30⟩, ⟨200, 100, 50⟩, ⟨12, 22, 28⟩] = .ok g1 ∧
      (∀ d ∈ g1.gDists, (GMM.new 2 : GMM ℝ).minVariance ≤ d.variance ∧ 0 < d.variance) ∧
      ∃ g2, GMM.updates ⟨Real.sqrt, Real.exp, Real.pi⟩ { g1 with lr := 0.003 }
          [(⟨11, 21, 29⟩, 0.75), (⟨250, 250, 250⟩, 0.75)] = .ok g2 ∧
        ∀ d ∈ g2.gDists, (GMM.new 2 : GMM ℝ).minVariance ≤ d.variance ∧ 0 < d.variance := by
  obtain ⟨g1, h⟩ := init_returns (GMM.new 2 : GMM ℝ) ⟨Real.sqrt, Real.exp, Real.pi⟩ [1, 1, 0]
    [⟨10, 20, 30⟩, ⟨200, 100, 50⟩, ⟨12, 22, 28⟩] rfl (by decide) (by decide)
    (by decide)
  have hv := variance_floor ⟨Real.sqrt, Real.exp, Real.pi⟩ (GMM.new 2 : GMM ℝ) g1
    [1, 1, 0] [⟨10, 20, 30⟩, ⟨200, 100, 50⟩, ⟨12, 22, 28⟩] rfl (by decide)
    (by norm_num [GMM.new]) (by norm_num [GMM.new]) h
  exact ⟨g1, h, hv.1, hv.2 0.003 _⟩

/-! ### Variance ceiling -/

/-- C4 (failing input). With the default constants, `GMM::init` on the two-sample buffer
`(0,0,0), (255,255,255)` with `K = 1` and first draw `0` returns a component of variance
`765/2 = 382.5`, above `5 × highVariance = 180`: `init` applies the floor only. -/
theorem variance_ceiling_fails :
    ∃ g1 : GMM ℝ,
      (GMM.new 1 : GMM ℝ).init ⟨Real.sqrt, Real.exp, Real.pi⟩ [0]
          [⟨0, 0, 0⟩, ⟨255, 255, 255⟩] = .ok g1 ∧
      ∃ d ∈ g1.gDists, d.variance = 765 / 2 ∧ 5 * g1.highVariance < d.variance := by
  refine ⟨_, (init_ok_iff _ _ _ _ _ rfl).mpr ⟨[⟨0, 0, 0⟩], rfl, rfl, rfl⟩, ?_⟩
  refine ⟨initGaussian (GMM.new 1 : GMM ℝ) ⟨Real.sqrt, Real.exp, Real.pi⟩
    [⟨0, 0, 0⟩, ⟨255, 255, 255⟩] ⟨0, 0, 0⟩, ?_, ?_, ?_⟩
  · simp [qsort, qsortInsert]
  · norm_num [initGaussian, calcVariance, GMM.new, Fin.coe_ofNat_eq_mod]
  · norm_num [initGaussian, calcVariance, GMM.new, Fin.coe_ofNat_eq_mod]

/-! ### Classification flag -/

theorem sqDist_nonneg (d : Gaussian α) (px : Vec3b) : 0 ≤ sqDist d px := by
  unfold sqDist
  positivity

theorem match_imp_wide (d : Gaussian α) (px : Vec3b)
    (h : sqDist d px < 2.5 * d.variance) : sqDist d px < 7.5 * d.variance := by
  have h0 := sqDist_nonneg d px
  have hv : 0 < d.variance := by
    by_contra hc
    have : (2.5 : α) * d.variance ≤ 0 :=
      mul_nonpos_of_nonneg_of_nonpos (by norm_num) (not_lt.mp hc)
    linarith
  have : (2.5 : α) * d.variance < 7.5 * d.variance :=
    mul_lt_mul_of_pos_right (by norm_num) hv
  linarith

theorem updateStep_background (g : GMM α) (L : Libm α) (px : Vec3b) (bgI i : Nat)
    (d : Gaussian α) (s : Scan α) :
    ((updateStep g L px bgI i d s).2.background = 1 ↔
      s.background = 1 ∨ (sqDist d px < 7.5 * d.variance ∧ i < bgI)) ∧
    (s.background = 0 ∨ s.background = 1 →
      (updateStep g L px bgI i d s).2.background = 0 ∨
        (updateStep g L px bgI i d s).2.background = 1) := by
  unfold updateStep
  dsimp only
  by_cases hc : sqDist d px < 7.5 * d.variance ∧ i < bgI
  · have hi : i < bgI := hc.2
    split
    · simp [hc]
    · split <;> simp [hc, hi]
  · split
    · simp only [if_neg hc]
      exact ⟨by simp [hc], fun h => h⟩
    · split
      · rename_i hm
        have hi : ¬ i < bgI := fun hi => hc ⟨match_imp_wide d px hm, hi⟩
        simp only [if_neg hc, if_neg hi]
        exact ⟨by simp [hc], fun h => h⟩
      · simp only [if_neg hc]
        exact ⟨by simp [hc], fun h => h⟩

theorem scanLoop_background (g : GMM α) (L : Libm α) (px : Vec3b) (bgI : Nat)
    (ds : List (Gaussian α)) :
    ∀ (i : Nat) (s : Scan α),
      ((scanLoop g L px bgI i ds s).2.background = 1 ↔
        s.background = 1 ∨
          ∃ j d, ds.get? j = some d ∧ i + j < bgI ∧ sqDist d px < 7.5 * d.variance) ∧
      (s.background = 0 ∨ s.background = 1 →
        (scanLoop g L px bgI i ds s).2.background = 0 ∨
          (scanLoop g L px bgI i ds s).2.background = 1) := by
  induction ds with
  | nil => intro i s; simp [scanLoop]
  | cons a ds ih =>
    intro i s
    obtain ⟨h1, h2⟩ := updateStep_background g L px bgI i a s
    obtain ⟨h3, h4⟩ := ih (i + 1) (updateStep g L px bgI i a s).2
    simp only [scanLoop]
    refine ⟨?_, fun h => h4 (h2 h)⟩
    rw [h3, h1]
    constructor
    · rintro ((h | ⟨hd, hi⟩) | ⟨j, d, hj, hlt, hd⟩)
      · exact Or.inl h
      · exact Or.inr ⟨0, a, by simp, by simpa using hi, hd⟩
      · exact Or.inr ⟨j + 1, d, by simpa using hj, by omega, hd⟩
    · rintro (h | ⟨j, d, hj, hlt, hd⟩)
      · exact Or.inl (Or.inl h)
      · cases j with
        | zero =>
          simp at hj
          subst hj
          exact Or.inl (Or.inr ⟨hd, by simpa using hlt⟩)
        | succ j => exact Or.inr ⟨j, d, by simpa using hj, by omega, hd⟩

/-- C5. Classification result: on every `K`-component state (`K ≥ 1`), for every
observation and `bgThresh`, `GMM::update` returns; the flag is 1 or 0, and it is 1 exactly
when some index `i` below the background prefix length has squared colour distance from the
observation to the pre-call mean of component `i` below `7.5 ×` its pre-call variance. The
`2.5 × variance` match test does not enter the result. -/
theorem classification (g : GMM α) (L : Libm α) (px : Vec3b) (t : α)
    (hlen : g.gDists.length = g.K) (hK : 1 ≤ g.K) :
    ∃ g2 b, g.update L px t = .ok (g2, b) ∧ (b = 1 ∨ b = 0) ∧
      (b = 1 ↔ ∃ i d, i < bgGaussianI t g.gDists 0 0 ∧ g.gDists.get? i = some d ∧
        sqDist d px < 7.5 * d.variance) := by
  obtain ⟨r, -, -, hr2, -, hu⟩ := update_ok g L px t hlen hK
  have hb := scanLoop_background g L px (bgGaussianI t g.gDists 0 0) g.gDists 0
    { foundMatch := false, weightSum := 0, background := 0 }
  have hsc : (scanOf g L px t).2
      = (scanLoop g L px (bgGaussianI t g.gDists 0 0) 0 g.gDists
          { foundMatch := false, weightSum := 0, background := 0 }).2 := by
    unfold scanOf
    simp only [take_K_self g hlen, zero_lit]
  refine ⟨_, _, hu, ?_, ?_⟩
  · rw [hr2, hsc]
    exact (hb.2 (Or.inl rfl)).symm
  · rw [hr2, hsc, hb.1]
    constructor
    · rintro (h | ⟨j, d, hj, hlt, hd⟩)
      · simp at h
      · exact ⟨j, d, by simpa using hlt, hj, hd⟩
    · rintro ⟨j, d, hlt, hj, hd⟩
      exact Or.inr ⟨j, d, hj, by simpa using hlt, hd⟩

/-- Witness for C5: a two-component state whose first component is within the wide
threshold of the observation. -/
theorem classification_witness :
    ∃ g2 b, GMM.update
        ({ K := 2, gDists := [⟨100, 100, 100, 10, 0.6, 0⟩, ⟨10, 10, 10, 10, 0.4, 0⟩],
           lr := 0.003, highVariance := 36, minVariance := 8 } : GMM ℝ)
        ⟨Real.sqrt, Real.exp, Real.pi⟩ ⟨108, 100, 100⟩ 0.75 = .ok (g2, b) ∧ (b = 1 ∨ b = 0) ∧
      (b = 1 ↔ ∃ i d, i < bgGaussianI (0.75 : ℝ)
          [⟨100, 100, 100, 10, 0.6, 0⟩, ⟨10, 10, 10, 10, 0.4, 0⟩] 0 0 ∧
        [(⟨100, 100, 100, 10, 0.6, 0⟩ : Gaussian ℝ), ⟨10, 10, 10, 10, 0.4, 0⟩].get? i = some d ∧
        sqDist d ⟨108, 100, 100⟩ < 7.5 * d.variance) :=
  classification
    ({ K := 2, gDists := [⟨100, 100, 100, 10, 0.6, 0⟩, ⟨10, 10, 10, 10, 0.4, 0⟩],
       lr := 0.003, highVariance := 36, minVariance := 8 } : GMM ℝ)
    ⟨Real.sqrt, Real.exp, Real.pi⟩ ⟨108, 100, 100⟩ 0.75 rfl (by decide)

/-! ### Construction -/

/-- C9. Construction ordering: on an empty mixture with `K ≥ 1` and a positive
`minVariance` (default 8), `GMM::init` returns as soon as the sampler has drawn `K`
distinct in-range indices (which needs `N ≥ K` samples), and whenever it returns, whatever
the drawn indices, the result has exactly `K` components, each of weight exactly `1/K`,
ordered by non-decreasing variance and by non-increasing `weight / sqrt(variance)`. -/
theorem init_ordering (g0 : GMM ℝ) (tape : List Nat) (samples : List Vec3b)
    (hempty : g0.gDists = []) (hK : 1 ≤ g0.K) (hmin : 0 < g0.minVariance) :
    ((∀ i ∈ tape, i < samples.length) → g0.K ≤ tape.toFinset.card →
      ∃ g1, g0.init ⟨Real.sqrt, Real.exp, Real.pi⟩ tape samples = .ok g1) ∧
    ∀ g1, g0.init ⟨Real.sqrt, Real.exp, Real.pi⟩ tape samples = .ok g1 →
      g1.gDists.length = g0.K ∧ (∀ d ∈ g1.gDists, d.weight = 1 / (g0.K : ℝ)) ∧
      g1.gDists.Pairwise (fun a b => a.variance ≤ b.variance) ∧
      g1.gDists.Pairwise
        (fun a b => b.ratio ⟨Real.sqrt, Real.exp, Real.pi⟩
          ≤ a.ratio ⟨Real.sqrt, Real.exp, Real.pi⟩) := by
  refine ⟨fun hb hd => init_returns g0 _ tape samples hempty ?_ hb hd, ?_⟩
  · have hpos : 0 < tape.toFinset.card := by omega
    obtain ⟨i, hi⟩ := Finset.card_pos.mp hpos
    have := hb i (List.mem_toFinset.mp hi)
    omega
  intro g1 hinit
  obtain ⟨-, -, -, -, hlen, hcomp⟩ := init_components g0 g1 _ tape samples hempty hinit
  obtain ⟨hw, -⟩ := init_weights g0 g1 _ tape samples hempty hK hinit
  have hKpos : (0 : ℝ) < (g0.K : ℝ) := by exact_mod_cast hK
  have hsorted : g1.gDists.Pairwise
      (fun a b => b.ratio ⟨Real.sqrt, Real.exp, Real.pi⟩
        ≤ a.ratio ⟨Real.sqrt, Real.exp, Real.pi⟩) := by
    obtain ⟨means, -, -, hg⟩ := (init_ok_iff g0 g1 _ tape samples hempty).mp hinit
    subst hg
    apply qsort_sorted_ratio
    intro d hd
    obtain ⟨m, -, rfl⟩ := List.mem_map.mp hd
    rfl
  refine ⟨hlen, hw, ?_, hsorted⟩
  refine List.Pairwise.imp_of_mem ?_ hsorted
  intro a b ha hb hab
  have hva : 0 < a.variance := by
    obtain ⟨m, -, rfl⟩ := hcomp a ha
    exact lt_of_lt_of_le hmin (initGaussian_variance_ge g0 _ samples m)
  have hvb : 0 < b.variance := by
    obtain ⟨m, -, rfl⟩ := hcomp b hb
    exact lt_of_lt_of_le hmin (initGaussian_variance_ge g0 _ samples m)
  simp only [Gaussian.ratio, hw a ha, hw b hb] at hab
  have h1 := (div_le_div_iff_of_pos_left (div_pos one_pos hKpos) (Real.sqrt_pos.mpr hvb)
    (Real.sqrt_pos.mpr hva)).mp hab
  exact (Real.sqrt_le_sqrt_iff (le_of_lt hvb)).mp h1

/-- Witness for C9: the default mixture with `K = 2` on three samples; the sampler draws
index 1 twice before index 0. -/
theorem init_ordering_witness :
    ∃ g1 : GMM ℝ,
      (GMM.new 2 : GMM ℝ).init ⟨Real.sqrt, Real.exp, Real.pi⟩ [1, 1, 0]
          [⟨10, 20, 30⟩, ⟨200, 100, 50⟩, ⟨12, 22, 28⟩] = .ok g1 ∧
      g1.gDists.length = 2 ∧ (∀ d ∈ g1.gDists, d.weight = 1 / 2) ∧
      g1.gDists.Pairwise (fun a b => a.variance ≤ b.variance) := by
  have ho := init_ordering (GMM.new 2 : GMM ℝ) [1, 1, 0]
    [⟨10, 20, 30⟩, ⟨200, 100, 50⟩, ⟨12, 22, 28⟩] rfl (by decide) (by norm_num [GMM.new])
  obtain ⟨g1, h⟩ := ho.1 (by decide) (by decide)
  obtain ⟨h1, h2, h3, -⟩ := ho.2 g1 h
  refine ⟨g1, h, h1, ?_, h3⟩
  intro d hd
  rw [h2 d hd]
  norm_num [GMM.new]

/-! ### Too-small warm-up buffer -/

theorem randomSample_starved (tape : List Nat) (data : List Vec3b) (K : Nat)
    (hne : 1 ≤ data.length) (hNK : data.length < K) (hb : ∀ i ∈ tape, i < data.length) :
    randomSample tape data K = .error .fuelExhausted := by
  unfold randomSample
  rw [if_neg (by omega)]
  exact randomSampleLoop_starved data K hNK tape [] [] hb rfl List.nodup_nil (by simp)

/-- C10 (amended). With a non-empty buffer of fewer samples than components,
`1 ≤ N < K`, `GMM::init` neither produces a mixture nor reports an error: whatever
in-range indices the generator draws, and however many, the rejection loop of
`randomSample` is still running at the end of the draws (it has accepted at most `N`
distinct indices and waits for `K`). -/
theorem init_starved (g0 : GMM α) (L : Libm α) (tape : List Nat) (samples : List Vec3b)
    (hN : 1 ≤ samples.length) (hNK : samples.length < g0.K)
    (hb : ∀ i ∈ tape, i < samples.length) :
    g0.init L tape samples = .error .fuelExhausted := by
  unfold GMM.init
  rw [randomSample_starved tape samples g0.K hN hNK hb]

/-- Witness for C10 (amended): two samples, three components, five draws that visit both
samples. -/
theorem init_starved_witness :
    (GMM.new 3 : GMM ℝ).init ⟨Real.sqrt, Real.exp, Real.pi⟩ [1, 0, 0, 1, 1]
        [⟨7, 7, 7⟩, ⟨9, 9, 9⟩]
      = .error .fuelExhausted :=
  init_starved (GMM.new 3 : GMM ℝ) ⟨Real.sqrt, Real.exp, Real.pi⟩ [1, 0, 0, 1, 1]
    [⟨7, 7, 7⟩, ⟨9, 9, 9⟩] (by decide) (by decide) (by decide)

/-- C10 (counterexample). For the one-sample buffer `[(7,7,7)]` and `K = 2`, no sequence
of in-range draws makes `GMM::init` fail with an error (or return a mixture): the claim
that a configuration error is reported to the caller fails. -/
theorem init_too_small_no_error :
    ¬ ∃ tape : List Nat, (∀ i ∈ tape, i < [(⟨7, 7, 7⟩ : Vec3b)].length) ∧
        ((GMM.new 2 : GMM ℝ).init ⟨Real.sqrt, Real.exp, Real.pi⟩ tape [⟨7, 7, 7⟩]
            = .error .outOfRange ∨
          (GMM.new 2 : GMM ℝ).init ⟨Real.sqrt, Real.exp, Real.pi⟩ tape [⟨7, 7, 7⟩]
            = .error .undefinedBehaviour ∨
          ∃ g1, (GMM.new 2 : GMM ℝ).init ⟨Real.sqrt, Real.exp, Real.pi⟩ tape [⟨7, 7, 7⟩]
            = .ok g1) := by
  rintro ⟨tape, hb, h⟩
  have hs : randomSample tape [(⟨7, 7, 7⟩ : Vec3b)] (GMM.new 2 : GMM ℝ).K
      = .error .fuelExhausted :=
    randomSample_starved tape [⟨7, 7, 7⟩] 2 (by decide) (by decide) hb
  unfold GMM.init at h
  rw [hs] at h
  rcases h with h | h | ⟨g1, h⟩
  · cases h
  · cases h
  · cases h

/-! ### Matched update -/

theorem scanLoop_first_match (g : GMM α) (L : Libm α) (px : Vec3b) (bgI : Nat)
    (ds : List (Gaussian α)) :
    ∀ (m i : Nat) (s : Scan α) (d : Gaussian α), s.foundMatch = false →
      ds.get? m = some d → sqDist d px < 2.5 * d.variance →
      (∀ j e, j < m → ds.get? j = some e → ¬ sqDist e px < 2.5 * e.variance) →
      ∃ s2 : Scan α, s2.foundMatch = false ∧
        (scanLoop g L px bgI i ds s).1.get? m
          = some (updateStep g L px bgI (i + m) d s2).1 := by
  induction ds with
  | nil => intro m i s d _ hm; simp at hm
  | cons c ds ih =>
    intro m i s d hs hm hd hfirst
    cases m with
    | zero =>
      simp at hm
      subst hm
      exact ⟨s, hs, by simp [scanLoop]⟩
    | succ m =>
      have hc : ¬ sqDist c px < 2.5 * c.variance := hfirst 0 c (by omega) (by simp)
      have hs2 := (updateStep_skip g L px bgI i c s hs hc).2
      obtain ⟨s2, h1, h2⟩ := ih m (i + 1) _ d hs2 (by simpa using hm) hd
        (fun j e hj he => hfirst (j + 1) e (by omega) (by simpa using he))
      refine ⟨s2, h1, ?_⟩
      simp only [scanLoop, List.get?_cons_succ]
      rw [h2]
      congr 3
      omega

theorem updateStep_match (g : GMM α) (L : Libm α) (px : Vec3b) (bgI i : Nat)
    (d : Gaussian α) (s : Scan α) (hs : s.foundMatch = false)
    (hd : sqDist d px < 2.5 * d.variance) :
    (updateStep g L px bgI i d s).1 =
      { meanB := (1 - g.lr * Gaussian.getProbability L d (sqDist d px)) * d.meanB
          + g.lr * Gaussian.getProbability L d (sqDist d px) * (px.c0.val : α),
        meanG := (1 - g.lr * Gaussian.getProbability L d (sqDist d px)) * d.meanG
          + g.lr * Gaussian.getProbability L d (sqDist d px) * (px.c1.val : α),
        meanR := (1 - g.lr * Gaussian.getProbability L d (sqDist d px)) * d.meanR
          + g.lr * Gaussian.getProbability L d (sqDist d px) * (px.c2.val : α),
        variance :=
          if (1 - g.lr * Gaussian.getProbability L d (sqDist d px)) * d.variance
              + g.lr * Gaussian.getProbability L d (sqDist d px) * (sqDist d px - d.variance)
              < g.minVariance then g.minVariance
          else if (1 - g.lr * Gaussian.getProbability L d (sqDist d px)) * d.variance
              + g.lr * Gaussian.getProbability L d (sqDist d px) * (sqDist d px - d.variance)
              > 5 * g.highVariance then 5 * g.highVariance
          else (1 - g.lr * Gaussian.getProbability L d (sqDist d px)) * d.variance
              + g.lr * Gaussian.getProbability L d (sqDist d px) * (sqDist d px - d.variance),
        weight := (1 - g.lr) * d.weight + g.lr,
        weightStdRatio := d.weightStdRatio } := by
  unfold updateStep
  dsimp only
  rw [if_neg (by simp [hs]), if_pos hd]
  rfl

/-- C7. Matched update arithmetic: on a `K`-component state, let `m` be the first
index, in the pre-call order, whose component `d` satisfies `dist < 2.5 × variance` for the
observation. Then `update` returns, and just before the renormalisation loop slot `m` holds
weight `(1-lr)·w + lr`, mean `(1-p)·mu + p·observation` per channel and variance
`(1-p)·v + p·(dist - v)` clamped to `[minVariance, 5·highVariance]`, where
`p = lr · (1/sqrt(2π v)) · exp(-dist/(2v))` is computed from the pre-call variance `v`.
The returned components are those pre-renormalisation entries, each with its weight
divided by their weight sum, in sorted order. -/
theorem matched_update (g : GMM α) (L : Libm α) (px : Vec3b) (t : α)
    (hlen : g.gDists.length = g.K) (m : Nat) (d : Gaussian α)
    (hm : g.gDists.get? m = some d) (hd : sqDist d px < 2.5 * d.variance)
    (hfirst : ∀ j e, j < m → g.gDists.get? j = some e → ¬ sqDist e px < 2.5 * e.variance) :
    let dist := sqDist d px
    let p := g.lr * (1 / L.sqrt (2 * L.pi * d.variance)) * L.exp (-dist / (2 * d.variance))
    let v := (1 - p) * d.variance + p * (dist - d.variance)
    ∃ r e g2 b, preRenorm g L px t = .ok r ∧ r.1.length = g.K ∧ r.1.get? m = some e ∧
      e.weight = (1 - g.lr) * d.weight + g.lr ∧
      e.meanB = (1 - p) * d.meanB + p * (px.c0.val : α) ∧
      e.meanG = (1 - p) * d.meanG + p * (px.c1.val : α) ∧
      e.meanR = (1 - p) * d.meanR + p * (px.c2.val : α) ∧
      e.variance = (if v < g.minVariance then g.minVariance
                    else if v > 5 * g.highVariance then 5 * g.highVariance else v) ∧
      (g.minVariance ≤ 5 * g.highVariance →
        e.variance = max g.minVariance (min v (5 * g.highVariance))) ∧
      r.2.weightSum = weightSumOf r.1 ∧
      g.update L px t = .ok (g2, b) ∧
      g2.gDists.Perm (r.1.map (fun c =>
        { c with weight := c.weight / r.2.weightSum,
                 weightStdRatio := c.weight / r.2.weightSum / L.sqrt c.variance })) := by
  intro dist p v
  have hK : 1 ≤ g.K := by
    have := (List.get?_eq_some.mp hm).1
    omega
  have hp : g.lr * Gaussian.getProbability L d (sqDist d px) = p := by
    simp only [Gaussian.getProbability, p, dist]
    norm_num
    ring
  obtain ⟨r, hr, hrlen, -, hS, hu⟩ := update_ok g L px t hlen hK
  have hmem : d ∈ g.gDists := List.get?_mem hm
  have hfound : (scanOf g L px t).2.foundMatch = true := by
    unfold scanOf
    exact (scanLoop_found_iff g L px _ _ 0 _ rfl).mpr
      ⟨d, by rw [take_K_self g hlen]; exact hmem, hd⟩
  have hr1 : r = scanOf g L px t := by
    rcases preRenorm_cases g L px t hlen hK with ⟨-, hp2⟩ | ⟨hf, -⟩
    · rw [hp2] at hr
      injection hr with hr
      exact hr.symm
    · rw [hfound] at hf
      cases hf
  obtain ⟨s2, hs2, hget⟩ := scanLoop_first_match g L px
    (bgGaussianI t (g.gDists.take g.K) 0.0 0) g.gDists m 0
    { foundMatch := false, weightSum := 0.0, background := 0 } d rfl hm hd hfirst
  have hget2 : r.1.get? m
      = some (updateStep g L px (bgGaussianI t (g.gDists.take g.K) 0.0 0) (0 + m) d s2).1 := by
    rw [hr1]
    unfold scanOf
    simp only [take_K_self g hlen] at hget ⊢
    exact hget
  have hev : (updateStep g L px (bgGaussianI t (g.gDists.take g.K) 0.0 0) (0 + m) d s2).1.variance
      = (if v < g.minVariance then g.minVariance
         else if v > 5 * g.highVariance then 5 * g.highVariance else v) := by
    rw [updateStep_match g L px _ _ d s2 hs2 hd]
    simp only [hp]
  refine ⟨r, _, _, _, hr, hrlen, hget2, ?_, ?_, ?_, ?_, hev, ?_, hS, hu, ?_⟩
  · rw [updateStep_match g L px _ _ d s2 hs2 hd]
  · rw [updateStep_match g L px _ _ d s2 hs2 hd]
    simp only [hp]
  · rw [updateStep_match g L px _ _ d s2 hs2 hd]
    simp only [hp]
  · rw [updateStep_match g L px _ _ d s2 hs2 hd]
    simp only [hp]
  · intro h5
    rw [hev]
    split
    · rename_i hlo
      rw [max_eq_left]
      exact le_trans (min_le_left _ _) (le_of_lt hlo)
    · rename_i hlo
      split
      · rename_i hhi
        rw [min_eq_right (le_of_lt hhi), max_eq_right h5]
      · rename_i hhi
        rw [min_eq_left (not_lt.mp hhi), max_eq_right (not_lt.mp hlo)]
  · exact qsort_perm distCmp _

/-- Witness for C7: the single-component example of the specification. With
`p = 0.01 × density(1)` computed from the pre-update variance 10, the update returns weight
1, mean `(100 + p, 100, 100)` and variance `10 - 19 p`. -/
theorem matched_update_witness :
    ∃ g2 b e2, GMM.update
        ({ K := 1, gDists := [⟨100, 100, 100, 10, 1, 0⟩], lr := 0.01,
           highVariance := 36, minVariance := 8 } : GMM ℝ)
        ⟨Real.sqrt, Real.exp, Real.pi⟩ ⟨101, 100, 100⟩ 0.75 = .ok (g2, b) ∧
      g2.gDists = [e2] ∧ e2.weight = 1 ∧
      e2.meanB = 100 + 0.01 * (1 / Real.sqrt (2 * Real.pi * 10)) * Real.exp (-1 / (2 * 10)) ∧
      e2.meanG = 100 ∧ e2.meanR = 100 ∧
      e2.variance
        = 10 - 19 * (0.01 * (1 / Real.sqrt (2 * Real.pi * 10)) * Real.exp (-1 / (2 * 10))) := by
  have hdist : sqDist (⟨100, 100, 100, 10, 1, 0⟩ : Gaussian ℝ) ⟨101, 100, 100⟩ = 1 := by
    norm_num [sqDist, Fin.coe_ofNat_eq_mod]
  have h := matched_update
    ({ K := 1, gDists := [⟨100, 100, 100, 10, 1, 0⟩], lr := 0.01,
       highVariance := 36, minVariance := 8 } : GMM ℝ)
    ⟨Real.sqrt, Real.exp, Real.pi⟩ ⟨101, 100, 100⟩ 0.75 rfl 0
    ⟨100, 100, 100, 10, 1, 0⟩ rfl (by rw [hdist]; norm_num) (by intro j e hj; omega)
  simp only [hdist] at h
  obtain ⟨r, e, g2, b, -, hrlen, hget, hw, hB, hG, hR, hv, -, hS, hu, hperm⟩ := h
  have hp0 : 0 < 0.01 * (1 / Real.sqrt (2 * Real.pi * 10)) * Real.exp (-1 / (2 * 10)) := by
    have := Real.pi_pos
    positivity
  have hp1 : 0.01 * (1 / Real.sqrt (2 * Real.pi * 10)) * Real.exp (-1 / (2 * 10)) ≤ 0.01 := by
    have h1 : 1 ≤ Real.sqrt (2 * Real.pi * 10) := by
      rw [Real.one_le_sqrt]
      have := Real.pi_gt_three
      linarith
    have h2 : 1 / Real.sqrt (2 * Real.pi * 10) ≤ 1 := by
      rw [div_le_one (by linarith)]
      exact h1
    have h3 : Real.exp (-1 / (2 * 10)) ≤ 1 := by
      rw [Real.exp_le_one_iff]
      norm_num
    have h4 : 0 ≤ 1 / Real.sqrt (2 * Real.pi * 10) := by positivity
    have h5 : 0 ≤ Real.exp (-1 / (2 * 10)) := (Real.exp_pos _).le
    nlinarith [mul_le_one₀ h2 h5 h3]
  have h100 : (((100 : Fin 256).val : ℕ) : ℝ) = 100 := by norm_num [Fin.coe_ofNat_eq_mod]
  have h101 : (((101 : Fin 256).val : ℕ) : ℝ) = 101 := by norm_num [Fin.coe_ofNat_eq_mod]
  have hr1 : r.1 = [e] := by
    match hr : r.1, hrlen, hget with
    | [x], _, hget =>
      simp at hget
      rw [hget]
  rw [hr1] at hperm hS
  have hS1 : r.2.weightSum = 1 := by
    rw [hS]
    simp only [weightSumOf, List.map_cons, List.map_nil, List.sum_cons, List.sum_nil, hw]
    norm_num
  have hg2 := List.perm_singleton.mp hperm
  refine ⟨g2, b, _, hu, hg2, ?_, ?_, ?_, ?_, ?_⟩
  · simp only [hS1, hw]
    norm_num
  · show e.meanB = _
    rw [hB, h101]
    ring
  · show e.meanG = _
    rw [hG, h100]
    ring
  · show e.meanR = _
    rw [hR, h100]
    ring
  · show e.variance = _
    rw [hv]
    rw [if_neg (by nlinarith), if_neg (by nlinarith)]
    ring

/-! ### No-match replacement -/

theorem set_last {β : Type} (l : List β) (x : β) (hne : l ≠ []) :
    l.set (l.length - 1) x = l.dropLast ++ [x] := by
  induction l with
  | nil => exact absurd rfl hne
  | cons a l ih =>
    cases l with
    | nil => simp
    | cons b l =>
      have := ih (by simp)
      simp only [List.length_cons, Nat.add_sub_cancel, List.set_cons_succ,
        List.dropLast_cons₂, List.cons_append] at this ⊢
      rw [this]

/-- When no component matches, `update` returns the sorted renormalisation of the old
entries with the last one overwritten; the divisor is the sum of the pre-call weights. -/
theorem update_no_match (g : GMM α) (L : Libm α) (px : Vec3b) (t : α)
    (hlen : g.gDists.length = g.K) (hK : 1 ≤ g.K)
    (hno : ∀ d ∈ g.gDists, ¬ sqDist d px < 2.5 * d.variance) :
    ∃ last b, g.gDists.get? (g.K - 1) = some last ∧
      g.update L px t = .ok
        ({ g with
            gDists := qsort distCmp
              ((g.gDists.dropLast ++ [replacement g L px last]).map
                (renorm L (weightSumOf g.gDists))) }, b) := by
  obtain ⟨r, hr, -, -, hS, hu⟩ := update_ok g L px t hlen hK
  have hne : g.gDists ≠ [] := by
    intro h
    rw [h] at hlen
    simp at hlen
    omega
  rcases preRenorm_cases g L px t hlen hK with ⟨hf, -⟩ | ⟨-, -, last, hlast, hp⟩
  · exfalso
    unfold scanOf at hf
    obtain ⟨d, hd, hm⟩ := (scanLoop_found_iff g L px _ _ 0 _ rfl).mp hf
    exact hno d (List.mem_of_mem_take hd) hm
  · rw [hp] at hr
    injection hr with hr
    subst hr
    refine ⟨last, (scanOf g L px t).2.background, hlast, ?_⟩
    rw [hu]
    dsimp only at hS ⊢
    rw [hS, weightSumOf_set g.gDists (g.K - 1) (replacement g L px last) last hlast rfl,
      ← hlen, set_last g.gDists _ hne]

/-- C6 (amended). No-match replacement: on a `K`-component state (`K ≥ 1`) in which no
component satisfies `dist < 2.5 × variance` for the observation and whose pre-call weights
have a nonzero sum `S`, `update` returns a permutation (the final sort) of the list that
keeps components `0 … K-2` with their mean and variance and weight divided by `S`, followed
by a component with mean = observation, variance = `highVariance` and weight = (pre-call
weight of slot `K-1`) / `S`; the weights then sum to 1. -/
theorem no_match_replacement (g : GMM α) (L : Libm α) (px : Vec3b) (t : α)
    (hlen : g.gDists.length = g.K) (hK : 1 ≤ g.K)
    (hno : ∀ d ∈ g.gDists, ¬ sqDist d px < 2.5 * d.variance)
    (hS : weightSumOf g.gDists ≠ 0) :
    ∃ last g2 b pre e, g.gDists.get? (g.K - 1) = some last ∧
      g.update L px t = .ok (g2, b) ∧ g2.gDists.Perm (pre ++ [e]) ∧
      List.Forall₂
        (fun c c2 => c2.meanB = c.meanB ∧ c2.meanG = c.meanG ∧ c2.meanR = c.meanR ∧
          c2.variance = c.variance ∧ c2.weight = c.weight / weightSumOf g.gDists)
        g.gDists.dropLast pre ∧
      e.meanB = (px.c0.val : α) ∧ e.meanG = (px.c1.val : α) ∧ e.meanR = (px.c2.val : α) ∧
      e.variance = g.highVariance ∧ e.weight = last.weight / weightSumOf g.gDists ∧
      weightSumOf g2.gDists = 1 := by
  obtain ⟨last, b, hlast, hu⟩ := update_no_match g L px t hlen hK hno
  have hne : g.gDists ≠ [] := by
    intro h
    rw [h] at hlen
    simp at hlen
    omega
  refine ⟨last, _, b, g.gDists.dropLast.map (renorm L (weightSumOf g.gDists)),
    renorm L (weightSumOf g.gDists) (replacement g L px last), hlast, hu, ?_, ?_,
    rfl, rfl, rfl, rfl, rfl, ?_⟩
  · dsimp only
    have := qsort_perm distCmp
      ((g.gDists.dropLast ++ [replacement g L px last]).map (renorm L (weightSumOf g.gDists)))
    simpa using this
  · rw [List.forall₂_map_right_iff]
    exact List.forall₂_same.mpr (fun c _ => ⟨rfl, rfl, rfl, rfl, rfl⟩)
  · dsimp only
    rw [weightSumOf_perm (qsort_perm distCmp _), weightSumOf_renorm,
      ← set_last g.gDists _ hne, hlen,
      weightSumOf_set g.gDists (g.K - 1) (replacement g L px last) last hlast rfl]
    exact div_self hS

/-- Witness for C6 (amended): the `K = 2` case; neither component is near the observation. -/
theorem no_match_replacement_witness :
    ∃ g2 b e1 e2, GMM.update
        ({ K := 2, gDists := [⟨100, 100, 100, 10, 0.6, 0⟩, ⟨10, 10, 10, 10, 0.4, 0⟩],
           lr := 0.003, highVariance := 36, minVariance := 8 } : GMM ℝ)
        ⟨Real.sqrt, Real.exp, Real.pi⟩ ⟨200, 100, 100⟩ 0.75 = .ok (g2, b) ∧
      g2.gDists.Perm [e1, e2] ∧
      e1.meanB = 100 ∧ e1.variance = 10 ∧ e1.weight = 0.6 ∧
      e2.meanB = 200 ∧ e2.meanG = 100 ∧ e2.meanR = 100 ∧ e2.variance = 36 ∧
      e2.weight = 0.4 ∧ weightSumOf g2.gDists = 1 := by
  have hsum : weightSumOf [(⟨100, 100, 100, 10, 0.6, 0⟩ : Gaussian ℝ),
      ⟨10, 10, 10, 10, 0.4, 0⟩] = 1 := by
    norm_num [weightSumOf]
  obtain ⟨last, g2, b, pre, e, hlast, hu, hperm, hpre, hB, hG, hR, hv, hw, hs⟩ :=
    no_match_replacement
      ({ K := 2, gDists := [⟨100, 100, 100, 10, 0.6, 0⟩, ⟨10, 10, 10, 10, 0.4, 0⟩],
         lr := 0.003, highVariance := 36, minVariance := 8 } : GMM ℝ)
      ⟨Real.sqrt, Real.exp, Real.pi⟩ ⟨200, 100, 100⟩ 0.75 rfl (by decide)
      (by
        intro d hd
        simp only [List.mem_cons, List.mem_singleton, List.not_mem_nil, or_false] at hd
        rcases hd with rfl | rfl <;> norm_num [sqDist, Fin.coe_ofNat_eq_mod])
      (by rw [hsum]; norm_num)
  simp only [hsum, div_one] at hpre hw
  simp only [List.dropLast] at hpre
  obtain ⟨e1, hrel, rfl⟩ : ∃ e1, (e1.meanB = 100 ∧ e1.meanG = 100 ∧ e1.meanR = 100 ∧
      e1.variance = 10 ∧ e1.weight = 0.6) ∧ pre = [e1] := by
    cases hpre with
    | cons h1 h2 =>
      cases h2
      exact ⟨_, h1, rfl⟩
  simp at hlast
  subst hlast
  refine ⟨g2, b, e1, e, hu, by simpa using hperm, hrel.1, hrel.2.2.2.1, hrel.2.2.2.2, ?_, ?_, ?_,
    hv, hw, hs⟩
  · rw [hB]; norm_num [Fin.coe_ofNat_eq_mod]
  · rw [hG]; norm_num [Fin.coe_ofNat_eq_mod]
  · rw [hR]; norm_num [Fin.coe_ofNat_eq_mod]

/-- C6 (counterexample). A two-component state with both weights 0 (variance 8, mean
black) and a white observation: no component matches, the renormalisation divisor is 0,
and the weights do not sum to 1 after the call. -/
theorem no_match_zero_divisor :
    (∀ d ∈ [(⟨0, 0, 0, 8, 0, 0⟩ : Gaussian ℝ), ⟨0, 0, 0, 8, 0, 0⟩],
        ¬ sqDist d ⟨255, 255, 255⟩ < 2.5 * d.variance) ∧
    weightSumOf [(⟨0, 0, 0, 8, 0, 0⟩ : Gaussian ℝ), ⟨0, 0, 0, 8, 0, 0⟩] = 0 ∧
    ∃ g2 b, GMM.update
        ({ K := 2, gDists := [⟨0, 0, 0, 8, 0, 0⟩, ⟨0, 0, 0, 8, 0, 0⟩],
           lr := 0.003, highVariance := 36, minVariance := 8 } : GMM ℝ)
        ⟨Real.sqrt, Real.exp, Real.pi⟩ ⟨255, 255, 255⟩ 0.75 = .ok (g2, b) ∧
      weightSumOf g2.gDists ≠ 1 := by
  have hno : ∀ d ∈ [(⟨0, 0, 0, 8, 0, 0⟩ : Gaussian ℝ), ⟨0, 0, 0, 8, 0, 0⟩],
      ¬ sqDist d ⟨255, 255, 255⟩ < 2.5 * d.variance := by
    intro d hd
    simp only [List.mem_cons, List.mem_singleton, List.not_mem_nil, or_false, or_self] at hd
    subst hd
    norm_num [sqDist, Fin.coe_ofNat_eq_mod]
  have hsum : weightSumOf [(⟨0, 0, 0, 8, 0, 0⟩ : Gaussian ℝ), ⟨0, 0, 0, 8, 0, 0⟩] = 0 := by
    norm_num [weightSumOf]
  refine ⟨hno, hsum, ?_⟩
  obtain ⟨last, b, -, hu⟩ := update_no_match
    ({ K := 2, gDists := [⟨0, 0, 0, 8, 0, 0⟩, ⟨0, 0, 0, 8, 0, 0⟩],
       lr := 0.003, highVariance := 36, minVariance := 8 } : GMM ℝ)
    ⟨Real.sqrt, Real.exp, Real.pi⟩ ⟨255, 255, 255⟩ 0.75 rfl (by decide) hno
  refine ⟨_, b, hu, ?_⟩
  dsimp only
  rw [weightSumOf_perm (qsort_perm distCmp _), weightSumOf_renorm, hsum, div_zero]
  norm_num

/-! ### The background prefix loop -/

theorem bgGaussianI_loop (t : α) (ds : List (Gaussian α)) (s : α) (c : Nat) :
    ∃ k, bgGaussianI t ds s c = c + k ∧ k ≤ ds.length ∧
      (∀ j, j < k → s + weightSumOf (ds.take j) < t) ∧
      (k < ds.length → t ≤ s + weightSumOf (ds.take k)) := by
  induction ds generalizing s c with
  | nil => exact ⟨0, by simp [bgGaussianI]⟩
  | cons d ds ih =>
    by_cases h : s < t
    · obtain ⟨k, hk, hle, hlt, hge⟩ := ih (s + d.weight) (c + 1)
      refine ⟨k + 1, ?_, ?_, ?_, ?_⟩
      · simp [bgGaussianI, h, hk]; omega
      · simpa using hle
      · intro j hj
        cases j with
        | zero => simpa [weightSumOf] using h
        | succ j =>
          have := hlt j (by omega)
          simpa [weightSumOf, add_assoc] using this
      · intro hk2
        have := hge (by simpa using hk2)
        simpa [weightSumOf, add_assoc] using this
    · refine ⟨0, by simp [bgGaussianI, h], by simp, by simp, ?_⟩
      intro _
      simpa [weightSumOf] using not_lt.mp h

theorem bgGaussianI_le (t : α) (ds : List (Gaussian α)) :
    bgGaussianI t ds 0 0 ≤ ds.length := by
  obtain ⟨k, hk, hle, -, -⟩ := bgGaussianI_loop t ds 0 0
  omega

/-- In exact arithmetic the running sum of the first loop of `GMM::update` is the sum of
the weights added so far: for a component list of length `K ≥ 1` and `bgThresh > 0` the
prefix length lies in `[1, K]`, and it is the smallest `n ≥ 1` whose first `n` weights sum to
at least `bgThresh`, or it is `K` when no `n` in `[1, K]` has that property. -/
theorem bgGaussianI_exact (bgThresh : α) (ds : List (Gaussian α))
    (hK : 1 ≤ ds.length) (hb : 0 < bgThresh) :
    1 ≤ bgGaussianI bgThresh ds 0 0 ∧ bgGaussianI bgThresh ds 0 0 ≤ ds.length ∧
    ((bgThresh ≤ weightSumOf (ds.take (bgGaussianI bgThresh ds 0 0)) ∧
        ∀ m, 1 ≤ m → bgThresh ≤ weightSumOf (ds.take m) → bgGaussianI bgThresh ds 0 0 ≤ m) ∨
     (bgGaussianI bgThresh ds 0 0 = ds.length ∧
        ∀ m, 1 ≤ m → m ≤ ds.length → weightSumOf (ds.take m) < bgThresh)) := by
  obtain ⟨k, hk, hle, hlt, hge⟩ := bgGaussianI_loop bgThresh ds 0 0
  simp only [zero_add] at hk hlt hge
  rw [hk]
  have h1 : 1 ≤ k := by
    by_contra hc
    have hk0 : k = 0 := by omega
    have := hge (by omega)
    rw [hk0] at this
    simp [weightSumOf] at this
    exact absurd hb (not_lt.mpr this)
  refine ⟨h1, hle, ?_⟩
  by_cases hex : ∃ m, 1 ≤ m ∧ m ≤ ds.length ∧ bgThresh ≤ weightSumOf (ds.take m)
  · left
    obtain ⟨m, hm1, hmK, hm⟩ := hex
    have hkm : k ≤ m := by
      by_contra hc
      exact absurd (hlt m (by omega)) (not_lt.mpr hm)
    constructor
    · rcases Nat.lt_or_ge k ds.length with hlt2 | hge2
      · exact hge hlt2
      · have : m = k := by omega
        rw [← this]; exact hm
    · intro m2 _ hm2
      by_contra hc
      exact absurd (hlt m2 (by omega)) (not_lt.mpr hm2)
  · right
    push_neg at hex
    refine ⟨?_, fun m h1 h2 => hex m h1 h2⟩
    by_contra hc
    have hlt2 : k < ds.length := by omega
    exact absurd (hge hlt2) (not_le.mpr (hex k h1 hle))

/-! ### The background prefix loop in rounded arithmetic -/

theorem bgGaussianIWith_exact (L : Libm α) (t : α) (ds : List (Gaussian α)) :
    ∀ (s : α) (n : Nat), bgGaussianIWith (Arith.exact L) t ds s n = bgGaussianI t ds s n := by
  induction ds with
  | nil => intro s n; rfl
  | cons d ds ih =>
    intro s n
    simp only [bgGaussianIWith, bgGaussianI, ih]
    rfl

theorem runningSum_exact (L : Libm α) (ds : List (Gaussian α)) :
    ∀ s : α, runningSum (Arith.exact L) ds s = s + weightSumOf ds := by
  induction ds with
  | nil => intro s; simp [runningSum, weightSumOf]
  | cons d ds ih =>
    intro s
    simp only [runningSum, ih, weightSumOf, List.map_cons, List.sum_cons]
    simp only [Arith.exact]
    ring

theorem bgGaussianIWith_loop (A : Arith α) (t : α) (ds : List (Gaussian α)) (s : α) (c : Nat) :
    ∃ k, bgGaussianIWith A t ds s c = c + k ∧ k ≤ ds.length ∧
      (∀ j, j < k → runningSum A (ds.take j) s < t) ∧
      (k < ds.length → t ≤ runningSum A (ds.take k) s) := by
  induction ds generalizing s c with
  | nil => exact ⟨0, by simp [bgGaussianIWith]⟩
  | cons d ds ih =>
    by_cases h : s < t
    · obtain ⟨k, hk, hle, hlt, hge⟩ := ih (A.add s d.weight) (c + 1)
      refine ⟨k + 1, ?_, ?_, ?_, ?_⟩
      · simp [bgGaussianIWith, h, hk]; omega
      · simpa using hle
      · intro j hj
        cases j with
        | zero => simpa [runningSum] using h
        | succ j =>
          have := hlt j (by omega)
          simpa [runningSum] using this
      · intro hk2
        have := hge (by simpa using hk2)
        simpa [runningSum] using this
    · refine ⟨0, by simp [bgGaussianIWith, h], by simp, by simp, ?_⟩
      intro _
      simpa [runningSum] using not_lt.mp h

/-- C8 (amended). Background prefix: for a component list of length `K ≥ 1` and
`bgThresh > 0`, in whatever arithmetic `A` the running sum is accumulated (for the program:
`double`), the prefix length `bgGaussianI` computed by the first loop of `GMM::update` lies
in `[1, K]`, and it is the smallest `n ≥ 1` for which the running sum of the first `n`
weights, as the loop accumulates it, is at least `bgThresh`, or it is `K` when no `n` in
`[1, K]` has that property. -/
theorem bgGaussianI_running (A : Arith α) (bgThresh : α) (ds : List (Gaussian α))
    (hK : 1 ≤ ds.length) (hb : 0 < bgThresh) :
    1 ≤ bgGaussianIWith A bgThresh ds 0 0 ∧ bgGaussianIWith A bgThresh ds 0 0 ≤ ds.length ∧
    ((bgThresh ≤ runningSum A (ds.take (bgGaussianIWith A bgThresh ds 0 0)) 0 ∧
        ∀ m, 1 ≤ m → bgThresh ≤ runningSum A (ds.take m) 0 →
          bgGaussianIWith A bgThresh ds 0 0 ≤ m) ∨
     (bgGaussianIWith A bgThresh ds 0 0 = ds.length ∧
        ∀ m, 1 ≤ m → m ≤ ds.length → runningSum A (ds.take m) 0 < bgThresh)) := by
  obtain ⟨k, hk, hle, hlt, hge⟩ := bgGaussianIWith_loop A bgThresh ds 0 0
  simp only [zero_add] at hk
  rw [hk]
  have h1 : 1 ≤ k := by
    by_contra hc
    have hk0 : k = 0 := by omega
    have := hge (by omega)
    rw [hk0] at this
    simp [runningSum] at this
    exact absurd hb (not_lt.mpr this)
  refine ⟨h1, hle, ?_⟩
  by_cases hex : ∃ m, 1 ≤ m ∧ m ≤ ds.length ∧ bgThresh ≤ runningSum A (ds.take m) 0
  · left
    obtain ⟨m, hm1, hmK, hm⟩ := hex
    have hkm : k ≤ m := by
      by_contra hc
      exact absurd (hlt m (by omega)) (not_lt.mpr hm)
    constructor
    · rcases Nat.lt_or_ge k ds.length with hlt2 | hge2
      · exact hge hlt2
      · have : m = k := by omega
        rw [← this]; exact hm
    · intro m2 _ hm2
      by_contra hc
      exact absurd (hlt m2 (by omega)) (not_lt.mpr hm2)
  · right
    push_neg at hex
    refine ⟨?_, fun m h1 h2 => hex m h1 h2⟩
    by_contra hc
    have hlt2 : k < ds.length := by omega
    exact absurd (hge hlt2) (not_le.mpr (hex k h1 hle))

/-- Witness for C8 (amended): the `double` weights `0.6, 0.3, 0.1` with `bgThresh = 0.75`
give prefix length 2 in `double` arithmetic. -/
theorem bgGaussianI_running_witness :
    bgGaussianIWith Arith.binary64 (Arith.binary64.lit 0.75)
      [⟨0, 0, 0, 8, Arith.binary64.lit 0.6, 0⟩, ⟨0, 0, 0, 8, Arith.binary64.lit 0.3, 0⟩,
        ⟨0, 0, 0, 8, Arith.binary64.lit 0.1, 0⟩] 0 0 = 2 ∧
    (1 ≤ bgGaussianIWith Arith.binary64 (Arith.binary64.lit 0.75)
      [⟨0, 0, 0, 8, Arith.binary64.lit 0.6, 0⟩, ⟨0, 0, 0, 8, Arith.binary64.lit 0.3, 0⟩,
        ⟨0, 0, 0, 8, Arith.binary64.lit 0.1, 0⟩] 0 0) :=
  ⟨by decide!, (bgGaussianI_running Arith.binary64 (Arith.binary64.lit 0.75)
      [⟨0, 0, 0, 8, Arith.binary64.lit 0.6, 0⟩, ⟨0, 0, 0, 8, Arith.binary64.lit 0.3, 0⟩,
        ⟨0, 0, 0, 8, Arith.binary64.lit 0.1, 0⟩] (by decide) (by decide!)).1⟩

/-- C8 (counterexample). Ten components of weight `1.0 / 10` (the weights `GMM::init`
gives for `K = 10`) and `bgThresh = 0.8`, in `double` arithmetic: the loop returns prefix
length 9, because the running sum after eight additions is `0.7999999999999999`, below
`0.8`; but the sum of the first eight weights is at least `bgThresh` (the two are equal), so
the smallest `n` whose first `n` weights sum to at least `bgThresh` is at most 8. -/
theorem bgGaussianI_exact_sum_fails :
    bgGaussianIWith Arith.binary64 (Arith.binary64.lit 0.8)
        (List.replicate 10 ⟨0, 0, 0, 8, Arith.binary64.div 1 10, 0⟩) 0 0 = 9 ∧
    runningSum Arith.binary64
        ((List.replicate 10 ⟨0, 0, 0, 8, Arith.binary64.div 1 10, 0⟩).take 8) 0
      < Arith.binary64.lit 0.8 ∧
    Arith.binary64.lit 0.8
      ≤ weightSumOf ((List.replicate 10 ⟨0, 0, 0, 8, Arith.binary64.div 1 10, 0⟩).take 8) := by
  decide!

/-! ### Sampling without replacement -/

/-- C11. Sampling without replacement: modelling the generator as an arbitrary tape of
drawn indices, whenever `randomSample(data, K)` returns, its result has exactly `K`
elements, `K ≤ N`, and there are `K` pairwise distinct in-range indices such that the
`j`-th returned element is `data` at the `j`-th index. Hence, whenever `GMM::init` returns
on an empty mixture, its components are (a permutation, by the final sort, of) `K`
Gaussians whose means are those `K` buffer samples. -/
theorem sampling_without_replacement (tape : List Nat) (data : List Vec3b) (K : Nat)
    (means : List Vec3b) (h : randomSample tape data K = .ok means)
    (L : Libm α) (g0 g1 : GMM α) (hempty : g0.gDists = []) (hK : g0.K = K)
    (hinit : g0.init L tape data = .ok g1) :
    means.length = K ∧ K ≤ data.length ∧
    (∃ idxs : List Nat, idxs.length = K ∧ idxs.Nodup ∧ (∀ i ∈ idxs, i < data.length) ∧
      List.Forall₂ (fun i v => data.get? i = some v) idxs means) ∧
    ∃ comps : List (Gaussian α), g1.gDists.Perm comps ∧
      List.Forall₂
        (fun v d => d.meanB = (v.c0.val : α) ∧ d.meanG = (v.c1.val : α) ∧
          d.meanR = (v.c2.val : α)) means comps := by
  obtain ⟨hlen, idxs, hnd, hf⟩ := randomSample_ok tape data K means h
  have hilen : idxs.length = K := by rw [hf.length_eq, hlen]
  have hb : ∀ i ∈ idxs, i < data.length := by
    intro i hi
    obtain ⟨n, hn, rfl⟩ := List.getElem_of_mem hi
    have hn2 : n < means.length := by rw [← hf.length_eq]; exact hn
    have := List.Forall₂.get hf hn hn2
    simp only [List.get_eq_getElem] at this
    exact (List.get?_eq_some.mp this).1
  have hKN : K ≤ data.length := by
    have := nodup_bounded_length idxs data.length hnd hb
    omega
  refine ⟨hlen, hKN, ⟨idxs, hilen, hnd, hb, hf⟩, ?_⟩
  obtain ⟨means2, hrs, -, hg⟩ := (init_ok_iff g0 g1 L tape data hempty).mp hinit
  rw [hK, h] at hrs
  injection hrs with hrs
  subst hrs
  subst hg
  refine ⟨means.map (initGaussian g0 L data), qsort_perm distCmp _, ?_⟩
  rw [List.forall₂_map_right_iff]
  exact List.forall₂_same.mpr (fun v _ => ⟨rfl, rfl, rfl⟩)

/-- Witness for C11: three samples, `K = 2`, draws `1, 1, 0`: the sampler returns the
samples at indices 1 and 0. -/
theorem sampling_without_replacement_witness :
    randomSample [1, 1, 0] [⟨10, 20, 30⟩, ⟨200, 100, 50⟩, ⟨12, 22, 28⟩] 2
      = .ok [⟨200, 100, 50⟩, ⟨10, 20, 30⟩] ∧
    ∃ g1 : GMM ℝ,
      (GMM.new 2 : GMM ℝ).init ⟨Real.sqrt, Real.exp, Real.pi⟩ [1, 1, 0]
          [⟨10, 20, 30⟩, ⟨200, 100, 50⟩, ⟨12, 22, 28⟩] = .ok g1 ∧
      ∃ comps : List (Gaussian ℝ), g1.gDists.Perm comps ∧
        List.Forall₂
          (fun v d => d.meanB = (v.c0.val : ℝ) ∧ d.meanG = (v.c1.val : ℝ) ∧
            d.meanR = (v.c2.val : ℝ))
          [(⟨200, 100, 50⟩ : Vec3b), ⟨10, 20, 30⟩] comps := by
  have hrs : randomSample [1, 1, 0] [⟨10, 20, 30⟩, ⟨200, 100, 50⟩, ⟨12, 22, 28⟩] 2
      = .ok [⟨200, 100, 50⟩, ⟨10, 20, 30⟩] := by
    simp [randomSample, randomSampleLoop, atE]
  obtain ⟨g1, hinit⟩ := init_returns (GMM.new 2 : GMM ℝ) ⟨Real.sqrt, Real.exp, Real.pi⟩
    [1, 1, 0] [⟨10, 20, 30⟩, ⟨200, 100, 50⟩, ⟨12, 22, 28⟩] rfl (by decide) (by decide)
    (by decide)
  exact ⟨hrs, g1, hinit,
    (sampling_without_replacement [1, 1, 0] [⟨10, 20, 30⟩, ⟨200, 100, 50⟩, ⟨12, 22, 28⟩] 2
      [⟨200, 100, 50⟩, ⟨10, 20, 30⟩] hrs ⟨Real.sqrt, Real.exp, Real.pi⟩ (GMM.new 2 : GMM ℝ) g1
      rfl rfl hinit).2.2.2⟩

/-! ### Initial variance -/

theorem foldl_add_eq_sum {β : Type} (f : β → α) (l : List β) (a : α) :
    l.foldl (fun acc v => acc + f v) a = a + (l.map f).sum := by
  induction l generalizing a with
  | nil => simp
  | cons x xs ih => simp [ih, add_assoc]

theorem calcVariance_eq (data : List Vec3b) (m : α) :
    calcVariance data m
      = (data.map (fun o => (((o.c0.val : α) - m) + ((o.c1.val : α) - m))
          + ((o.c2.val : α) - m))).sum / (data.length : α) := by
  unfold calcVariance
  rw [foldl_add_eq_sum, zero_lit, zero_add]

theorem sum_sub_const (data : List Vec3b) (m : α) :
    (data.map (fun o => (((o.c0.val : α) - m) + ((o.c1.val : α) - m))
        + ((o.c2.val : α) - m))).sum
      = (data.map (fun o => (o.c0.val : α) + (o.c1.val : α) + (o.c2.val : α))).sum
        - (data.length : α) * (3 * m) := by
  induction data with
  | nil => simp
  | cons x xs ih =>
    simp only [List.map_cons, List.sum_cons, List.length_cons] at ih ⊢
    rw [ih]
    push_cast
    ring

/-- C14. Initial variance formula: for every buffer of `N ≥ 1` samples, every component
that `GMM::init` returns carries as mean one buffer sample `(b, g, r)` and as variance
`max(minVariance, calcVariance(buffer, m))` with `m = (b+g+r)/3`, where
`calcVariance(buffer, m)` is `1/N` times the sum over the entire buffer of the signed
(not squared) differences `(o_B - m) + (o_G - m) + (o_R - m)`, which equals
(sum of all channel values in the buffer)`/N - 3 m`. -/
theorem initial_variance (L : Libm α) (g0 g1 : GMM α) (tape : List Nat)
    (samples : List Vec3b) (hempty : g0.gDists = []) (hN : 1 ≤ samples.length)
    (hinit : g0.init L tape samples = .ok g1) :
    (∀ d ∈ g1.gDists, ∃ s ∈ samples,
      d.meanB = (s.c0.val : α) ∧ d.meanG = (s.c1.val : α) ∧ d.meanR = (s.c2.val : α) ∧
      d.variance = max g0.minVariance
        (calcVariance samples ((d.meanB + d.meanG + d.meanR) / 3))) ∧
    ∀ m : α,
      calcVariance samples m
        = (1 / (samples.length : α)) *
            (samples.map (fun o => (((o.c0.val : α) - m) + ((o.c1.val : α) - m))
              + ((o.c2.val : α) - m))).sum ∧
      calcVariance samples m
        = (samples.map (fun o => (o.c0.val : α) + (o.c1.val : α) + (o.c2.val : α))).sum
            / (samples.length : α) - 3 * m := by
  have hNpos : (0 : α) < (samples.length : α) := by exact_mod_cast hN
  constructor
  · intro d hd
    obtain ⟨-, -, -, -, -, hcomp⟩ := init_components g0 g1 L tape samples hempty hinit
    obtain ⟨s, hs, rfl⟩ := hcomp d hd
    refine ⟨s, hs, rfl, rfl, rfl, ?_⟩
    simp only [initGaussian]
    have h3 : (3.0 : α) = 3 := by norm_num
    rw [h3]
    split
    · rename_i hlt
      rw [max_eq_left (le_of_lt hlt)]
    · rename_i hlt
      rw [max_eq_right (not_lt.mp hlt)]
  · intro m
    constructor
    · rw [calcVariance_eq]
      ring
    · rw [calcVariance_eq, sum_sub_const]
      field_simp

/-- Witness for C14: the default two-component mixture on three samples. -/
theorem initial_variance_witness :
    ∃ g1 : GMM ℝ,
      (GMM.new 2 : GMM ℝ).init ⟨Real.sqrt, Real.exp, Real.pi⟩ [1, 1, 0]
          [⟨10, 20, 30⟩, ⟨200, 100, 50⟩, ⟨12, 22, 28⟩] = .ok g1 ∧
      (∀ d ∈ g1.gDists,
        d.variance = max (GMM.new 2 : GMM ℝ).minVariance
          (calcVariance [⟨10, 20, 30⟩, ⟨200, 100, 50⟩, ⟨12, 22, 28⟩]
            ((d.meanB + d.meanG + d.meanR) / 3))) ∧
      calcVariance [⟨10, 20, 30⟩, ⟨200, 100, 50⟩, ⟨12, 22, 28⟩] (20 : ℝ) = 292 / 3 := by
  obtain ⟨g1, hinit⟩ := init_returns (GMM.new 2 : GMM ℝ) ⟨Real.sqrt, Real.exp, Real.pi⟩
    [1, 1, 0] [⟨10, 20, 30⟩, ⟨200, 100, 50⟩, ⟨12, 22, 28⟩] rfl (by decide) (by decide)
    (by decide)
  have hv := initial_variance ⟨Real.sqrt, Real.exp, Real.pi⟩ (GMM.new 2 : GMM ℝ) g1
    [1, 1, 0] [⟨10, 20, 30⟩, ⟨200, 100, 50⟩, ⟨12, 22, 28⟩] rfl (by decide) hinit
  refine ⟨g1, hinit, ?_, ?_⟩
  · intro d hd
    obtain ⟨s, -, -, -, -, h⟩ := hv.1 d hd
    exact h
  · rw [(hv.2 20).2]
    norm_num [Fin.coe_ofNat_eq_mod]

/-! ### Shape of the main loop's output -/

theorem updateStep_fst_found (g : GMM α) (L : Libm α) (px : Vec3b) (bgI i : Nat)
    (d : Gaussian α) (s : Scan α) (hs : s.foundMatch = true) :
    (updateStep g L px bgI i d s).1 = decayed g d := by
  unfold updateStep decayed
  dsimp only
  rw [if_pos hs]

theorem updateStep_fst_match (g : GMM α) (L : Libm α) (px : Vec3b) (bgI i : Nat)
    (d : Gaussian α) (s : Scan α) (hs : s.foundMatch = false)
    (hd : sqDist d px < 2.5 * d.variance) :
    (updateStep g L px bgI i d s).1 = matchedEntry g L px d := by
  unfold updateStep matchedEntry
  dsimp only
  rw [if_neg (by simp [hs]), if_pos hd]

theorem scanLoop_found_map (g : GMM α) (L : Libm α) (px : Vec3b) (bgI : Nat)
    (ds : List (Gaussian α)) :
    ∀ (i : Nat) (s : Scan α), s.foundMatch = true →
      (scanLoop g L px bgI i ds s).1 = ds.map (decayed g) := by
  induction ds with
  | nil => intro i s _; rfl
  | cons d ds ih =>
    intro i s hs
    simp only [scanLoop, List.map_cons]
    rw [updateStep_fst_found g L px bgI i d s hs,
      ih (i + 1) _ (updateStep_found g L px bgI i d s (Or.inl hs))]

/-- With the first match at index `m`, the main loop leaves the entries before `m` as they
are, writes the matched entry at `m` and decays every entry after `m`. -/
theorem scanLoop_split (g : GMM α) (L : Libm α) (px : Vec3b) (bgI : Nat)
    (ds : List (Gaussian α)) :
    ∀ (m i : Nat) (s : Scan α) (d : Gaussian α), s.foundMatch = false →
      ds.get? m = some d → sqDist d px < 2.5 * d.variance →
      (∀ j e, j < m → ds.get? j = some e → ¬ sqDist e px < 2.5 * e.variance) →
      (scanLoop g L px bgI i ds s).1
        = ds.take m ++ matchedEntry g L px d :: (ds.drop (m + 1)).map (decayed g) := by
  induction ds with
  | nil => intro m i s d _ hm; simp at hm
  | cons c ds ih =>
    intro m i s d hs hm hd hfirst
    cases m with
    | zero =>
      simp at hm
      subst hm
      simp only [scanLoop, List.take_zero, List.nil_append, Nat.zero_add, List.drop_succ_cons,
        List.drop_zero]
      rw [updateStep_fst_match g L px bgI i c s hs hd,
        scanLoop_found_map g L px bgI ds (i + 1) _
          (updateStep_found g L px bgI i c s (Or.inr hd))]
    | succ m =>
      have hc : ¬ sqDist c px < 2.5 * c.variance := hfirst 0 c (by omega) (by simp)
      have hsk := updateStep_skip g L px bgI i c s hs hc
      simp only [scanLoop, List.take_succ_cons, List.cons_append, List.drop_succ_cons]
      rw [hsk.1, ih m (i + 1) _ d hsk.2 (by simpa using hm) hd
        (fun j e hj he => hfirst (j + 1) e (by omega) (by simpa using he))]

theorem weightSumOf_append (l1 l2 : List (Gaussian α)) :
    weightSumOf (l1 ++ l2) = weightSumOf l1 + weightSumOf l2 := by
  simp [weightSumOf]

theorem weightSumOf_cons (d : Gaussian α) (l : List (Gaussian α)) :
    weightSumOf (d :: l) = d.weight + weightSumOf l := by
  simp [weightSumOf]

theorem split_at {β : Type} (l : List β) (m : Nat) (d : β) (hm : l.get? m = some d) :
    l = l.take m ++ d :: l.drop (m + 1) := by
  induction l generalizing m with
  | nil => simp at hm
  | cons a l ih =>
    cases m with
    | zero =>
      simp at hm
      subst hm
      simp
    | succ m =>
      have := ih m (by simpa using hm)
      simp only [List.take_succ_cons, List.drop_succ_cons, List.cons_append]
      rw [← this]

/-- On a `K`-component state whose first match is at index `m`, the part of `update`
before the renormalisation loop returns the split list of `scanLoop_split`. -/
theorem preRenorm_match (g : GMM α) (L : Libm α) (px : Vec3b) (t : α)
    (hlen : g.gDists.length = g.K) (m : Nat) (d : Gaussian α)
    (hm : g.gDists.get? m = some d) (hd : sqDist d px < 2.5 * d.variance)
    (hfirst : ∀ j e, j < m → g.gDists.get? j = some e → ¬ sqDist e px < 2.5 * e.variance) :
    ∃ r, preRenorm g L px t = .ok r ∧
      r.1 = g.gDists.take m ++ matchedEntry g L px d :: (g.gDists.drop (m + 1)).map (decayed g) ∧
      r.2.weightSum = weightSumOf r.1 ∧
      g.update L px t
        = .ok ({ g with gDists := qsort distCmp (r.1.map (renorm L r.2.weightSum)) },
               r.2.background) := by
  have hK : 1 ≤ g.K := by
    have := (List.get?_eq_some.mp hm).1
    omega
  obtain ⟨r, hr, -, -, hS, hu⟩ := update_ok g L px t hlen hK
  have hfound : (scanOf g L px t).2.foundMatch = true := by
    unfold scanOf
    exact (scanLoop_found_iff g L px _ _ 0 _ rfl).mpr
      ⟨d, by rw [take_K_self g hlen]; exact List.get?_mem hm, hd⟩
  have hr1 : r = scanOf g L px t := by
    rcases preRenorm_cases g L px t hlen hK with ⟨-, hp2⟩ | ⟨hf, -⟩
    · rw [hp2] at hr
      injection hr with hr
      exact hr.symm
    · rw [hfound] at hf
      cases hf
  refine ⟨r, hr, ?_, hS, hu⟩
  rw [hr1]
  unfold scanOf
  simp only [take_K_self g hlen]
  exact scanLoop_split g L px _ g.gDists m 0 _ d rfl hm hd hfirst

theorem split_get {β : Type} (f : β → β) (e : β) (l : List β) :
    ∀ (m i : Nat) (c : β), m < l.length → l.get? i = some c →
      (l.take m ++ e :: (l.drop (m + 1)).map f).get? i
        = some (if i < m then c else if i = m then e else f c) := by
  induction l with
  | nil => intro m i c hm; simp at hm
  | cons a l ih =>
    intro m i c hm hc
    cases m with
    | zero =>
      cases i with
      | zero => simp
      | succ i =>
        have hc2 : l[i]? = some c := by simpa using hc
        simp
        exact ⟨c, hc2, rfl⟩
    | succ m =>
      cases i with
      | zero =>
        simp at hc
        subst hc
        simp
      | succ i =>
        have := ih m i c (by simpa using hm) (by simpa using hc)
        simp only [List.take_succ_cons, List.drop_succ_cons, List.cons_append,
          List.get?_cons_succ, Nat.add_lt_add_iff_right, Nat.add_right_cancel_iff]
        exact this

theorem decayed_weight (g : GMM α) (d : Gaussian α) :
    (decayed g d).weight = max ((1 - g.lr) * d.weight) 1e-8 := by
  simp only [decayed]
  split
  · rename_i h
    rw [max_eq_right (le_of_lt h)]
  · rename_i h
    rw [max_eq_left (not_lt.mp h)]

/-! ### Weight decay -/

/-- C13. Weight decay of non-matching components: in a `GMM::update` call on a
`K`-component state whose first matching index is `m`, just before renormalisation every
slot `i < m` holds its weight `w_i` unchanged, slot `m` holds `(1-lr)·w_m + lr`, and every
slot `i > m` holds `max((1-lr)·w_i, 1e-8)`; `weightSum` is the sum of these values, and the
returned components are (a permutation, by the final sort, of) these slots with each
weight divided by `weightSum`. -/
theorem weight_decay (g : GMM α) (L : Libm α) (px : Vec3b) (t : α)
    (hlen : g.gDists.length = g.K) (m : Nat) (d : Gaussian α)
    (hm : g.gDists.get? m = some d) (hd : sqDist d px < 2.5 * d.variance)
    (hfirst : ∀ j e, j < m → g.gDists.get? j = some e → ¬ sqDist e px < 2.5 * e.variance) :
    ∃ r g2 b post, preRenorm g L px t = .ok r ∧ r.1.length = g.K ∧
      (∀ i c, g.gDists.get? i = some c → ∃ c2, r.1.get? i = some c2 ∧
        (i < m → c2.weight = c.weight) ∧
        (i = m → c2.weight = (1 - g.lr) * c.weight + g.lr) ∧
        (m < i → c2.weight = max ((1 - g.lr) * c.weight) 1e-8)) ∧
      r.2.weightSum = weightSumOf r.1 ∧
      g.update L px t = .ok (g2, b) ∧ g2.gDists.Perm post ∧
      List.Forall₂ (fun c2 e => e.weight = c2.weight / r.2.weightSum) r.1 post := by
  obtain ⟨r, hr, hshape, hS, hu⟩ := preRenorm_match g L px t hlen m d hm hd hfirst
  have hmlt : m < g.gDists.length := (List.get?_eq_some.mp hm).1
  refine ⟨r, _, _, r.1.map (renorm L r.2.weightSum), hr, ?_, ?_, hS, hu,
    qsort_perm distCmp _, ?_⟩
  · rw [hshape]
    simp only [List.length_append, List.length_take, List.length_cons, List.length_map,
      List.length_drop]
    omega
  · intro i c hc
    have hget := split_get (decayed g) (matchedEntry g L px d) g.gDists m i c hmlt hc
    rw [← hshape] at hget
    refine ⟨_, hget, ?_, ?_, ?_⟩
    · intro hi
      rw [if_pos hi]
    · intro hi
      subst hi
      rw [if_neg (lt_irrefl _), if_pos rfl]
      rw [hm] at hc
      injection hc with hc
      subst hc
      rfl
    · intro hi
      rw [if_neg (by omega), if_neg (by omega)]
      exact decayed_weight g c
  · rw [List.forall₂_map_right_iff]
    exact List.forall₂_same.mpr (fun c _ => rfl)

/-- Witness for C13: three components, the middle one matches the observation; the first
keeps weight 0.5, the third decays to `(1 - 0.01) · 0.2`. -/
theorem weight_decay_witness :
    ∃ r g2 b c0 c1 c2, preRenorm
        ({ K := 3,
           gDists := [⟨10, 10, 10, 10, 0.5, 0⟩, ⟨100, 100, 100, 10, 0.3, 0⟩,
                      ⟨200, 200, 200, 10, 0.2, 0⟩],
           lr := 0.01, highVariance := 36, minVariance := 8 } : GMM ℝ)
        ⟨Real.sqrt, Real.exp, Real.pi⟩ ⟨101, 100, 100⟩ 0.75 = .ok r ∧
      r.1 = [c0, c1, c2] ∧ c0.weight = 0.5 ∧ c1.weight = (1 - 0.01) * 0.3 + 0.01 ∧
      c2.weight = (1 - 0.01) * 0.2 ∧
      GMM.update
        ({ K := 3,
           gDists := [⟨10, 10, 10, 10, 0.5, 0⟩, ⟨100, 100, 100, 10, 0.3, 0⟩,
                      ⟨200, 200, 200, 10, 0.2, 0⟩],
           lr := 0.01, highVariance := 36, minVariance := 8 } : GMM ℝ)
        ⟨Real.sqrt, Real.exp, Real.pi⟩ ⟨101, 100, 100⟩ 0.75 = .ok (g2, b) := by
  obtain ⟨r, g2, b, post, hr, hrlen, hidx, -, hu, -, -⟩ := weight_decay
    ({ K := 3,
       gDists := [⟨10, 10, 10, 10, 0.5, 0⟩, ⟨100, 100, 100, 10, 0.3, 0⟩,
                  ⟨200, 200, 200, 10, 0.2, 0⟩],
       lr := 0.01, highVariance := 36, minVariance := 8 } : GMM ℝ)
    ⟨Real.sqrt, Real.exp, Real.pi⟩ ⟨101, 100, 100⟩ 0.75 rfl 1 ⟨100, 100, 100, 10, 0.3, 0⟩ rfl
    (by norm_num [sqDist, Fin.coe_ofNat_eq_mod])
    (by
      intro j e hj he
      have hj0 : j = 0 := by omega
      subst hj0
      simp at he
      subst he
      norm_num [sqDist, Fin.coe_ofNat_eq_mod])
  obtain ⟨c0, h0, h0w, -, -⟩ := hidx 0 ⟨10, 10, 10, 10, 0.5, 0⟩ rfl
  obtain ⟨c1, h1, -, h1w, -⟩ := hidx 1 ⟨100, 100, 100, 10, 0.3, 0⟩ rfl
  obtain ⟨c2, h2, -, -, h2w⟩ := hidx 2 ⟨200, 200, 200, 10, 0.2, 0⟩ rfl
  refine ⟨r, g2, b, c0, c1, c2, hr, ?_, h0w (by omega), h1w rfl, ?_, hu⟩
  · match hl : r.1, hrlen, h0, h1, h2 with
    | [x, y, z], _, h0, h1, h2 =>
      simp at h0 h1 h2
      rw [h0, h1, h2]
  · rw [h2w (by omega)]
    dsimp only
    rw [max_eq_left]
    norm_num

/-! ### Frame of `update` -/

theorem get?_map_some {β γ : Type} (f : β → γ) (l : List β) (i : Nat) (c : β)
    (h : l.get? i = some c) : (l.map f).get? i = some (f c) := by
  simp only [List.get?_eq_getElem?] at h ⊢
  rw [List.getElem?_map, h]
  rfl

theorem get?_set_ne {β : Type} (l : List β) (n i : Nat) (x : β) (h : i ≠ n) :
    (l.set n x).get? i = l.get? i := by
  simp only [List.get?_eq_getElem?]
  exact List.getElem?_set_ne (Ne.symm h)

theorem get?_set_self {β : Type} (l : List β) (n : Nat) (x : β) (h : n < l.length) :
    (l.set n x).get? n = some x := by
  simp only [List.get?_eq_getElem?]
  rw [List.getElem?_set_self h]

/-- C18 (amended). Frame of update: on a `K`-component state (`K ≥ 1`), let `s` be the
first index whose `dist < 2.5 × variance` if there is one, otherwise `K - 1`. `GMM::update`
returns `K` components, a permutation (the final sort) of a list `post` in the pre-call
slot order in which every slot other than `s` keeps its mean and variance, so at most one
slot changes them; slot `s` holds the mean and variance written by the match branch,
respectively the observation and `highVariance` written by the replacement (values that
may coincide with the old ones). -/
theorem update_frame (g : GMM α) (L : Libm α) (px : Vec3b) (t : α)
    (hlen : g.gDists.length = g.K) (hK : 1 ≤ g.K) (s : Nat)
    (hs : (∃ d, g.gDists.get? s = some d ∧ sqDist d px < 2.5 * d.variance ∧
            ∀ j e, j < s → g.gDists.get? j = some e → ¬ sqDist e px < 2.5 * e.variance) ∨
          ((∀ d ∈ g.gDists, ¬ sqDist d px < 2.5 * d.variance) ∧ s = g.K - 1)) :
    ∃ g2 b post, g.update L px t = .ok (g2, b) ∧ g2.gDists.Perm post ∧
      post.length = g.K ∧ g2.gDists.length = g.K ∧
      (∀ i c, i ≠ s → g.gDists.get? i = some c →
        ∃ c2, post.get? i = some c2 ∧ c2.meanB = c.meanB ∧ c2.meanG = c.meanG ∧
          c2.meanR = c.meanR ∧ c2.variance = c.variance) ∧
      (∀ d, g.gDists.get? s = some d → sqDist d px < 2.5 * d.variance →
        ∃ cs, post.get? s = some cs ∧ cs.meanB = (matchedEntry g L px d).meanB ∧
          cs.meanG = (matchedEntry g L px d).meanG ∧
          cs.meanR = (matchedEntry g L px d).meanR ∧
          cs.variance = (matchedEntry g L px d).variance) ∧
      ((∀ d ∈ g.gDists, ¬ sqDist d px < 2.5 * d.variance) →
        ∃ cs, post.get? s = some cs ∧ cs.meanB = (px.c0.val : α) ∧
          cs.meanG = (px.c1.val : α) ∧ cs.meanR = (px.c2.val : α) ∧
          cs.variance = g.highVariance) := by
  rcases hs with ⟨d, hm, hd, hfirst⟩ | ⟨hno, hsK⟩
  · obtain ⟨r, -, hshape, -, hu⟩ := preRenorm_match g L px t hlen s d hm hd hfirst
    have hmlt : s < g.gDists.length := (List.get?_eq_some.mp hm).1
    have hrlen : r.1.length = g.K := by
      rw [hshape]
      simp only [List.length_append, List.length_take, List.length_cons, List.length_map,
        List.length_drop]
      omega
    refine ⟨_, _, r.1.map (renorm L r.2.weightSum), hu, qsort_perm distCmp _,
      by simp [hrlen], by simp [qsort_length, hrlen], ?_, ?_, ?_⟩
    · intro i c hi hc
      have hget := split_get (decayed g) (matchedEntry g L px d) g.gDists s i c hmlt hc
      rw [← hshape] at hget
      refine ⟨_, get?_map_some _ _ _ _ hget, ?_⟩
      by_cases h1 : i < s
      · simp only [if_pos h1]
        exact ⟨rfl, rfl, rfl, rfl⟩
      · simp only [if_neg h1, if_neg hi]
        exact ⟨rfl, rfl, rfl, rfl⟩
    · intro d2 hd2 _
      rw [hm] at hd2
      injection hd2 with hd2
      subst hd2
      have hget := split_get (decayed g) (matchedEntry g L px d) g.gDists s s d hmlt hm
      rw [← hshape, if_neg (lt_irrefl _), if_pos rfl] at hget
      exact ⟨_, get?_map_some _ _ _ _ hget, rfl, rfl, rfl, rfl⟩
    · intro hno
      exact absurd hd (hno d (List.get?_mem hm))
  · obtain ⟨r, hr, hrlen, -, -, hu⟩ := update_ok g L px t hlen hK
    have hr1 : ∃ last, r.1 = g.gDists.set (g.K - 1) (replacement g L px last) := by
      rcases preRenorm_cases g L px t hlen hK with ⟨hf, -⟩ | ⟨-, -, last, -, hp⟩
      · exfalso
        unfold scanOf at hf
        obtain ⟨d, hd, hm⟩ := (scanLoop_found_iff g L px _ _ 0 _ rfl).mp hf
        exact hno d (List.mem_of_mem_take hd) hm
      · rw [hp] at hr
        injection hr with hr
        exact ⟨last, by rw [← hr]⟩
    obtain ⟨last, hr1⟩ := hr1
    refine ⟨_, _, r.1.map (renorm L r.2.weightSum), hu, qsort_perm distCmp _,
      by simp [hrlen], by simp [qsort_length, hrlen], ?_, ?_, ?_⟩
    · intro i c hi hc
      have hget : r.1.get? i = some c := by
        rw [hr1, get?_set_ne _ _ _ _ (by rw [← hsK]; exact hi)]
        exact hc
      exact ⟨_, get?_map_some _ _ _ _ hget, rfl, rfl, rfl, rfl⟩
    · intro d hd hmatch
      exact absurd hmatch (hno d (List.get?_mem hd))
    · intro _
      have hget : r.1.get? s = some (replacement g L px last) := by
        rw [hr1, hsK]
        exact get?_set_self _ _ _ (by omega)
      exact ⟨_, get?_map_some _ _ _ _ hget, rfl, rfl, rfl, rfl⟩

/-- Witness for C18 (amended): the three-component state of the C13 witness (first match at
slot 1):
slots 0 and 2 keep mean and variance. -/
theorem update_frame_witness :
    ∃ g2 b post c0 c2, GMM.update
        ({ K := 3,
           gDists := [⟨10, 10, 10, 10, 0.5, 0⟩, ⟨100, 100, 100, 10, 0.3, 0⟩,
                      ⟨200, 200, 200, 10, 0.2, 0⟩],
           lr := 0.01, highVariance := 36, minVariance := 8 } : GMM ℝ)
        ⟨Real.sqrt, Real.exp, Real.pi⟩ ⟨101, 100, 100⟩ 0.75 = .ok (g2, b) ∧
      g2.gDists.Perm post ∧ g2.gDists.length = 3 ∧
      post.get? 0 = some c0 ∧ c0.meanB = 10 ∧ c0.variance = 10 ∧
      post.get? 2 = some c2 ∧ c2.meanB = 200 ∧ c2.variance = 10 := by
  obtain ⟨g2, b, post, hu, hperm, -, hlen, hframe, -, -⟩ := update_frame
    ({ K := 3,
       gDists := [⟨10, 10, 10, 10, 0.5, 0⟩, ⟨100, 100, 100, 10, 0.3, 0⟩,
                  ⟨200, 200, 200, 10, 0.2, 0⟩],
       lr := 0.01, highVariance := 36, minVariance := 8 } : GMM ℝ)
    ⟨Real.sqrt, Real.exp, Real.pi⟩ ⟨101, 100, 100⟩ 0.75 rfl (by decide) 1
    (Or.inl ⟨⟨100, 100, 100, 10, 0.3, 0⟩, rfl, by norm_num [sqDist, Fin.coe_ofNat_eq_mod], by
      intro j e hj he
      have hj0 : j = 0 := by omega
      subst hj0
      simp at he
      subst he
      norm_num [sqDist, Fin.coe_ofNat_eq_mod]⟩)
  obtain ⟨c0, h0, h0B, -, -, h0v⟩ := hframe 0 ⟨10, 10, 10, 10, 0.5, 0⟩ (by decide) rfl
  obtain ⟨c2, h2, h2B, -, -, h2v⟩ := hframe 2 ⟨200, 200, 200, 10, 0.2, 0⟩ (by decide) rfl
  exact ⟨g2, b, post, c0, c2, hu, hperm, hlen, h0, h0B, h0v, h2, h2B, h2v⟩

/-! ### Renormalisation divisor -/

theorem exists_first_match (px : Vec3b) (l : List (Gaussian α))
    (h : ∃ d ∈ l, sqDist d px < 2.5 * d.variance) :
    ∃ m d, l.get? m = some d ∧ sqDist d px < 2.5 * d.variance ∧
      ∀ j e, j < m → l.get? j = some e → ¬ sqDist e px < 2.5 * e.variance := by
  induction l with
  | nil =>
    obtain ⟨d, hd, -⟩ := h
    simp at hd
  | cons a l ih =>
    by_cases ha : sqDist a px < 2.5 * a.variance
    · exact ⟨0, a, rfl, ha, fun j e hj _ => absurd hj (Nat.not_lt_zero j)⟩
    · obtain ⟨d, hd, hm⟩ := h
      have hd2 : d ∈ l := by
        rcases List.mem_cons.mp hd with rfl | h2
        · exact absurd hm ha
        · exact h2
      obtain ⟨m, e, hget, he, hfirst⟩ := ih ⟨d, hd2, hm⟩
      refine ⟨m + 1, e, by simpa using hget, he, ?_⟩
      intro j c hj hc
      cases j with
      | zero =>
        simp at hc
        subst hc
        exact ha
      | succ j => exact hfirst j c (by omega) (by simpa using hc)

theorem weightSumOf_nonneg (l : List (Gaussian α)) (hpos : ∀ d ∈ l, 0 < d.weight) :
    0 ≤ weightSumOf l := by
  induction l with
  | nil => simp [weightSumOf]
  | cons a l ih =>
    rw [weightSumOf_cons]
    have := ih (fun d hd => hpos d (List.mem_cons_of_mem _ hd))
    have := hpos a (List.mem_cons_self _ _)
    linarith

theorem weight_le_sum (l : List (Gaussian α)) (hpos : ∀ d ∈ l, 0 < d.weight) :
    ∀ d ∈ l, d.weight ≤ weightSumOf l := by
  induction l with
  | nil => intro d hd; simp at hd
  | cons a l ih =>
    intro d hd
    rw [weightSumOf_cons]
    have hl := weightSumOf_nonneg l (fun e he => hpos e (List.mem_cons_of_mem _ he))
    have ha := hpos a (List.mem_cons_self _ _)
    rcases List.mem_cons.mp hd with rfl | h
    · linarith
    · have := ih (fun e he => hpos e (List.mem_cons_of_mem _ he)) d h
      linarith

theorem weightSumOf_decayed_ge (g : GMM α) (l : List (Gaussian α)) :
    (1 - g.lr) * weightSumOf l ≤ weightSumOf (l.map (decayed g)) := by
  induction l with
  | nil => simp [weightSumOf]
  | cons a l ih =>
    rw [List.map_cons, weightSumOf_cons, weightSumOf_cons, decayed_weight]
    have := le_max_left ((1 - g.lr) * a.weight) 1e-8
    linarith

/-- On a `K`-component state with strictly positive weights that sum to one and
`0 < lr < 1`, the divisor of the renormalisation loop is at least one. -/
theorem weightSum_ge_one (g : GMM α) (L : Libm α) (px : Vec3b) (t : α)
    (hlen : g.gDists.length = g.K) (hK : 1 ≤ g.K) (h0 : 0 < g.lr)
    (hpos : ∀ d ∈ g.gDists, 0 < d.weight) (hsum : weightSumOf g.gDists = 1)
    (r : List (Gaussian α) × Scan α) (hr : preRenorm g L px t = .ok r) :
    1 ≤ r.2.weightSum := by
  by_cases hex : ∃ d ∈ g.gDists, sqDist d px < 2.5 * d.variance
  · obtain ⟨m, d, hm, hd, hfirst⟩ := exists_first_match px g.gDists hex
    obtain ⟨r2, hr2, hshape, hS, -⟩ := preRenorm_match g L px t hlen m d hm hd hfirst
    rw [hr] at hr2
    injection hr2 with hr2
    subst hr2
    rw [hS, hshape, weightSumOf_append, weightSumOf_cons]
    have hsplit := split_at g.gDists m d hm
    have hsum2 : weightSumOf (g.gDists.take m) + (d.weight + weightSumOf (g.gDists.drop (m + 1)))
        = 1 := by
      rw [← weightSumOf_cons, ← weightSumOf_append, ← hsplit]
      exact hsum
    have htake := weightSumOf_nonneg (g.gDists.take m)
      (fun e he => hpos e (List.mem_of_mem_take he))
    have hdec := weightSumOf_decayed_ge g (g.gDists.drop (m + 1))
    have hme : (matchedEntry g L px d).weight = (1 - g.lr) * d.weight + g.lr := rfl
    rw [hme]
    nlinarith [mul_nonneg (le_of_lt h0) htake]
  · push_neg at hex
    rcases preRenorm_cases g L px t hlen hK with ⟨hf, -⟩ | ⟨-, -, last, hlast, hp⟩
    · exfalso
      unfold scanOf at hf
      obtain ⟨d, hd, hm⟩ := (scanLoop_found_iff g L px _ _ 0 _ rfl).mp hf
      exact absurd hm (not_lt.mpr (hex d (List.mem_of_mem_take hd)))
    · obtain ⟨r2, hr2, -, -, hS, -⟩ := update_ok g L px t hlen hK
      rw [hr] at hr2
      injection hr2 with hr2
      subst hr2
      rw [hr] at hp
      injection hp with hp
      rw [hS, hp]
      dsimp only
      rw [weightSumOf_set g.gDists (g.K - 1) (replacement g L px last) last hlast rfl, hsum]

/-- C16 (amended). Renormalisation divisor is positive: on every `K`-component state,
`K ≥ 1`, with strictly positive weights and `0 < lr < 1`, `GMM::update` returns, the value
`weightSum` by which it divides is strictly positive (never zero or negative), and every
weight after the update is strictly positive and at most 1. In exact arithmetic, when the
pre-call weights sum to exactly 1, `weightSum` is at least 1. Every state reached from
`GMM::init` (`K ≥ 1`) by a run of updates at a learning rate in `(0, 1)` is a
`K`-component state with strictly positive weights. -/
theorem divisor_positive (g : GMM α) (L : Libm α) (px : Vec3b) (t : α)
    (hlen : g.gDists.length = g.K) (hK : 1 ≤ g.K) (h0 : 0 < g.lr) (h1 : g.lr < 1)
    (hpos : ∀ d ∈ g.gDists, 0 < d.weight)
    (g0 g1 : GMM α) (tape : List Nat) (samples : List Vec3b) (hempty : g0.gDists = [])
    (hK0 : 1 ≤ g0.K) (hinit : g0.init L tape samples = .ok g1)
    (lr : α) (hlr0 : 0 < lr) (hlr1 : lr < 1) (obs : List (Vec3b × α)) :
    (∃ r g2 b, preRenorm g L px t = .ok r ∧ 0 < r.2.weightSum ∧
      (weightSumOf g.gDists = 1 → 1 ≤ r.2.weightSum) ∧
      g.update L px t = .ok (g2, b) ∧
      g2.gDists.Perm (r.1.map (renorm L r.2.weightSum)) ∧
      ∀ d ∈ g2.gDists, 0 < d.weight ∧ d.weight ≤ 1) ∧
    ∃ gr, GMM.updates L { g1 with lr := lr } obs = .ok gr ∧ gr.gDists.length = gr.K ∧
      1 ≤ gr.K ∧ gr.lr = lr ∧ ∀ d ∈ gr.gDists, 0 < d.weight := by
  constructor
  · obtain ⟨r, hr, hrlen, -, hS, hu⟩ := update_ok g L px t hlen hK
    obtain ⟨g2, b, hu2, -, -, -, hpos2, hsum2⟩ := update_weights g L px t hlen hK h0 h1 hpos
    have hrpos := preRenorm_weight_pos g L px t hlen hK h0 h1 hpos r hr
    have hne : r.1 ≠ [] := by
      intro h
      rw [h] at hrlen
      simp at hrlen
      omega
    have hSpos : 0 < r.2.weightSum := by
      rw [hS]
      exact weightSumOf_pos r.1 hne hrpos
    refine ⟨r, g2, b, hr, hSpos,
      fun hsum => weightSum_ge_one g L px t hlen hK h0 hpos hsum r hr, hu2, ?_, ?_⟩
    · rw [hu] at hu2
      injection hu2 with hu2
      injection hu2 with hu2 _
      rw [← hu2]
      exact qsort_perm distCmp _
    · intro d hd
      refine ⟨hpos2 d hd, ?_⟩
      rw [← hsum2]
      exact weight_le_sum g2.gDists hpos2 d hd
  · obtain ⟨hw, -⟩ := init_weights g0 g1 L tape samples hempty hK0 hinit
    obtain ⟨hK1, -, -, -, hlen1, -⟩ := init_components g0 g1 L tape samples hempty hinit
    have hKpos : (0 : α) < (g0.K : α) := by exact_mod_cast hK0
    obtain ⟨gr, hgr, hP⟩ := updates_invariant L
      (fun g => g.gDists.length = g.K ∧ 1 ≤ g.K ∧ g.lr = lr ∧ ∀ d ∈ g.gDists, 0 < d.weight)
      (by
        rintro g px t ⟨a1, a2, a3, a4⟩
        obtain ⟨g2, b, hu, b1, b2, b3, b4, -⟩ :=
          update_weights g L px t a1 a2 (by rw [a3]; exact hlr0) (by rw [a3]; exact hlr1) a4
        exact ⟨g2, b, hu, b3, by omega, by rw [b2]; exact a3, b4⟩)
      { g1 with lr := lr }
      ⟨by simpa [hK1] using hlen1, by simpa [hK1] using hK0, rfl,
        fun d hd => by rw [hw d hd]; exact div_pos one_pos hKpos⟩
      obs
    exact ⟨gr, hgr, hP.1, hP.2.1, hP.2.2.1, hP.2.2.2⟩

/-- Witness for C16 (amended): a two-component state with weights 0.6 and 0.3 (they do not
sum to 1), and the mixture built by `init` from three samples, run for two frames. -/
theorem divisor_positive_witness :
    (∃ r g2 b, preRenorm
        ({ K := 2, gDists := [⟨100, 100, 100, 10, 0.6, 0⟩, ⟨10, 10, 10, 10, 0.3, 0⟩],
           lr := 0.003, highVariance := 36, minVariance := 8 } : GMM ℝ)
        ⟨Real.sqrt, Real.exp, Real.pi⟩ ⟨101, 100, 100⟩ 0.75 = .ok r ∧ 0 < r.2.weightSum ∧
      GMM.update
        ({ K := 2, gDists := [⟨100, 100, 100, 10, 0.6, 0⟩, ⟨10, 10, 10, 10, 0.3, 0⟩],
           lr := 0.003, highVariance := 36, minVariance := 8 } : GMM ℝ)
        ⟨Real.sqrt, Real.exp, Real.pi⟩ ⟨101, 100, 100⟩ 0.75 = .ok (g2, b) ∧
      ∀ d ∈ g2.gDists, 0 < d.weight ∧ d.weight ≤ 1) ∧
    ∃ g1 gr : GMM ℝ,
      (GMM.new 2 : GMM ℝ).init ⟨Real.sqrt, Real.exp, Real.pi⟩ [1, 1, 0]
          [⟨10, 20, 30⟩, ⟨200, 100, 50⟩, ⟨12, 22, 28⟩] = .ok g1 ∧
      GMM.updates ⟨Real.sqrt, Real.exp, Real.pi⟩ { g1 with lr := 0.003 }
          [(⟨11, 21, 29⟩, 0.75), (⟨250, 250, 250⟩, 0.75)] = .ok gr ∧
      gr.gDists.length = gr.K ∧ 1 ≤ gr.K ∧ ∀ d ∈ gr.gDists, 0 < d.weight := by
  obtain ⟨g1, hinit⟩ := init_returns (GMM.new 2 : GMM ℝ) ⟨Real.sqrt, Real.exp, Real.pi⟩
    [1, 1, 0] [⟨10, 20, 30⟩, ⟨200, 100, 50⟩, ⟨12, 22, 28⟩] rfl (by decide) (by decide)
    (by decide)
  have h := divisor_positive
    ({ K := 2, gDists := [⟨100, 100, 100, 10, 0.6, 0⟩, ⟨10, 10, 10, 10, 0.3, 0⟩],
       lr := 0.003, highVariance := 36, minVariance := 8 } : GMM ℝ)
    ⟨Real.sqrt, Real.exp, Real.pi⟩ ⟨101, 100, 100⟩ 0.75 rfl (by decide) (by norm_num)
    (by norm_num)
    (by
      intro d hd
      simp only [List.mem_cons, List.mem_singleton, List.not_mem_nil, or_false] at hd
      rcases hd with rfl | rfl <;> norm_num)
    (GMM.new 2 : GMM ℝ) g1 [1, 1, 0] [⟨10, 20, 30⟩, ⟨200, 100, 50⟩, ⟨12, 22, 28⟩] rfl
    (by decide) hinit 0.003 (by norm_num) (by norm_num)
    [(⟨11, 21, 29⟩, 0.75), (⟨250, 250, 250⟩, 0.75)]
  obtain ⟨⟨r, g2, b, hr, hS, -, hu, -, hw⟩, gr, hgr, hl, hk, -, hpos⟩ := h
  exact ⟨⟨r, g2, b, hr, hS, hu, hw⟩, g1, gr, hinit, hgr, hl, hk, hpos⟩

/-! ### The weight path of the main loop in rounded arithmetic -/

theorem weightStep_exact (g : GMM α) (L : Libm α) (px : Vec3b) (bgI i : Nat)
    (d : Gaussian α) (s : Scan α) :
    weightStep (Arith.exact L) g.lr (decide (sqDist d px < 2.5 * d.variance)) d.weight
        (s.foundMatch, s.weightSum)
      = ((updateStep g L px bgI i d s).1.weight,
         ((updateStep g L px bgI i d s).2.foundMatch,
          (updateStep g L px bgI i d s).2.weightSum)) := by
  unfold weightStep updateStep
  dsimp only
  cases hs : s.foundMatch with
  | true => simp [Arith.exact]
  | false =>
    by_cases hm : sqDist d px < 2.5 * d.variance
    · simp [Arith.exact, hm]
    · simp [Arith.exact, hm]

/-- In exact arithmetic the weight path is the projection of the main loop of
`GMM::update` to the weights, `foundMatch` and `weightSum`. -/
theorem weightLoop_exact (g : GMM α) (L : Libm α) (px : Vec3b) (bgI : Nat)
    (ds : List (Gaussian α)) :
    ∀ (i : Nat) (s : Scan α),
      weightLoop (Arith.exact L) g.lr
          (ds.map (fun d => (decide (sqDist d px < 2.5 * d.variance), d.weight)))
          (s.foundMatch, s.weightSum)
        = ((scanLoop g L px bgI i ds s).1.map Gaussian.weight,
           ((scanLoop g L px bgI i ds s).2.foundMatch,
            (scanLoop g L px bgI i ds s).2.weightSum)) := by
  induction ds with
  | nil => intro i s; rfl
  | cons d ds ih =>
    intro i s
    simp only [List.map_cons, weightLoop, scanLoop]
    rw [weightStep_exact g L px bgI i d s]
    dsimp only
    rw [ih (i + 1) (updateStep g L px bgI i d s).2]

/-- C16 (counterexample). Four components of weight `1.0 / 4` (the state `GMM::init`
builds for `K = 4`; the weights are positive and sum to exactly 1), learning rate `0.003`
(the driver's), and an observation that matches the first component: in `double`
arithmetic the main loop of `GMM::update` accumulates
`weightSum = 0.9999999999999999 = 1 - 2^-53`, which is below 1. -/
theorem weightSum_below_one :
    Arith.binary64.div 1 4 = 1 / 4 ∧
    0 < Arith.binary64.lit 0.003 ∧ Arith.binary64.lit 0.003 < 1 ∧
    (weightLoop Arith.binary64 (Arith.binary64.lit 0.003)
        [(true, Arith.binary64.div 1 4), (false, Arith.binary64.div 1 4),
          (false, Arith.binary64.div 1 4), (false, Arith.binary64.div 1 4)]
        (false, 0)).2.2 = 1 - 1 / 2 ^ 53 ∧
    (weightLoop Arith.binary64 (Arith.binary64.lit 0.003)
        [(true, Arith.binary64.div 1 4), (false, Arith.binary64.div 1 4),
          (false, Arith.binary64.div 1 4), (false, Arith.binary64.div 1 4)]
        (false, 0)).2.2 < 1 := by
  decide!

/-- C18 (counterexample). A static black pixel: one component with mean `(0,0,0)`,
variance at the floor 8 and weight 1, observation `(0,0,0)`. The component matches, its
mean is blended with an equal observation and its variance `8 - 16 p` is clamped back to
8: after the call no slot has a changed mean or variance. -/
theorem update_frame_no_change :
    ∃ g2 b c, GMM.update
        ({ K := 1, gDists := [⟨0, 0, 0, 8, 1, 0⟩], lr := 0.003,
           highVariance := 36, minVariance := 8 } : GMM ℝ)
        ⟨Real.sqrt, Real.exp, Real.pi⟩ ⟨0, 0, 0⟩ 0.75 = .ok (g2, b) ∧
      g2.gDists = [c] ∧ c.meanB = 0 ∧ c.meanG = 0 ∧ c.meanR = 0 ∧ c.variance = 8 := by
  have hdist : sqDist (⟨0, 0, 0, 8, 1, 0⟩ : Gaussian ℝ) ⟨0, 0, 0⟩ = 0 := by
    norm_num [sqDist]
  obtain ⟨r, -, hshape, -, hu⟩ := preRenorm_match
    ({ K := 1, gDists := [⟨0, 0, 0, 8, 1, 0⟩], lr := 0.003,
       highVariance := 36, minVariance := 8 } : GMM ℝ)
    ⟨Real.sqrt, Real.exp, Real.pi⟩ ⟨0, 0, 0⟩ 0.75 rfl 0 ⟨0, 0, 0, 8, 1, 0⟩ rfl
    (by rw [hdist]; norm_num) (by intro j e hj; omega)
  simp only [List.take_zero, List.nil_append, List.drop_succ_cons, List.drop_zero,
    List.map_nil] at hshape
  rw [hshape] at hu
  simp only [List.map_cons, List.map_nil, qsort, qsortInsert] at hu
  have hp : 0 < (0.003 : ℝ) * Gaussian.getProbability ⟨Real.sqrt, Real.exp, Real.pi⟩
      (⟨0, 0, 0, 8, (1 - 0.003) * 1 + 0.003, 0⟩ : Gaussian ℝ) 0 := by
    simp only [Gaussian.getProbability]
    have := Real.pi_pos
    positivity
  refine ⟨_, _, _, hu, rfl, ?_, ?_, ?_, ?_⟩
  · simp [renorm, matchedEntry]
  · simp [renorm, matchedEntry]
  · simp [renorm, matchedEntry]
  · simp only [renorm, matchedEntry, hdist]
    rw [if_pos (by nlinarith)]

/-! ### Means stay in the colour range -/

theorem channel_range (c : Fin 256) : (0 : α) ≤ (c.val : α) ∧ (c.val : α) ≤ 255 := by
  constructor
  · exact Nat.cast_nonneg _
  · have h : c.val ≤ 255 := by omega
    exact_mod_cast h

theorem convex_range (p m x : α) (hp0 : 0 < p) (hp1 : p < 1) (hm : 0 ≤ m ∧ m ≤ 255)
    (hx : 0 ≤ x ∧ x ≤ 255) :
    0 ≤ (1 - p) * m + p * x ∧ (1 - p) * m + p * x ≤ 255 := by
  constructor
  · have h1 : 0 ≤ (1 - p) * m := mul_nonneg (by linarith) hm.1
    have h2 : 0 ≤ p * x := mul_nonneg (le_of_lt hp0) hx.1
    linarith
  · have h1 : (1 - p) * m ≤ (1 - p) * 255 := mul_le_mul_of_nonneg_left hm.2 (by linarith)
    have h2 : p * x ≤ p * 255 := mul_le_mul_of_nonneg_left hx.2 (le_of_lt hp0)
    linarith

/-- With a variance of at least 8 the density is in `(0, 1)`, so the blend factor
`p = lr · getProbability(dist)` of a learning rate in `(0, 1)` is in `(0, 1)`. -/
theorem blend_factor_range (lr : ℝ) (h0 : 0 < lr) (h1 : lr < 1) (d : Gaussian ℝ)
    (hv : 8 ≤ d.variance) (dist : ℝ) (hdist : 0 ≤ dist) :
    0 < lr * Gaussian.getProbability ⟨Real.sqrt, Real.exp, Real.pi⟩ d dist ∧
    lr * Gaussian.getProbability ⟨Real.sqrt, Real.exp, Real.pi⟩ d dist < 1 := by
  have hpi := Real.pi_gt_three
  have hs1 : 1 ≤ Real.sqrt (2 * Real.pi * d.variance) := by
    rw [Real.one_le_sqrt]
    nlinarith
  have h10 : (1.0 : ℝ) = 1 := by norm_num
  have hq1 : 1.0 / Real.sqrt (2 * Real.pi * d.variance) ≤ 1 := by
    rw [h10, div_le_one (by linarith)]
    exact hs1
  have hq0 : 0 < 1.0 / Real.sqrt (2 * Real.pi * d.variance) := by
    rw [h10]
    apply div_pos one_pos
    linarith
  have he1 : Real.exp (-dist / (2 * d.variance)) ≤ 1 := by
    rw [Real.exp_le_one_iff]
    apply div_nonpos_of_nonpos_of_nonneg
    · linarith
    · linarith
  have he0 : 0 < Real.exp (-dist / (2 * d.variance)) := Real.exp_pos _
  have hg1 : Gaussian.getProbability ⟨Real.sqrt, Real.exp, Real.pi⟩ d dist ≤ 1 := by
    simp only [Gaussian.getProbability]
    exact mul_le_one₀ hq1 (le_of_lt he0) he1
  have hg0 : 0 < Gaussian.getProbability ⟨Real.sqrt, Real.exp, Real.pi⟩ d dist := by
    simp only [Gaussian.getProbability]
    exact mul_pos hq0 he0
  constructor
  · exact mul_pos h0 hg0
  · nlinarith

theorem updateStep_means (g : GMM ℝ) (px : Vec3b) (bgI i : Nat) (d : Gaussian ℝ)
    (s : Scan ℝ) (h0 : 0 < g.lr) (h1 : g.lr < 1) (hv : 8 ≤ d.variance)
    (hd : d.meansInRange) :
    (updateStep g ⟨Real.sqrt, Real.exp, Real.pi⟩ px bgI i d s).1.meansInRange := by
  by_cases hs : s.foundMatch = true
  · rw [updateStep_fst_found g _ px bgI i d s hs]
    exact hd
  · have hs2 : s.foundMatch = false := by simpa using hs
    by_cases hm : sqDist d px < 2.5 * d.variance
    · rw [updateStep_fst_match g _ px bgI i d s hs2 hm]
      obtain ⟨hp0, hp1⟩ := blend_factor_range g.lr h0 h1 d hv (sqDist d px)
        (sqDist_nonneg d px)
      have hp0b : 0 < g.lr * Gaussian.getProbability ⟨Real.sqrt, Real.exp, Real.pi⟩
          { d with weight := (1 - g.lr) * d.weight + g.lr } (sqDist d px) := hp0
      have hp1b : g.lr * Gaussian.getProbability ⟨Real.sqrt, Real.exp, Real.pi⟩
          { d with weight := (1 - g.lr) * d.weight + g.lr } (sqDist d px) < 1 := hp1
      exact ⟨convex_range _ _ _ hp0b hp1b hd.1 (channel_range px.c0),
        convex_range _ _ _ hp0b hp1b hd.2.1 (channel_range px.c1),
        convex_range _ _ _ hp0b hp1b hd.2.2 (channel_range px.c2)⟩
    · rw [(updateStep_skip g _ px bgI i d s hs2 hm).1]
      exact hd

theorem scanLoop_means (g : GMM ℝ) (px : Vec3b) (bgI : Nat) (h0 : 0 < g.lr)
    (h1 : g.lr < 1) (ds : List (Gaussian ℝ)) :
    ∀ (i : Nat) (s : Scan ℝ), (∀ d ∈ ds, 8 ≤ d.variance ∧ d.meansInRange) →
      ∀ d ∈ (scanLoop g ⟨Real.sqrt, Real.exp, Real.pi⟩ px bgI i ds s).1, d.meansInRange := by
  induction ds with
  | nil => intro i s _ d hd; simp [scanLoop] at hd
  | cons a ds ih =>
    intro i s hv d hd
    simp only [scanLoop, List.mem_cons] at hd
    rcases hd with rfl | hd
    · exact updateStep_means g px bgI i a s h0 h1 (hv a (List.mem_cons_self _ _)).1
        (hv a (List.mem_cons_self _ _)).2
    · exact ih _ _ (fun e he => hv e (List.mem_cons_of_mem _ he)) d hd

/-- One `update` call with the default variance constants keeps every variance at or above
8 and every channel mean in `[0, 255]`. -/
theorem update_means (g : GMM ℝ) (px : Vec3b) (t : ℝ)
    (hlen : g.gDists.length = g.K) (hK : 1 ≤ g.K) (h0 : 0 < g.lr) (h1 : g.lr < 1)
    (hmin : g.minVariance = 8) (hhigh : g.highVariance = 36)
    (hv : ∀ d ∈ g.gDists, 8 ≤ d.variance ∧ d.meansInRange) :
    ∃ g2 b, g.update ⟨Real.sqrt, Real.exp, Real.pi⟩ px t = .ok (g2, b) ∧ g2.K = g.K ∧
      g2.lr = g.lr ∧ g2.minVariance = 8 ∧ g2.highVariance = 36 ∧ g2.gDists.length = g2.K ∧
      ∀ d ∈ g2.gDists, 8 ≤ d.variance ∧ d.meansInRange := by
  obtain ⟨g2, b, hu, b1, b2, b3, b4, b5⟩ :=
    update_variance_ge g ⟨Real.sqrt, Real.exp, Real.pi⟩ px t hlen hK (by rw [hmin]; norm_num)
      (by rw [hmin, hhigh]; norm_num) (by rw [hmin]; exact fun d hd => (hv d hd).1)
  obtain ⟨r, hr, -, -, -, hu2⟩ := update_ok g ⟨Real.sqrt, Real.exp, Real.pi⟩ px t hlen hK
  have hrm : ∀ d ∈ r.1, d.meansInRange := by
    rcases preRenorm_cases g ⟨Real.sqrt, Real.exp, Real.pi⟩ px t hlen hK with
      ⟨-, hp⟩ | ⟨-, -, last, -, hp⟩
    · rw [hp] at hr
      injection hr with hr
      subst hr
      unfold scanOf
      exact scanLoop_means g px _ h0 h1 _ _ _ (fun d hd => hv d (List.mem_of_mem_take hd))
    · rw [hp] at hr
      injection hr with hr
      subst hr
      intro d hd
      rcases List.mem_or_eq_of_mem_set hd with h | h
      · exact (hv d h).2
      · rw [h]
        exact ⟨channel_range px.c0, channel_range px.c1, channel_range px.c2⟩
  have hg2 : g2 = { g with gDists := qsort distCmp (r.1.map
      (renorm ⟨Real.sqrt, Real.exp, Real.pi⟩ r.2.weightSum)) } := by
    rw [hu2] at hu
    injection hu with hu
    injection hu with hu _
    exact hu.symm
  refine ⟨g2, b, hu, b1, by rw [hg2], by rw [b2, hmin], by rw [b3, hhigh], b4, ?_⟩
  intro d hd
  refine ⟨by rw [← hmin]; exact b5 d hd, ?_⟩
  rw [hg2] at hd
  have hd2 := (qsort_perm distCmp _).subset hd
  obtain ⟨e, he, rfl⟩ := List.mem_map.mp hd2
  exact hrm e he

/-- C17 (amended). Means stay in the colour range in exact real arithmetic: with the
default constants (`minVariance = 8`, `highVariance = 36`), `0 < lr < 1`, and samples and
observations with channels in `[0, 255]` (the type `Vec3b`), computing over the reals, every
channel mean of every component lies in `[0, 255]` right after `GMM::init` and after every
run of `GMM::update` calls, and for every component of such a state and every observation
the blend factor `p = lr · getProbability(dist)` that a matched update would use satisfies
`0 < p < 1`, so the mean update is a convex combination. -/
theorem means_in_range (g0 g1 : GMM ℝ) (tape : List Nat) (samples : List Vec3b)
    (hempty : g0.gDists = []) (hK : 1 ≤ g0.K) (hmin : g0.minVariance = 8)
    (hhigh : g0.highVariance = 36)
    (hinit : g0.init ⟨Real.sqrt, Real.exp, Real.pi⟩ tape samples = .ok g1)
    (lr : ℝ) (h0 : 0 < lr) (h1 : lr < 1) (obs : List (Vec3b × ℝ)) :
    (∀ d ∈ g1.gDists, d.meansInRange) ∧
    ∃ g2, GMM.updates ⟨Real.sqrt, Real.exp, Real.pi⟩ { g1 with lr := lr } obs = .ok g2 ∧
      (∀ d ∈ g2.gDists, d.meansInRange) ∧
      ∀ d ∈ g2.gDists, ∀ px : Vec3b,
        0 < lr * Gaussian.getProbability ⟨Real.sqrt, Real.exp, Real.pi⟩ d (sqDist d px) ∧
        lr * Gaussian.getProbability ⟨Real.sqrt, Real.exp, Real.pi⟩ d (sqDist d px) < 1 := by
  obtain ⟨hK1, -, hhv, hmv, hlen, hcomp⟩ :=
    init_components g0 g1 _ tape samples hempty hinit
  have hinitP : ∀ d ∈ g1.gDists, 8 ≤ d.variance ∧ d.meansInRange := by
    intro d hd
    obtain ⟨m, -, rfl⟩ := hcomp d hd
    refine ⟨?_, channel_range m.c0, channel_range m.c1, channel_range m.c2⟩
    rw [← hmin]
    exact initGaussian_variance_ge g0 _ samples m
  refine ⟨fun d hd => (hinitP d hd).2, ?_⟩
  obtain ⟨g2, hg2, hP⟩ := updates_invariant ⟨Real.sqrt, Real.exp, Real.pi⟩
    (fun g => g.gDists.length = g.K ∧ 1 ≤ g.K ∧ g.lr = lr ∧ g.minVariance = 8 ∧
      g.highVariance = 36 ∧ ∀ d ∈ g.gDists, 8 ≤ d.variance ∧ d.meansInRange)
    (by
      rintro g px t ⟨a1, a2, a3, a4, a5, a6⟩
      obtain ⟨g2, b, hu, b1, b2, b3, b4, b5, b6⟩ :=
        update_means g px t a1 a2 (by rw [a3]; exact h0) (by rw [a3]; exact h1) a4 a5 a6
      exact ⟨g2, b, hu, b5, by omega, by rw [b2]; exact a3, b3, b4, b6⟩)
    { g1 with lr := lr }
    ⟨by simpa [hK1] using hlen, by simpa [hK1] using hK, rfl, by rw [← hmin]; exact hmv,
      by rw [← hhigh]; exact hhv, hinitP⟩
    obs
  refine ⟨g2, hg2, fun d hd => (hP.2.2.2.2.2 d hd).2, ?_⟩
  intro d hd px
  exact blend_factor_range lr h0 h1 d (hP.2.2.2.2.2 d hd).1 (sqDist d px) (sqDist_nonneg d px)

/-- Witness for C17 (amended): the default mixture with `K = 2`, run for two frames at the
learning rate of the driver. -/
theorem means_in_range_witness :
    ∃ g1 g2 : GMM ℝ,
      (GMM.new 2 : GMM ℝ).init ⟨Real.sqrt, Real.exp, Real.pi⟩ [1, 1, 0]
          [⟨10, 20, 30⟩, ⟨200, 100, 50⟩, ⟨12, 22, 28⟩] = .ok g1 ∧
      GMM.updates ⟨Real.sqrt, Real.exp, Real.pi⟩ { g1 with lr := 0.003 }
          [(⟨11, 21, 29⟩, 0.75), (⟨250, 250, 250⟩, 0.75)] = .ok g2 ∧
      (∀ d ∈ g1.gDists, d.meansInRange) ∧ (∀ d ∈ g2.gDists, d.meansInRange) := by
  obtain ⟨g1, hinit⟩ := init_returns (GMM.new 2 : GMM ℝ) ⟨Real.sqrt, Real.exp, Real.pi⟩
    [1, 1, 0] [⟨10, 20, 30⟩, ⟨200, 100, 50⟩, ⟨12, 22, 28⟩] rfl (by decide) (by decide)
    (by decide)
  obtain ⟨h1, g2, hg2, h2, -⟩ := means_in_range (GMM.new 2 : GMM ℝ) g1 [1, 1, 0]
    [⟨10, 20, 30⟩, ⟨200, 100, 50⟩, ⟨12, 22, 28⟩] rfl (by decide) (by norm_num [GMM.new])
    (by norm_num [GMM.new]) hinit 0.003 (by norm_num) (by norm_num)
    [(⟨11, 21, 29⟩, 0.75), (⟨250, 250, 250⟩, 0.75)]
  exact ⟨g1, g2, hinit, hg2, h1, h2⟩

/-! ### The matched mean in rounded arithmetic -/

theorem getProbabilityWith_exact (L : Libm α) (d : Gaussian α) (dist : α) :
    getProbabilityWith (Arith.exact L) d.variance (L.exp (-dist / (2 * d.variance)))
      = Gaussian.getProbability L d dist := by
  simp only [getProbabilityWith, Gaussian.getProbability, Arith.exact]
  norm_num

/-- In exact arithmetic the blue mean written by a matched update is the blend of the old
mean and the observed channel with the factor `lr * getProbability(dist)`. -/
theorem matchedEntry_blend (g : GMM α) (L : Libm α) (px : Vec3b) (d : Gaussian α) :
    (matchedEntry g L px d).meanB
      = blendWith (Arith.exact L)
          ((Arith.exact L).mul g.lr
            (getProbabilityWith (Arith.exact L) d.variance
              (L.exp (-(sqDist d px) / (2 * d.variance)))))
          d.meanB (px.c0.val : α) := by
  rw [getProbabilityWith_exact]
  rfl

/-- C17 (counterexample). A one-component mixture built by `GMM::init` from the sample
`(255,255,255)` has mean 255 and variance at the floor 8. With learning rate `0.125` and the
observation `(255,255,255)` the squared distance is 0, the component matches,
`exp(-0 / 16) = 1`, and in `double` arithmetic the blend factor `p` is in `(0, 1)` while the
mean written, `(1 - p) * 255 + p * 255`, is `255.00000000000003 = 255 + 2^-45`, above
255. -/
theorem blend_exceeds_range :
    0 < Arith.binary64.mul 0.125 (getProbabilityWith Arith.binary64 8 1) ∧
    Arith.binary64.mul 0.125 (getProbabilityWith Arith.binary64 8 1) < 1 ∧
    blendWith Arith.binary64
        (Arith.binary64.mul 0.125 (getProbabilityWith Arith.binary64 8 1)) 255 255
      = 255 + 1 / 2 ^ 45 ∧
    255 < blendWith Arith.binary64
        (Arith.binary64.mul 0.125 (getProbabilityWith Arith.binary64 8 1)) 255 255 := by
  decide!

/-! ### The mask loop of the driver -/

/-- The flag returned by `update` on a `K`-component state is the one accumulated by the
main loop; it is 0 or 1. -/
theorem update_flag (g : GMM α) (L : Libm α) (px : Vec3b) (t : α)
    (hlen : g.gDists.length = g.K) (hK : 1 ≤ g.K) :
    ∃ g2 b, g.update L px t = .ok (g2, b) ∧ b = (scanOf g L px t).2.background ∧
      (b = 1 ∨ b = 0) := by
  obtain ⟨r, -, -, hr2, -, hu⟩ := update_ok g L px t hlen hK
  refine ⟨_, _, hu, by rw [hr2], ?_⟩
  rw [hr2]
  unfold scanOf
  exact ((scanLoop_background g L px _ _ 0 _).2 (Or.inl rfl)).symm

theorem pixelStep_processed (L : Libm α) (pix : Nat → Vec3b) (s : MaskLoop α) (gm : GMM α)
    (hget : s.pixelGMM.get? s.pixelCount = some gm)
    (hlen : gm.gDists.length = gm.K) (hK : 1 ≤ gm.K)
    (hmask : s.pixelCount < s.bgMask.length) :
    ∃ s2, pixelStep L (pix s.pixelCount) s = .ok s2 ∧
      Processed L pix s.pixelCount (s.pixelCount + 1) s s2 := by
  obtain ⟨gm2, b, hu, -, hb⟩ := update_flag gm L (pix s.pixelCount) BG_T hlen hK
  have hp : s.pixelCount < s.pixelGMM.length := (List.get?_eq_some.mp hget).1
  have hstep : pixelStep L (pix s.pixelCount) s
      = .ok { pixelGMM := s.pixelGMM.set s.pixelCount gm2,
              bgMask := s.bgMask.set s.pixelCount (if b = 1 then 0 else 255),
              pixelCount := s.pixelCount + 1 } := by
    unfold pixelStep
    rw [(atE_ok_iff _ _ _).mpr hget]
    dsimp only
    rw [hu]
    dsimp only
    rcases hb with hb | hb
    · simp [hb]
    · simp [hb]
  refine ⟨_, hstep, rfl, rfl, by simp, by simp, ?_, ?_⟩
  · intro j hj
    have hne : j ≠ s.pixelCount := by omega
    exact ⟨get?_set_ne _ _ _ _ hne, get?_set_ne _ _ _ _ hne⟩
  · intro k hk1 hk2
    have hk : k = s.pixelCount := by omega
    subst hk
    exact ⟨gm, gm2, b, hget, hu, get?_set_self _ _ _ hp, get?_set_self _ _ _ hmask⟩

theorem Processed_refl (L : Libm α) (pix : Nat → Vec3b) (s : MaskLoop α) :
    Processed L pix s.pixelCount s.pixelCount s s :=
  ⟨rfl, rfl, rfl, rfl, fun _ _ => ⟨rfl, rfl⟩, fun k h1 h2 => absurd h2 (by omega)⟩

theorem Processed_trans (L : Libm α) (pix : Nat → Vec3b) (lo mid hi : Nat)
    (s s1 s2 : MaskLoop α) (h1 : Processed L pix lo mid s s1)
    (h2 : Processed L pix mid hi s1 s2) (hlm : lo ≤ mid) (hmh : mid ≤ hi) :
    Processed L pix lo hi s s2 := by
  obtain ⟨a1, a2, a3, a4, a5, a6⟩ := h1
  obtain ⟨b1, b2, b3, b4, b5, b6⟩ := h2
  refine ⟨a1, b2, by rw [b3, a3], by rw [b4, a4], ?_, ?_⟩
  · intro j hj
    have hA := a5 j (by omega)
    have hB := b5 j (by omega)
    exact ⟨by rw [hB.1, hA.1], by rw [hB.2, hA.2]⟩
  · intro k hk1 hk2
    by_cases hkm : k < mid
    · obtain ⟨gm, gm2, b, c1, c2, c3, c4⟩ := a6 k hk1 hkm
      have hB := b5 k (Or.inl hkm)
      exact ⟨gm, gm2, b, c1, c2, by rw [hB.1, c3], by rw [hB.2, c4]⟩
    · obtain ⟨gm, gm2, b, c1, c2, c3, c4⟩ := b6 k (by omega) hk2
      have hA := a5 k (Or.inr (by omega))
      exact ⟨gm, gm2, b, by rw [← hA.1, c1], c2, c3, c4⟩

theorem colLoop_processed (L : Libm α) (frame : Nat → Nat → Vec3b) (pix : Nat → Vec3b)
    (r : Nat) :
    ∀ (n c : Nat) (s : MaskLoop α),
      (∀ k, s.pixelCount ≤ k → k < s.pixelCount + n →
        ∃ gm, s.pixelGMM.get? k = some gm ∧ gm.gDists.length = gm.K ∧ 1 ≤ gm.K) →
      s.pixelCount + n ≤ s.bgMask.length →
      (∀ k, k < n → pix (s.pixelCount + k) = frame r (c + k)) →
      ∃ s2, colLoop L frame r c n s = .ok s2 ∧
        Processed L pix s.pixelCount (s.pixelCount + n) s s2 := by
  intro n
  induction n with
  | zero =>
    intro c s _ _ _
    exact ⟨s, rfl, Processed_refl L pix s⟩
  | succ n ih =>
    intro c s hwf hmask hpix
    obtain ⟨gm, hget, hlen, hK⟩ := hwf s.pixelCount (le_refl _) (by omega)
    obtain ⟨s1, hs1, hP1⟩ := pixelStep_processed L pix s gm hget hlen hK (by omega)
    have hpix0 : pix s.pixelCount = frame r c := by simpa using hpix 0 (by omega)
    rw [hpix0] at hs1
    have hc1 : s1.pixelCount = s.pixelCount + 1 := hP1.2.1
    obtain ⟨s2, hs2, hP2⟩ := ih (c + 1) s1
      (by
        intro k hk1 hk2
        rw [(hP1.2.2.2.2.1 k (Or.inr (by omega))).1]
        exact hwf k (by omega) (by omega))
      (by rw [hP1.2.2.2.1]; omega)
      (by
        intro k hk
        rw [hc1]
        have := hpix (k + 1) (by omega)
        rw [show s.pixelCount + 1 + k = s.pixelCount + (k + 1) by omega,
          show c + 1 + k = c + (k + 1) by omega]
        exact this)
    refine ⟨s2, ?_, ?_⟩
    · simp only [colLoop]
      rw [hs1]
      exact hs2
    · rw [hc1] at hP2
      have := Processed_trans L pix s.pixelCount (s.pixelCount + 1) (s.pixelCount + 1 + n)
        s s1 s2 hP1 hP2 (by omega) (by omega)
      rw [show s.pixelCount + (n + 1) = s.pixelCount + 1 + n by omega]
      exact this

theorem flat_index (cols r c : Nat) (hc : c < cols) :
    (r * cols + c) / cols = r ∧ (r * cols + c) % cols = c := by
  have hpos : 0 < cols := by omega
  constructor
  · rw [Nat.mul_comm, Nat.mul_add_div hpos, Nat.div_eq_of_lt hc, Nat.add_zero]
  · rw [Nat.mul_comm, Nat.mul_add_mod, Nat.mod_eq_of_lt hc]

theorem rowLoop_processed (L : Libm α) (frame : Nat → Nat → Vec3b) (cols : Nat) :
    ∀ (n r : Nat) (s : MaskLoop α), s.pixelCount = r * cols →
      (∀ k, r * cols ≤ k → k < (r + n) * cols →
        ∃ gm, s.pixelGMM.get? k = some gm ∧ gm.gDists.length = gm.K ∧ 1 ≤ gm.K) →
      (r + n) * cols ≤ s.bgMask.length →
      ∃ s2, rowLoop L frame cols r n s = .ok s2 ∧
        Processed L (fun k => frame (k / cols) (k % cols)) (r * cols) ((r + n) * cols) s s2 := by
  intro n
  induction n with
  | zero =>
    intro r s hc _ _
    refine ⟨s, rfl, ?_⟩
    have := Processed_refl L (fun k => frame (k / cols) (k % cols)) s
    rw [hc] at this
    simpa using this
  | succ n ih =>
    intro r s hc hwf hmask
    have hexp : (r + (n + 1)) * cols = r * cols + cols + n * cols := by ring
    have hexp2 : (r + 1 + n) * cols = r * cols + cols + n * cols := by ring
    have hexp3 : (r + 1) * cols = r * cols + cols := by ring
    obtain ⟨s1, hs1, hP1⟩ := colLoop_processed L frame (fun k => frame (k / cols) (k % cols))
      r cols 0 s
      (by
        intro k hk1 hk2
        rw [hc] at hk1 hk2
        exact hwf k hk1 (by rw [hexp]; omega))
      (by rw [hc]; rw [hexp] at hmask; omega)
      (by
        intro k hk
        rw [hc]
        dsimp only
        rw [(flat_index cols r k hk).1, (flat_index cols r k hk).2, Nat.zero_add])
    rw [hc] at hP1
    have hc1 : s1.pixelCount = (r + 1) * cols := by rw [hP1.2.1, hexp3]
    obtain ⟨s2, hs2, hP2⟩ := ih (r + 1) s1 hc1
      (by
        intro k hk1 hk2
        rw [(hP1.2.2.2.2.1 k (Or.inr (by rw [hexp3] at hk1; exact hk1))).1]
        exact hwf k (by rw [hexp3] at hk1; omega) (by rw [hexp]; rw [hexp2] at hk2; exact hk2))
      (by rw [hP1.2.2.2.1, hexp2]; rw [hexp] at hmask; exact hmask)
    refine ⟨s2, ?_, ?_⟩
    · simp only [rowLoop]
      rw [hs1]
      exact hs2
    · rw [hexp3] at hP2
      rw [hexp2] at hP2
      rw [hexp]
      exact Processed_trans L _ (r * cols) (r * cols + cols) (r * cols + cols + n * cols)
        s s1 s2 hP1 hP2 (by omega) (by omega)

theorem pixelStep_frame (L : Libm α) (px : Vec3b) (s s2 : MaskLoop α)
    (h : pixelStep L px s = .ok s2) (j : Nat) (hj : j ≠ s.pixelCount) :
    s2.pixelGMM.get? j = s.pixelGMM.get? j ∧ s2.bgMask.get? j = s.bgMask.get? j := by
  unfold pixelStep at h
  split at h
  · cases h
  · split at h
    · cases h
    · injection h with h
      subst h
      dsimp only
      refine ⟨get?_set_ne _ _ _ _ hj, ?_⟩
      split
      · exact get?_set_ne _ _ _ _ hj
      · split
        · exact get?_set_ne _ _ _ _ hj
        · rfl

/-- C12. Mask polarity and addressing: for a frame of `rows × cols` pixels and one
`K`-component mixture (`K ≥ 1`) per pixel, the mask loop of the driver returns, and for
every pixel at row `r`, column `c` the mixture and the mask byte at index `r*cols + c`
come from `update` on the old mixture of that index with the observation `frame(r, c)`
only: the byte is 0, and the composite pixel is zero, when `update` returns 1
(background), and the byte is 255, and the composite pixel is the frame pixel, when it
returns 0 (foreground). A single step of the loop leaves every mixture and mask byte at
another index as it was. -/
theorem mask_addressing (L : Libm α) (frame : Nat → Nat → Vec3b) (rows cols : Nat)
    (pixelGMM : List (GMM α)) (hsize : pixelGMM.length = rows * cols)
    (hwf : ∀ gm ∈ pixelGMM, gm.gDists.length = gm.K ∧ 1 ≤ gm.K) :
    (∃ s2, maskFrame L frame rows cols pixelGMM = .ok s2 ∧
      s2.pixelGMM.length = rows * cols ∧ s2.bgMask.length = rows * cols ∧
      ∀ r c, r < rows → c < cols →
        ∃ gm gm2 b, pixelGMM.get? (r * cols + c) = some gm ∧
          gm.update L (frame r c) BG_T = .ok (gm2, b) ∧ (b = 1 ∨ b = 0) ∧
          s2.pixelGMM.get? (r * cols + c) = some gm2 ∧
          s2.bgMask.get? (r * cols + c) = some (if b = 1 then 0 else 255) ∧
          composite (frame r c) (if b = 1 then 0 else 255)
            = (if b = 1 then ⟨0, 0, 0⟩ else frame r c)) ∧
    ∀ (px : Vec3b) (s s2 : MaskLoop α), pixelStep L px s = .ok s2 →
      ∀ j, j ≠ s.pixelCount →
        s2.pixelGMM.get? j = s.pixelGMM.get? j ∧ s2.bgMask.get? j = s.bgMask.get? j := by
  refine ⟨?_, fun px s s2 h j hj => pixelStep_frame L px s s2 h j hj⟩
  obtain ⟨s2, hs2, hP⟩ := rowLoop_processed L frame cols rows 0
    { pixelGMM := pixelGMM, bgMask := List.replicate (rows * cols) 0, pixelCount := 0 }
    (by simp)
    (by
      intro k _ hk2
      have hk : k < pixelGMM.length := by
        rw [hsize]
        simpa using hk2
      have hget : pixelGMM.get? k = some (pixelGMM.get ⟨k, hk⟩) := List.get?_eq_get hk
      exact ⟨_, hget, hwf _ (List.get?_mem hget)⟩)
    (by simp)
  obtain ⟨-, -, a3, a4, -, a6⟩ := hP
  refine ⟨s2, hs2, by rw [a3]; exact hsize, by rw [a4]; simp, ?_⟩
  intro r c hr hc
  have hlt : r * cols + c < (0 + rows) * cols := by
    rw [Nat.zero_add]
    calc r * cols + c < r * cols + cols := by omega
      _ = (r + 1) * cols := by ring
      _ ≤ rows * cols := Nat.mul_le_mul_right cols hr
  obtain ⟨gm, gm2, b, c1, c2, c3, c4⟩ := a6 (r * cols + c) (by omega) hlt
  dsimp only at c2
  rw [(flat_index cols r c hc).1, (flat_index cols r c hc).2] at c2
  have hgmmem := hwf gm (List.get?_mem c1)
  obtain ⟨g3, b3, hu3, -, hb3⟩ := update_flag gm L (frame r c) BG_T hgmmem.1 hgmmem.2
  rw [c2] at hu3
  injection hu3 with hu3
  injection hu3 with _ hu3
  subst hu3
  refine ⟨gm, gm2, b, c1, c2, hb3, c3, c4, ?_⟩
  unfold composite
  rcases hb3 with hb | hb
  · simp [hb]
  · simp [hb]

/-- Witness for C12: a `1 × 2` frame with one single-component mixture per pixel; pixel 0
is near its mixture's mean, pixel 1 is not. -/
theorem mask_addressing_witness :
    ∃ s2, maskFrame ⟨Real.sqrt, Real.exp, Real.pi⟩
        (fun _ c => if c = 0 then ⟨101, 100, 100⟩ else ⟨250, 250, 250⟩) 1 2
        [({ K := 1, gDists := [⟨100, 100, 100, 10, 1, 0⟩], lr := 0.003,
            highVariance := 36, minVariance := 8 } : GMM ℝ),
         { K := 1, gDists := [⟨100, 100, 100, 10, 1, 0⟩], lr := 0.003,
           highVariance := 36, minVariance := 8 }] = .ok s2 ∧
      s2.pixelGMM.length = 2 ∧ s2.bgMask.length = 2 ∧
      s2.bgMask.get? 0 = some 0 ∧ s2.bgMask.get? 1 = some 255 := by
  obtain ⟨⟨s2, h, h1, h2, hpx⟩, -⟩ := mask_addressing ⟨Real.sqrt, Real.exp, Real.pi⟩
    (fun _ c => if c = 0 then ⟨101, 100, 100⟩ else ⟨250, 250, 250⟩) 1 2
    [({ K := 1, gDists := [⟨100, 100, 100, 10, 1, 0⟩], lr := 0.003,
        highVariance := 36, minVariance := 8 } : GMM ℝ),
     { K := 1, gDists := [⟨100, 100, 100, 10, 1, 0⟩], lr := 0.003,
       highVariance := 36, minVariance := 8 }]
    rfl
    (by
      intro gm hgm
      simp only [List.mem_cons, List.mem_singleton, List.not_mem_nil, or_false, or_self] at hgm
      subst hgm
      exact ⟨rfl, le_refl _⟩)
  obtain ⟨gm0, gm20, b0, hg0, hu0, -, -, hm0, -⟩ := hpx 0 0 (by decide) (by decide)
  obtain ⟨gm1, gm21, b1, hg1, hu1, -, -, hm1, -⟩ := hpx 0 1 (by decide) (by decide)
  simp only [Nat.zero_mul, Nat.zero_add, List.get?_cons_zero, List.get?_cons_succ,
    Option.some.injEq] at hg0 hg1
  subst hg0
  subst hg1
  obtain ⟨g3, b3, hu3, hb3, -⟩ := update_flag
    ({ K := 1, gDists := [⟨100, 100, 100, 10, 1, 0⟩], lr := 0.003,
       highVariance := 36, minVariance := 8 } : GMM ℝ)
    ⟨Real.sqrt, Real.exp, Real.pi⟩ ⟨101, 100, 100⟩ BG_T rfl (by decide)
  obtain ⟨g4, b4, hu4, hb4, -⟩ := update_flag
    ({ K := 1, gDists := [⟨100, 100, 100, 10, 1, 0⟩], lr := 0.003,
       highVariance := 36, minVariance := 8 } : GMM ℝ)
    ⟨Real.sqrt, Real.exp, Real.pi⟩ ⟨250, 250, 250⟩ BG_T rfl (by decide)
  have e3 : b3 = 1 := by
    rw [hb3]
    norm_num [scanOf, scanLoop, updateStep, bgGaussianI, sqDist, Fin.coe_ofNat_eq_mod, BG_T]
  have e4 : b4 = 0 := by
    rw [hb4]
    norm_num [scanOf, scanLoop, updateStep, bgGaussianI, sqDist, Fin.coe_ofNat_eq_mod, BG_T]
  simp only [if_true] at hu0
  simp only [show ¬ (1 = 0) by decide, if_false] at hu1
  rw [hu0] at hu3
  rw [hu1] at hu4
  injection hu3 with hu3
  injection hu3 with _ hu3
  injection hu4 with hu4
  injection hu4 with _ hu4
  rw [hu3, e3] at hm0
  rw [hu4, e4] at hm1
  exact ⟨s2, h, h1, h2, by simpa using hm0, by simpa using hm1⟩

/-! ### Order of components with equal sort key -/

theorem updateStep_gDists (g : GMM α) (L : Libm α) (px : Vec3b) (bgI i : Nat)
    (d : Gaussian α) (s : Scan α) (l : List (Gaussian α)) :
    updateStep { g with gDists := l } L px bgI i d s = updateStep g L px bgI i d s := rfl

theorem scanLoop_gDists (g : GMM α) (L : Libm α) (px : Vec3b) (bgI : Nat)
    (l ds : List (Gaussian α)) :
    ∀ (i : Nat) (s : Scan α),
      scanLoop { g with gDists := l } L px bgI i ds s = scanLoop g L px bgI i ds s := by
  induction ds with
  | nil => intro i s; rfl
  | cons d ds ih =>
    intro i s
    simp only [scanLoop, updateStep_gDists, ih]

theorem bgGaussianI_weights (t : α) (l1 : List (Gaussian α)) :
    ∀ (l2 : List (Gaussian α)) (s : α) (n : Nat),
      l1.map Gaussian.weight = l2.map Gaussian.weight →
      bgGaussianI t l1 s n = bgGaussianI t l2 s n := by
  induction l1 with
  | nil =>
    intro l2 s n h
    cases l2 with
    | nil => rfl
    | cons b l2 => simp at h
  | cons a l1 ih =>
    intro l2 s n h
    cases l2 with
    | nil => simp at h
    | cons b l2 =>
      simp only [List.map_cons, List.cons.injEq] at h
      simp only [bgGaussianI]
      rw [h.1, ih l2 _ _ h.2]

theorem scanLoop_append (g : GMM α) (L : Libm α) (px : Vec3b) (bgI : Nat)
    (a b : List (Gaussian α)) :
    ∀ (i : Nat) (s : Scan α),
      scanLoop g L px bgI i (a ++ b) s
        = ((scanLoop g L px bgI i a s).1
              ++ (scanLoop g L px bgI (i + a.length) b (scanLoop g L px bgI i a s).2).1,
           (scanLoop g L px bgI (i + a.length) b (scanLoop g L px bgI i a s).2).2) := by
  induction a with
  | nil => intro i s; simp [scanLoop]
  | cons d a ih =>
    intro i s
    have h1 : i + 1 + a.length = i + (a.length + 1) := by omega
    have h2 := ih (i + 1) (updateStep g L px bgI i d s).2
    rw [h1] at h2
    rw [List.cons_append]
    simp only [scanLoop, List.length_cons, List.cons_append]
    rw [h2]

/-- An entry outside `7.5 ×` its variance of the observation is not matched and does not
set the flag: the main loop leaves it as it is before the first match and decays its
weight after it. -/
theorem updateStep_far (g : GMM α) (L : Libm α) (px : Vec3b) (bgI i : Nat)
    (d : Gaussian α) (s : Scan α) (hfar : ¬ sqDist d px < 7.5 * d.variance) :
    updateStep g L px bgI i d s
      = (if s.foundMatch then decayed g d else d,
         { foundMatch := s.foundMatch,
           weightSum := s.weightSum + (if s.foundMatch then decayed g d else d).weight,
           background := s.background }) := by
  have hm : ¬ sqDist d px < 2.5 * d.variance := fun h => hfar (match_imp_wide d px h)
  have hc : ¬ (sqDist d px < 7.5 * d.variance ∧ i < bgI) := fun h => hfar h.1
  unfold updateStep decayed
  dsimp only
  cases hs : s.foundMatch with
  | true => simp [hc]
  | false => simp [hm, hc]

theorem scanLoop_far (g : GMM α) (L : Libm α) (px : Vec3b) (bgI : Nat)
    (ds : List (Gaussian α)) (hfar : ∀ d ∈ ds, ¬ sqDist d px < 7.5 * d.variance) :
    ∀ (i : Nat) (s : Scan α),
      scanLoop g L px bgI i ds s
        = (if s.foundMatch then ds.map (decayed g) else ds,
           { foundMatch := s.foundMatch,
             weightSum := s.weightSum
               + weightSumOf (if s.foundMatch then ds.map (decayed g) else ds),
             background := s.background }) := by
  induction ds with
  | nil => intro i s; simp [scanLoop, weightSumOf]
  | cons d ds ih =>
    intro i s
    simp only [scanLoop]
    rw [updateStep_far g L px bgI i d s (hfar d (List.mem_cons_self _ _)),
      ih (fun e he => hfar e (List.mem_cons_of_mem _ he))]
    cases hs : s.foundMatch <;> simp [weightSumOf, add_assoc]

/-- The main loop on two lists that differ only in the order of a run of entries, all of
the same weight and all outside `7.5 ×` their variance of the observation: the loop-carried
variables at the exit are the same, and the entries written are the same outside the run
and one fixed function of the old entries inside it. -/
theorem scanOf_reorder (g : GMM α) (L : Libm α) (px : Vec3b) (t : α)
    (pre blk1 blk2 post : List (Gaussian α)) (w : α) (hperm : blk1.Perm blk2)
    (hlen : (pre ++ blk1 ++ post).length = g.K)
    (hw : ∀ d ∈ blk1, d.weight = w)
    (hfar : ∀ d ∈ blk1, ¬ sqDist d px < 7.5 * d.variance) :
    ∃ (outPre outPost : List (Gaussian α)) (f : Gaussian α → Gaussian α) (s : Scan α),
      scanOf { g with gDists := pre ++ blk1 ++ post } L px t
        = (outPre ++ blk1.map f ++ outPost, s) ∧
      scanOf { g with gDists := pre ++ blk2 ++ post } L px t
        = (outPre ++ blk2.map f ++ outPost, s) := by
  have hl2 : (pre ++ blk2 ++ post).length = g.K := by
    rw [← hlen]
    simp [hperm.length_eq]
  have hb : blk1.map Gaussian.weight = blk2.map Gaussian.weight := by
    have h1 : blk1.map Gaussian.weight = List.replicate blk1.length w :=
      List.eq_replicate_iff.mpr ⟨by simp, by
        intro b hb
        obtain ⟨d, hd, rfl⟩ := List.mem_map.mp hb
        exact hw d hd⟩
    have h2 : blk2.map Gaussian.weight = List.replicate blk1.length w :=
      List.eq_replicate_iff.mpr ⟨by simp [hperm.length_eq], by
        intro b hb
        obtain ⟨d, hd, rfl⟩ := List.mem_map.mp hb
        exact hw d (hperm.symm.subset hd)⟩
    rw [h1, h2]
  have hwm : (pre ++ blk1 ++ post).map Gaussian.weight
      = (pre ++ blk2 ++ post).map Gaussian.weight := by
    simp only [List.map_append, hb]
  have hfar2 : ∀ d ∈ blk2, ¬ sqDist d px < 7.5 * d.variance :=
    fun d hd => hfar d (hperm.symm.subset hd)
  have e1 : scanOf { g with gDists := pre ++ blk1 ++ post } L px t
      = scanLoop g L px (bgGaussianI t (pre ++ blk2 ++ post) 0.0 0) 0 (pre ++ blk1 ++ post)
          { foundMatch := false, weightSum := 0.0, background := 0 } := by
    unfold scanOf
    dsimp only
    rw [List.take_of_length_le (by omega), scanLoop_gDists,
      bgGaussianI_weights t _ _ _ _ hwm]
  have e2 : scanOf { g with gDists := pre ++ blk2 ++ post } L px t
      = scanLoop g L px (bgGaussianI t (pre ++ blk2 ++ post) 0.0 0) 0 (pre ++ blk2 ++ post)
          { foundMatch := false, weightSum := 0.0, background := 0 } := by
    unfold scanOf
    dsimp only
    rw [List.take_of_length_le (by omega), scanLoop_gDists]
  rw [e1, e2, scanLoop_append g L px _ (pre ++ blk1) post, scanLoop_append g L px _ pre blk1,
    scanLoop_append g L px _ (pre ++ blk2) post, scanLoop_append g L px _ pre blk2,
    scanLoop_far g L px _ blk1 hfar, scanLoop_far g L px _ blk2 hfar2]
  dsimp only
  have hlb : (pre ++ blk1).length = (pre ++ blk2).length := by simp [hperm.length_eq]
  rw [hlb]
  cases hs : (scanLoop g L px (bgGaussianI t (pre ++ blk2 ++ post) 0.0 0) 0 pre
      { foundMatch := false, weightSum := 0.0, background := 0 }).2.foundMatch with
  | true =>
    simp only [if_true]
    rw [weightSumOf_perm (hperm.map (decayed g))]
    exact ⟨_, _, decayed g, _, rfl, rfl⟩
  | false =>
    simp only [Bool.false_eq_true, if_false]
    rw [weightSumOf_perm hperm]
    have key : ∀ (a c : List (Gaussian α)) (s : Scan α),
        ∃ (outPre outPost : List (Gaussian α)) (f : Gaussian α → Gaussian α) (s2 : Scan α),
          (a ++ blk1 ++ c, s) = (outPre ++ blk1.map f ++ outPost, s2) ∧
          (a ++ blk2 ++ c, s) = (outPre ++ blk2.map f ++ outPost, s2) :=
      fun a c s => ⟨a, c, id, s, by rw [List.map_id], by rw [List.map_id]⟩
    exact key _ _ _

/-- C15 (amended). Two `K`-component states that differ only in the order of a run of
consecutive components (in a sorted state, components with equal sort key are such a
run): if the components of the run have the same weight, none of them is within
`7.5 ×` its variance of the observation, and the run does not reach the last slot or a
component before the run matches, then `GMM::update` with the same observation and
`bgThresh` returns the same flag and the same components up to their order. -/
theorem tie_order_unobserved (g : GMM α) (L : Libm α) (px : Vec3b) (t : α)
    (pre blk1 blk2 post : List (Gaussian α)) (w : α) (hperm : blk1.Perm blk2)
    (hlen : (pre ++ blk1 ++ post).length = g.K)
    (hw : ∀ d ∈ blk1, d.weight = w)
    (hfar : ∀ d ∈ blk1, ¬ sqDist d px < 7.5 * d.variance)
    (hlast : post ≠ [] ∨ ∃ d ∈ pre, sqDist d px < 2.5 * d.variance) :
    ∃ (l1 l2 : List (Gaussian α)) (b : Int),
      GMM.update { g with gDists := pre ++ blk1 ++ post } L px t
        = .ok ({ g with gDists := l1 }, b) ∧
      GMM.update { g with gDists := pre ++ blk2 ++ post } L px t
        = .ok ({ g with gDists := l2 }, b) ∧
      l1.Perm l2 ∧ (b = 1 ∨ b = 0) := by
  have hl2 : (pre ++ blk2 ++ post).length = g.K := by
    rw [← hlen]
    simp [hperm.length_eq]
  have hK : 1 ≤ g.K := by
    rw [← hlen]
    rcases hlast with h | ⟨d, hd, -⟩
    · have := List.length_pos.mpr h
      simp only [List.length_append]
      omega
    · have := List.length_pos.mpr (List.ne_nil_of_mem hd)
      simp only [List.length_append]
      omega
  obtain ⟨outPre, outPost, f, s, h1, h2⟩ :=
    scanOf_reorder g L px t pre blk1 blk2 post w hperm hlen hw hfar
  have hd1 : List.drop g.K (pre ++ blk1 ++ post) = [] := List.drop_of_length_le (by omega)
  have hd2 : List.drop g.K (pre ++ blk2 ++ post) = [] := List.drop_of_length_le (by omega)
  have hflag : s.background = 1 ∨ s.background = 0 := by
    obtain ⟨g2, b, -, hb, hb01⟩ :=
      update_flag { g with gDists := pre ++ blk1 ++ post } L px t hlen hK
    rw [h1] at hb
    rw [← hb]
    exact hb01
  rcases preRenorm_cases { g with gDists := pre ++ blk1 ++ post } L px t hlen hK with
    ⟨hf1, hp1⟩ | ⟨hf1, -, last1, hl1, hp1⟩
  · rcases preRenorm_cases { g with gDists := pre ++ blk2 ++ post } L px t hl2 hK with
      ⟨-, hp2⟩ | ⟨hf2, -⟩
    · refine ⟨qsort distCmp ((outPre ++ blk1.map f ++ outPost).map (renorm L s.weightSum)),
        qsort distCmp ((outPre ++ blk2.map f ++ outPost).map (renorm L s.weightSum)),
        s.background, ?_, ?_, ?_, hflag⟩
      · unfold GMM.update
        rw [hp1, h1]
        dsimp only
        rw [hd1, List.append_nil]
      · unfold GMM.update
        rw [hp2, h2]
        dsimp only
        rw [hd2, List.append_nil]
      · refine (qsort_perm _ _).trans (List.Perm.trans ?_ (qsort_perm _ _).symm)
        exact (((hperm.map f).append_left outPre).append_right outPost).map _
    · rw [h1] at hf1
      rw [h2] at hf2
      rw [hf1] at hf2
      cases hf2
  · rcases preRenorm_cases { g with gDists := pre ++ blk2 ++ post } L px t hl2 hK with
      ⟨hf2, -⟩ | ⟨-, -, last2, hl2g, hp2⟩
    · rw [h1] at hf1
      rw [h2] at hf2
      rw [hf1] at hf2
      cases hf2
    · have hpost : post ≠ [] := by
        rcases hlast with h | ⟨d, hd, hm⟩
        · exact h
        · exfalso
          have hf := hf1
          unfold scanOf at hf
          dsimp only at hf
          rw [List.take_of_length_le (by omega)] at hf
          exact (scanLoop_noMatch _ L px _ _ _ _ hf).2.2 d (by simp [hd]) hm
      obtain ⟨ini, z, rfl⟩ : ∃ ini z, post = ini ++ [z] :=
        ⟨post.dropLast, post.getLast hpost, (List.dropLast_append_getLast hpost).symm⟩
      · have hz1 : last1 = z := by
          have hidx : g.K - 1 = (pre ++ blk1 ++ ini).length := by
            rw [← hlen]
            simp only [List.length_append, List.length_singleton]
            omega
          dsimp only at hl1
          rw [hidx, ← List.append_assoc (pre ++ blk1) ini [z]] at hl1
          simp only [List.get?_eq_getElem?, List.getElem?_concat_length, Option.some.injEq] at hl1
          exact hl1.symm
        have hz2 : last2 = z := by
          have hidx : g.K - 1 = (pre ++ blk2 ++ ini).length := by
            rw [← hl2]
            simp only [List.length_append, List.length_singleton]
            omega
          dsimp only at hl2g
          rw [hidx, ← List.append_assoc (pre ++ blk2) ini [z]] at hl2g
          simp only [List.get?_eq_getElem?, List.getElem?_concat_length, Option.some.injEq] at hl2g
          exact hl2g.symm
        have hs1 : (pre ++ blk1 ++ (ini ++ [z])).set (g.K - 1) (replacement g L px z)
            = pre ++ blk1 ++ ini ++ [replacement g L px z] := by
          rw [← hlen, set_last _ _ (by simp), ← List.append_assoc (pre ++ blk1) ini [z],
            List.dropLast_concat]
        have hs2 : (pre ++ blk2 ++ (ini ++ [z])).set (g.K - 1) (replacement g L px z)
            = pre ++ blk2 ++ ini ++ [replacement g L px z] := by
          rw [← hl2, set_last _ _ (by simp), ← List.append_assoc (pre ++ blk2) ini [z],
            List.dropLast_concat]
        rw [hz1] at hp1
        rw [hz2] at hp2
        refine ⟨qsort distCmp
            ((pre ++ blk1 ++ ini ++ [replacement g L px z]).map (renorm L s.weightSum)),
          qsort distCmp
            ((pre ++ blk2 ++ ini ++ [replacement g L px z]).map (renorm L s.weightSum)),
          s.background, ?_, ?_, ?_, hflag⟩
        · unfold GMM.update
          rw [hp1, h1]
          dsimp only
          rw [show replacement { g with gDists := pre ++ blk1 ++ (ini ++ [z]) } L px z
              = replacement g L px z from rfl, hs1, hd1, List.append_nil]
        · unfold GMM.update
          rw [hp2, h2]
          dsimp only
          rw [show replacement { g with gDists := pre ++ blk2 ++ (ini ++ [z]) } L px z
              = replacement g L px z from rfl, hs2, hd2, List.append_nil]
        · refine (qsort_perm _ _).trans (List.Perm.trans ?_ (qsort_perm _ _).symm)
          exact ((((hperm.append_left pre).append_right ini).append_right _)).map _

/-- Witness for C15 (amended): the four components of the counterexample, all of weight
1/4 and variance 8 (equal sort keys), with the last two exchanged; the observation
`(40,40,40)` matches the first component and is far from the two exchanged ones. -/
theorem tie_order_unobserved_witness :
    ∃ (l1 l2 : List (Gaussian ℝ)) (b : Int),
      GMM.update
        ({ K := 4,
           gDists := [⟨40, 40, 40, 8, 0.25, 0⟩, ⟨60, 60, 60, 8, 0.25, 0⟩,
                      ⟨110, 110, 110, 8, 0.25, 0⟩, ⟨200, 200, 200, 8, 0.25, 0⟩],
           lr := 0.003, highVariance := 36, minVariance := 8 } : GMM ℝ)
        ⟨Real.sqrt, Real.exp, Real.pi⟩ ⟨40, 40, 40⟩ 0.75
        = .ok ({ K := 4, gDists := l1, lr := 0.003, highVariance := 36, minVariance := 8 }, b) ∧
      GMM.update
        ({ K := 4,
           gDists := [⟨40, 40, 40, 8, 0.25, 0⟩, ⟨60, 60, 60, 8, 0.25, 0⟩,
                      ⟨200, 200, 200, 8, 0.25, 0⟩, ⟨110, 110, 110, 8, 0.25, 0⟩],
           lr := 0.003, highVariance := 36, minVariance := 8 } : GMM ℝ)
        ⟨Real.sqrt, Real.exp, Real.pi⟩ ⟨40, 40, 40⟩ 0.75
        = .ok ({ K := 4, gDists := l2, lr := 0.003, highVariance := 36, minVariance := 8 }, b) ∧
      l1.Perm l2 ∧ (b = 1 ∨ b = 0) :=
  tie_order_unobserved
    ({ K := 4, gDists := [], lr := 0.003, highVariance := 36, minVariance := 8 } : GMM ℝ)
    ⟨Real.sqrt, Real.exp, Real.pi⟩ ⟨40, 40, 40⟩ 0.75
    [⟨40, 40, 40, 8, 0.25, 0⟩, ⟨60, 60, 60, 8, 0.25, 0⟩]
    [⟨110, 110, 110, 8, 0.25, 0⟩, ⟨200, 200, 200, 8, 0.25, 0⟩]
    [⟨200, 200, 200, 8, 0.25, 0⟩, ⟨110, 110, 110, 8, 0.25, 0⟩] [] 0.25
    (List.Perm.swap _ _ _) rfl
    (by
      intro d hd
      simp only [List.mem_cons, List.mem_singleton, List.not_mem_nil, or_false] at hd
      rcases hd with rfl | rfl <;> rfl)
    (by
      intro d hd
      simp only [List.mem_cons, List.mem_singleton, List.not_mem_nil, or_false] at hd
      rcases hd with rfl | rfl <;> norm_num [sqDist, Fin.coe_ofNat_eq_mod])
    (Or.inr ⟨⟨40, 40, 40, 8, 0.25, 0⟩, by simp, by norm_num [sqDist, Fin.coe_ofNat_eq_mod]⟩)

/-- C15 (counterexample). Four components of weight 1/4 and variance 8 (all sort keys
equal) with means 40, 60, 110, 200 (grey), `bgThresh = 0.75`, so that the background
prefix is the first three slots; the observation is `(200,200,200)`. With the component of
mean 200 in the last slot the flag is 0; with the last two components exchanged the flag
is 1. Both lists are sorted and hold the same components. -/
theorem tie_order_observable :
    [(⟨40, 40, 40, 8, 0.25, 0⟩ : Gaussian ℝ), ⟨60, 60, 60, 8, 0.25, 0⟩,
        ⟨110, 110, 110, 8, 0.25, 0⟩, ⟨200, 200, 200, 8, 0.25, 0⟩].Perm
      [⟨40, 40, 40, 8, 0.25, 0⟩, ⟨60, 60, 60, 8, 0.25, 0⟩,
        ⟨200, 200, 200, 8, 0.25, 0⟩, ⟨110, 110, 110, 8, 0.25, 0⟩] ∧
    [(⟨40, 40, 40, 8, 0.25, 0⟩ : Gaussian ℝ), ⟨60, 60, 60, 8, 0.25, 0⟩,
        ⟨110, 110, 110, 8, 0.25, 0⟩, ⟨200, 200, 200, 8, 0.25, 0⟩].Pairwise
      (fun a b => b.ratio ⟨Real.sqrt, Real.exp, Real.pi⟩
        = a.ratio ⟨Real.sqrt, Real.exp, Real.pi⟩) ∧
    [(⟨40, 40, 40, 8, 0.25, 0⟩ : Gaussian ℝ), ⟨60, 60, 60, 8, 0.25, 0⟩,
        ⟨200, 200, 200, 8, 0.25, 0⟩, ⟨110, 110, 110, 8, 0.25, 0⟩].Pairwise
      (fun a b => b.ratio ⟨Real.sqrt, Real.exp, Real.pi⟩
        = a.ratio ⟨Real.sqrt, Real.exp, Real.pi⟩) ∧
    ∃ g2 g3,
      GMM.update
        ({ K := 4,
           gDists := [⟨40, 40, 40, 8, 0.25, 0⟩, ⟨60, 60, 60, 8, 0.25, 0⟩,
                      ⟨110, 110, 110, 8, 0.25, 0⟩, ⟨200, 200, 200, 8, 0.25, 0⟩],
           lr := 0.003, highVariance := 36, minVariance := 8 } : GMM ℝ)
        ⟨Real.sqrt, Real.exp, Real.pi⟩ ⟨200, 200, 200⟩ 0.75 = .ok (g2, 0) ∧
      GMM.update
        ({ K := 4,
           gDists := [⟨40, 40, 40, 8, 0.25, 0⟩, ⟨60, 60, 60, 8, 0.25, 0⟩,
                      ⟨200, 200, 200, 8, 0.25, 0⟩, ⟨110, 110, 110, 8, 0.25, 0⟩],
           lr := 0.003, highVariance := 36, minVariance := 8 } : GMM ℝ)
        ⟨Real.sqrt, Real.exp, Real.pi⟩ ⟨200, 200, 200⟩ 0.75 = .ok (g3, 1) := by
  refine ⟨List.Perm.cons _ (List.Perm.cons _ (List.Perm.swap _ _ _)),
    by simp [Gaussian.ratio], by simp [Gaussian.ratio], ?_⟩
  obtain ⟨g2, b2, hu2, hb2, -⟩ := update_flag
    ({ K := 4,
       gDists := [⟨40, 40, 40, 8, 0.25, 0⟩, ⟨60, 60, 60, 8, 0.25, 0⟩,
                  ⟨110, 110, 110, 8, 0.25, 0⟩, ⟨200, 200, 200, 8, 0.25, 0⟩],
       lr := 0.003, highVariance := 36, minVariance := 8 } : GMM ℝ)
    ⟨Real.sqrt, Real.exp, Real.pi⟩ ⟨200, 200, 200⟩ 0.75 rfl (by decide)
  obtain ⟨g3, b3, hu3, hb3, -⟩ := update_flag
    ({ K := 4,
       gDists := [⟨40, 40, 40, 8, 0.25, 0⟩, ⟨60, 60, 60, 8, 0.25, 0⟩,
                  ⟨200, 200, 200, 8, 0.25, 0⟩, ⟨110, 110, 110, 8, 0.25, 0⟩],
       lr := 0.003, highVariance := 36, minVariance := 8 } : GMM ℝ)
    ⟨Real.sqrt, Real.exp, Real.pi⟩ ⟨200, 200, 200⟩ 0.75 rfl (by decide)
  have e2 : b2 = 0 := by
    rw [hb2]
    norm_num [scanOf, scanLoop, updateStep, bgGaussianI, sqDist, Fin.coe_ofNat_eq_mod]
  have e3 : b3 = 1 := by
    rw [hb3]
    norm_num [scanOf, scanLoop, updateStep, bgGaussianI, sqDist, Fin.coe_ofNat_eq_mod]
  rw [e2] at hu2
  rw [e3] at hu3
  exact ⟨g2, g3, hu2, hu3⟩

end Theorems

end GMMBg
